import Mathlib

/-!
# VE.Direct reader (`vicread.cpp`): streaming block decoder

A shallow embedding of the decoding loop of `main` in `src/vicread.cpp`
(lines 178-197 and 239-336) together with the line grammar
`ve_direct_line_regex` (lines 111-117), and theorems about them.

Conventions of the embedding:

* a byte (`char`) is a natural number, a `std::string` is a list of bytes;
* the `unsigned char` checksum accumulator wraps modulo `2^8`, the
  `unsigned int` counters wrap modulo `2^32` and the `unsigned long`
  byte counter wraps modulo `2^64` (LP64 Linux);
* `std::cout` is the list of records written, each with its terminating
  line feed; `std::cerr` is the list of calls of `print_error_info`
  (the timestamp and the floating point percentages are not modelled);
* a failing `assert` stops the program: the decoder state carries the flag
  `aborted`, and an aborted decoder does nothing any more;
* the `while` loops run on fuel taken from the length of the buffer, which
  every iteration shortens; `strip_unfold`, `getlines_line` and
  `blockLoop_exhausts` show that the fuel suffices;
* `regex_search` with the pattern `^...$` is the match of the whole line
  against the regular expression between the anchors, a Mathlib
  `RegularExpression` over bytes.
-/

namespace VEDirect

/-! ## Bytes and `std::string` operations -/

abbrev Bytes := List Nat

/-- The bytes of an ASCII string literal. -/
def str (s : String) : Bytes := s.toList.map Char.toNat

/-- Search of `pat` in the text `s`, which starts at offset `i` of the
whole string: the offset of the first occurrence. -/
def findAux (pat : Bytes) : Bytes → Nat → Option Nat
  | [], i => if pat.isPrefixOf [] then some i else none
  | c :: cs, i => if pat.isPrefixOf (c :: cs) then some i else findAux pat cs (i + 1)

/-- The call `s.find(pat, pos)` of `std::string`; `none` is `npos`. -/
def find (s pat : Bytes) (pos : Nat) : Option Nat :=
  if pos ≤ s.length then findAux pat (s.drop pos) pos else none

/-- The call `s.erase(pos, len)` of `std::string`, for `pos ≤ s.size()`. -/
def erase (s : Bytes) (pos len : Nat) : Bytes := s.take pos ++ s.drop (pos + len)

/-! ## The line grammar `ve_direct_line_regex` -/

/-- A character class `[lo-hi]`. -/
def range (lo hi : Nat) : RegularExpression Nat :=
  ((List.range' lo (hi + 1 - lo)).map RegularExpression.char).foldr (· + ·) 0

/-- A literal string. -/
def lit (s : Bytes) : RegularExpression Nat :=
  (s.map RegularExpression.char).foldr (· * ·) 1

/-- The quantifier `+`. -/
def oneOrMore (r : RegularExpression Nat) : RegularExpression Nat :=
  r * RegularExpression.star r

/-- The quantifier `?`. -/
def optional (r : RegularExpression Nat) : RegularExpression Nat := 1 + r

/-- The first alternative:
`[A-Z][A-Za-z0-9]*\t(?:-?[0-9]+|0x[A-F0-9]+|ON|OFF|---)`. -/
def regex_name_value : RegularExpression Nat :=
  range 65 90 * RegularExpression.star (range 65 90 + range 97 122 + range 48 57) *
    RegularExpression.char 9 *
    (optional (RegularExpression.char 45) * oneOrMore (range 48 57)
      + lit (str "0x") * oneOrMore (range 65 70 + range 48 57)
      + lit (str "ON") + lit (str "OFF") + lit (str "---"))

/-- The second alternative: `(?:BMV|SER#|FWE)\t[A-Z0-9][A-Za-z0-9/ ]*`. -/
def regex_string_value : RegularExpression Nat :=
  (lit (str "BMV") + lit (str "SER#") + lit (str "FWE")) *
    RegularExpression.char 9 *
    ((range 65 90 + range 48 57) *
      RegularExpression.star
        (range 65 90 + range 97 122 + range 48 57 + RegularExpression.char 47 +
          RegularExpression.char 32))

/-- The pattern of `ve_direct_line_regex` between its anchors `^` and `$`:
`(?:` first alternative `|` second alternative `)\r`. -/
def ve_direct_line_regex : RegularExpression Nat :=
  (regex_name_value + regex_string_value) * RegularExpression.char 13

/-- The call `std::regex_search(line, re)` for a pattern `^re$`: the pattern
is anchored at both ends (ECMAScript grammar, no `multiline` flag), so the
search succeeds exactly when the whole line matches `re`. -/
def regex_search (line : Bytes) (re : RegularExpression Nat) : Bool :=
  re.rmatch line

/-! ## Decoder state -/

/-- Modulus of `unsigned int`. -/
def UINT_MOD : Nat := 4294967296

/-- Modulus of `unsigned long`. -/
def ULONG_MOD : Nat := 18446744073709551616

/-- One call of `print_error_info`: the context string, the byte counter
and, once a valid block has been seen, the block counters it prints
(total, valid, checksum errors, format errors). -/
structure ErrorInfo where
  first_line : Bytes
  received_bytes : Nat
  counters : Option (Nat × Nat × Nat × Nat)
deriving DecidableEq, Repr

/-- The state of the decoding loop: the buffer `readcharbuf`, the four
static counters, what has been written to `std::cout` and `std::cerr`,
whether an `assert` has failed, and (history only, not program state) the
blocks extracted so far, over which the checksum has been computed. -/
structure Decoder where
  readcharbuf : Bytes
  chksum_errors : Nat
  format_errors : Nat
  valid_blocks : Nat
  received_bytes : Nat
  cout : List Bytes
  cerr : List ErrorInfo
  aborted : Bool
  extracted : List Bytes
deriving DecidableEq, Repr

/-- The decoder when the program enters the read loop. -/
def init : Decoder :=
  { readcharbuf := [], chksum_errors := 0, format_errors := 0, valid_blocks := 0,
    received_bytes := 0, cout := [], cerr := [], aborted := false, extracted := [] }

/-- A failed `assert`. -/
def abort (d : Decoder) : Decoder := { d with aborted := true }

/-- The function `print_error_info` (lines 128-153). -/
def print_error_info (d : Decoder) (first_line : Bytes) : Decoder :=
  if d.valid_blocks = 0 then
    { d with cerr := d.cerr ++ [⟨first_line, d.received_bytes, none⟩] }
  else
    let t := (d.valid_blocks + d.chksum_errors + d.format_errors) % UINT_MOD
    { d with cerr := d.cerr ++
        [⟨first_line, d.received_bytes,
          some (t, d.valid_blocks, d.chksum_errors, d.format_errors)⟩] }

/-! ## The white list filter (lines 178-197) -/

/-- The loop of `std::unique` with the predicate `a == ',' && b == ','`:
`last` is the element kept last. -/
def uniqueAux (last : Nat) : Bytes → Bytes
  | [] => []
  | b :: rest =>
    if last = 44 ∧ b = 44 then uniqueAux last rest else b :: uniqueAux b rest

/-- The call `filter.erase(std::unique(...), filter.end())`. -/
def unique : Bytes → Bytes
  | [] => []
  | a :: rest => a :: uniqueAux a rest

/-- The filter string built from the arguments `argv[2..]`. -/
def mkFilter (args : List Bytes) : Bytes :=
  let filter := args.foldl (fun f arg => f ++ arg ++ [44]) [44]
  let filter := filter.map (fun c => if c = 32 then 44 else c)
  let filter := unique filter
  if filter = [44] then [] else filter

/-! ## The async message strip (lines 249-255) -/

/-- One iteration of the strip loop: `none` when the loop condition fails. -/
def stripStep (readcharbuf : Bytes) : Option Bytes :=
  match find readcharbuf (str ":A") 0 with
  | none => none
  | some starthex =>
    match find readcharbuf (str "\n") starthex with
    | none => none
    | some endhex => some (erase readcharbuf starthex (endhex - starthex + 1))

/-- The strip loop on fuel. -/
def stripLoop : Nat → Bytes → Bytes
  | 0, readcharbuf => readcharbuf
  | fuel + 1, readcharbuf =>
    match stripStep readcharbuf with
    | none => readcharbuf
    | some b => stripLoop fuel b

/-- The strip loop: every iteration removes at least three bytes. -/
def strip (readcharbuf : Bytes) : Bytes := stripLoop readcharbuf.length readcharbuf

/-! ## One block (lines 261-334) -/

/-- The checksum loop (lines 268-270): `unsigned char sum` wraps. -/
def checksum (block : Bytes) : Nat := block.foldl (fun sum b => (sum + b) % 256) 0

/-- The call `std::getline(iss, line)` on the unread part of the stream:
`none` when nothing is left to read, otherwise the line (without its
line feed) and the rest of the stream. -/
def getline (iss : Bytes) : Option (Bytes × Bytes) :=
  if iss = [] then none
  else some (iss.takeWhile (fun c => c != 10), (iss.dropWhile (fun c => c != 10)).drop 1)

/-- The lines read by `while (std::getline(iss, line))`, on fuel. -/
def getlinesAux : Nat → Bytes → List Bytes
  | 0, _ => []
  | fuel + 1, iss =>
    match getline iss with
    | none => []
    | some (line, rest) => line :: getlinesAux fuel rest

/-- The lines read by `while (std::getline(iss, line))`: every call
consumes at least one byte. -/
def getlines (block : Bytes) : List Bytes := getlinesAux block.length block

/-- The body of the emit loop (lines 319-334) for one line. -/
def emitLine (filter : Bytes) (d : Decoder) (line : Bytes) : Decoder :=
  if d.aborted then d
  else if line.getLast? ≠ some 13 then abort d
  else
    let line := line.dropLast
    match find line [9] 0 with
    | none => abort d
    | some tab_pos =>
      let name := line.take tab_pos
      if name.length = 0 then abort d
      else
        let value := line.drop (tab_pos + 1)
        if value.length = 0 then abort d
        else if filter = [] ∨ (find filter ([44] ++ name ++ [44]) 0).isSome then
          { d with cout := d.cout ++ [name ++ [9] ++ value ++ [10]] }
        else d

/-- The body of the block loop after the extraction (lines 264-334):
`block` has been cut from the buffer, `startcheck` is the offset of the
checksum marker. -/
def processBlock (filter : Bytes) (d : Decoder) (startcheck : Nat) (block : Bytes) :
    Decoder :=
  let d := { d with received_bytes := (d.received_bytes + block.length) % ULONG_MOD,
                    extracted := d.extracted ++ [block] }
  if checksum block ≠ 0 then
    let d := if d.valid_blocks > 0 then
        { d with chksum_errors := (d.chksum_errors + 1) % UINT_MOD } else d
    print_error_info d (str "ERROR checksum, block discarded.")
  else
    let block := block.take startcheck
    if block.getD 0 0 ≠ 13 ∨ block.getD 1 0 ≠ 10 then
      let d := if d.valid_blocks > 0 then
          { d with format_errors := (d.format_errors + 1) % UINT_MOD } else d
      print_error_info d
        (str "ERROR format, first 2 characters of block are not \\r\\n, block discarded.")
    else
      let block := block.drop 2
      match (getlines block).find? (fun line => !regex_search line ve_direct_line_regex) with
      | some line =>
        let line := line.filter (fun c => c != 13)
        let d := if d.valid_blocks > 0 then
            { d with format_errors := (d.format_errors + 1) % UINT_MOD } else d
        print_error_info d (str "ERROR format, line \"" ++ line ++ str "\", block discarded.")
      | none =>
        let d := { d with valid_blocks := (d.valid_blocks + 1) % UINT_MOD }
        (getlines block).foldl (emitLine filter) d

/-! ## The block loop and the read loop (lines 240-336) -/

/-- The extraction of lines 259-263: the offset of the checksum marker, the
block and the buffer left; `none` when the loop condition fails. -/
def extractBlock (readcharbuf : Bytes) : Option (Nat × Bytes × Bytes) :=
  match find readcharbuf (str "Checksum\t") 0 with
  | none => none
  | some startcheck =>
    if readcharbuf.length ≥ startcheck + 9 + 1 then
      some (startcheck, readcharbuf.take (startcheck + 9 + 1),
        readcharbuf.drop (startcheck + 9 + 1))
    else none

/-- One iteration of the block loop: `none` when the loop ends. -/
def blockIter (filter : Bytes) (d : Decoder) : Option Decoder :=
  if d.aborted then none
  else
    match extractBlock d.readcharbuf with
    | none => none
    | some (startcheck, block, rest) =>
      some (processBlock filter { d with readcharbuf := rest } startcheck block)

/-- The block loop on fuel. -/
def blockLoop (filter : Bytes) : Nat → Decoder → Decoder
  | 0, d => d
  | fuel + 1, d =>
    match blockIter filter d with
    | none => d
    | some d1 => blockLoop filter fuel d1

/-- One iteration of the read loop for a `read` that returned `chunk`:
append, strip, then extract blocks while there are any (every extraction
shortens the buffer by at least ten bytes). -/
def feed (filter : Bytes) (d : Decoder) (chunk : Bytes) : Decoder :=
  if d.aborted then d
  else if chunk.length = 0 then abort d
  else
    let d := { d with readcharbuf := strip (d.readcharbuf ++ chunk) }
    blockLoop filter d.readcharbuf.length d

/-- The read loop over the chunks returned by the successive `read` calls,
from the initial state. -/
def run (filter : Bytes) (chunks : List Bytes) : Decoder :=
  chunks.foldl (feed filter) init

/-! ## The grammar in the words of the specification -/

/-- An uppercase letter `A`..`Z`. -/
def isUpper (c : Nat) : Prop := 65 ≤ c ∧ c ≤ 90

/-- A lowercase letter `a`..`z`. -/
def isLower (c : Nat) : Prop := 97 ≤ c ∧ c ≤ 122

/-- A digit `0`..`9`. -/
def isDigit (c : Nat) : Prop := 48 ≤ c ∧ c ≤ 57

/-- A hexadecimal digit `0`..`9`, `A`..`F`. -/
def isHexDigit (c : Nat) : Prop := isDigit c ∨ (65 ≤ c ∧ c ≤ 70)

/-- An ASCII letter or digit. -/
def isAlnum (c : Nat) : Prop := isUpper c ∨ isLower c ∨ isDigit c

/-- One uppercase letter followed by any run of ASCII letters and digits. -/
def CapitalizedName (n : Bytes) : Prop :=
  ∃ c rest, n = c :: rest ∧ isUpper c ∧ ∀ x ∈ rest, isAlnum x

/-- An optional `-` then one or more digits. -/
def SignedInteger (v : Bytes) : Prop :=
  ∃ sign ds, v = sign ++ ds ∧ (sign = [] ∨ sign = [45]) ∧ ds ≠ [] ∧ ∀ x ∈ ds, isDigit x

/-- The two bytes `0x` followed by one or more characters of `0-9`, `A-F`. -/
def HexValue (v : Bytes) : Prop :=
  ∃ hs, v = str "0x" ++ hs ∧ hs ≠ [] ∧ ∀ x ∈ hs, isHexDigit x

/-- One uppercase letter or digit followed by any run of letters, digits,
`/` or space. -/
def CapitalizedStringValue (v : Bytes) : Prop :=
  ∃ c rest, v = c :: rest ∧ (isUpper c ∨ isDigit c) ∧
    ∀ x ∈ rest, isAlnum x ∨ x = 47 ∨ x = 32

/-- The value forms of a line with a capitalized name. -/
def PlainValue (v : Bytes) : Prop :=
  SignedInteger v ∨ HexValue v ∨ v = str "ON" ∨ v = str "OFF" ∨ v = str "---"

/-- The grammar of a line, in the words of the specification: `N TAB V CR`
with either a capitalized name and a plain value, or one of the three
names `BMV`, `SER#`, `FWE` and a capitalized string value. -/
def GrammarLine (line : Bytes) : Prop :=
  ∃ N V, line = N ++ [9] ++ V ++ [13] ∧
    ((CapitalizedName N ∧ PlainValue V) ∨
      ((N = str "BMV" ∨ N = str "SER#" ∨ N = str "FWE") ∧ CapitalizedStringValue V))

/-! ## Occurrences -/

/-- `pat` occurs in `s` at offset `i`. -/
def occursAt (pat s : Bytes) (i : Nat) : Prop := i ≤ s.length ∧ pat <+: s.drop i

instance (pat s : Bytes) (i : Nat) : Decidable (occursAt pat s i) := by
  unfold occursAt; exact inferInstance

/-! ## Lines and records -/

/-- A byte of a name of the grammar: a letter, a digit or `#`. -/
def isNameChar (c : Nat) : Prop := isAlnum c ∨ c = 35

/-- A byte of a value of the grammar: a letter, a digit, `-`, `/` or space. -/
def isValueChar (c : Nat) : Prop := isAlnum c ∨ c = 45 ∨ c = 47 ∨ c = 32

/-- The name of a line: the bytes before its first TAB. -/
def nameOf (line : Bytes) : Bytes := line.takeWhile (fun c => c != 9)

/-- The record written for a line: the line without its last byte (the
carriage return), followed by the line terminator. -/
def recordOf (line : Bytes) : Bytes := line.dropLast ++ [10]

/-- The filter test of line 331. -/
def passesFilter (filter name : Bytes) : Bool :=
  decide (filter = [] ∨ (find filter ([44] ++ name ++ [44]) 0).isSome)

/-! ## Async messages -/

/-- The buffer holds a complete async message: an occurrence of `:A` with a
line feed at some later position. -/
def hasCompleteAsync (b : Bytes) : Prop :=
  ∃ i j, occursAt (str ":A") b i ∧ i < j ∧ b[j]? = some 10

/-- The byte sequence `B` with `M` inserted at position `p`. -/
def insertAt (B : Bytes) (p : Nat) (M : Bytes) : Bytes := B.take p ++ M ++ B.drop p

/-! ## Well-formed blocks -/

/-- The bytes of a block: `\r\n`, the lines each followed by a line feed,
the checksum marker and the checksum byte `c`. -/
def frame (lines : List Bytes) (c : Nat) : Bytes :=
  str "\r\n" ++ (lines.map (fun line => line ++ str "\n")).flatten ++ str "Checksum\t" ++ [c]

/-! ## The filter in the words of the specification -/

/-- A separator of the filter arguments: a comma or a space. -/
def isSeparator (c : Nat) : Bool := c == 44 || c == 32

/-- The names of the filter: the pieces of all the filter arguments between
commas and spaces, empty pieces dropped. -/
def filterNames (args : List Bytes) : List Bytes :=
  ((args.map (fun arg => arg.splitOnP isSeparator)).flatten).filter (fun n => !n.isEmpty)

/-- A record with this name is let through by a filter with these names:
there are no names, or the name is one of them. -/
def nameAllowed (names : List Bytes) (name : Bytes) : Bool :=
  decide (names = [] ∨ name ∈ names)

/-! ## Blocks that pass both validators -/

/-- The block passes both validators when its checksum field starts at
offset `startcheck`: its bytes sum to zero modulo 256, the bytes before the
checksum field begin with `\r\n`, and every line after them is a line of the
grammar. -/
def passesValidators (startcheck : Nat) (block : Bytes) : Prop :=
  checksum block = 0 ∧ [13, 10] <+: block.take startcheck ∧
    ∀ line ∈ getlines ((block.take startcheck).drop 2), GrammarLine line

/-- The text of an extracted block: the block without its last ten bytes,
the checksum marker and the checksum byte. -/
def blockText (block : Bytes) : Bytes := block.take (block.length - 10)

/-- The test of both validators on an extracted block, as the program
computes it. -/
def isValidBlock (block : Bytes) : Bool :=
  (checksum block == 0) &&
    (((blockText block).getD 0 0 == 13) && ((blockText block).getD 1 0 == 10)) &&
    (getlines ((blockText block).drop 2)).all
      (fun line => regex_search line ve_direct_line_regex)

/-! ## Bit flips -/

/-- The block with bit 7 of the byte at position `i` flipped. -/
def flipBit7At (block : Bytes) (i : Nat) : Bytes := block.set i (block.getD i 0 ^^^ 128)

/-! ## Byte accounting -/

/-- The total length of a list of byte strings. -/
def totalLength (blocks : List Bytes) : Nat := (blocks.map List.length).sum

/-- The number of bytes the strip loop removes when `chunk` is read. -/
def strippedBy (d : Decoder) (chunk : Bytes) : Nat :=
  (d.readcharbuf ++ chunk).length - (strip (d.readcharbuf ++ chunk)).length

/-- The number of bytes the strip loop removes over the reads of `chunks`,
starting from the decoder `d`. -/
def strippedTotal (filter : Bytes) : Decoder → List Bytes → Nat
  | _, [] => 0
  | d, chunk :: chunks => strippedBy d chunk + strippedTotal filter (feed filter d chunk) chunks

/-! ## Counted blocks -/

/-- The number of blocks from the first valid block onward. -/
def countedBlocks (blocks : List Bytes) : Nat :=
  (blocks.dropWhile (fun block => !isValidBlock block)).length

/-- The invariant of the counters, as long as fewer than `2^32` blocks have
been extracted: the three counters add up to the number of blocks from the
first valid block onward, `valid_blocks` is zero exactly when there is none,
and every diagnostic that reports a total reports the sum of the three
counters, which is not zero. -/
def countersInv (d : Decoder) : Prop :=
  d.extracted.length < UINT_MOD →
    d.valid_blocks + d.chksum_errors + d.format_errors = countedBlocks d.extracted ∧
      (d.valid_blocks = 0 ↔ countedBlocks d.extracted = 0) ∧
      ∀ e ∈ d.cerr, ∀ t v c f, e.counters = some (t, v, c, f) →
        t = v + c + f ∧ t ≠ 0 ∧ v ≠ 0

/-! ## Facts about `find` -/

theorem findAux_none {pat : Bytes} : ∀ (s : Bytes) (k : Nat),
    findAux pat s k = none ↔ ∀ j, j ≤ s.length → ¬ pat <+: s.drop j
  | [], k => by
    simp only [findAux, List.isPrefixOf_iff_prefix]
    constructor
    · intro h j _
      simpa using h
    · intro h
      have := h 0 (Nat.le_refl _)
      simpa using this
  | c :: cs, k => by
    simp only [findAux, List.isPrefixOf_iff_prefix]
    by_cases hp : pat <+: c :: cs
    · simp only [hp, if_true]
      constructor
      · intro h; cases h
      · intro h; exact absurd hp (h 0 (Nat.zero_le _))
    · simp only [hp, if_false, findAux_none cs (k + 1)]
      constructor
      · intro h j hj
        cases j with
        | zero => simpa using hp
        | succ j => simpa using h j (by simpa using hj)
      · intro h j hj
        simpa using h (j + 1) (by simpa using hj)

theorem findAux_some {pat : Bytes} : ∀ (s : Bytes) (k i : Nat),
    findAux pat s k = some i ↔
      ∃ j, i = k + j ∧ j ≤ s.length ∧ pat <+: s.drop j ∧ ∀ j2, j2 < j → ¬ pat <+: s.drop j2
  | [], k, i => by
    simp only [findAux, List.isPrefixOf_iff_prefix]
    by_cases hp : pat <+: []
    · simp only [hp, if_true, Option.some.injEq]
      constructor
      · intro h; exact ⟨0, by omega, by simp, by simpa using hp, by intro j2 h2; omega⟩
      · rintro ⟨j, hj, hl, _, _⟩
        simp at hl; omega
    · simp only [hp, if_false]
      constructor
      · intro h; cases h
      · rintro ⟨j, _, _, h3, _⟩
        simp at h3; simp [h3] at hp
  | c :: cs, k, i => by
    simp only [findAux, List.isPrefixOf_iff_prefix]
    by_cases hp : pat <+: c :: cs
    · simp only [hp, if_true, Option.some.injEq]
      constructor
      · intro h; exact ⟨0, by omega, by simp, by simpa using hp, by intro j2 h2; omega⟩
      · rintro ⟨j, hj, _, _, hmin⟩
        cases j with
        | zero => omega
        | succ j => exact absurd (by simpa using hp) (hmin 0 (by omega))
    · simp only [hp, if_false, findAux_some cs (k + 1) i]
      constructor
      · rintro ⟨j, hj, hl, h3, hmin⟩
        refine ⟨j + 1, by omega, by simpa using hl, by simpa using h3, ?_⟩
        intro j2 h2
        cases j2 with
        | zero => simpa using hp
        | succ j2 => simpa using hmin j2 (by omega)
      · rintro ⟨j, hj, hl, h3, hmin⟩
        cases j with
        | zero => exact absurd (by simpa using h3) hp
        | succ j =>
          refine ⟨j, by omega, by simpa using hl, by simpa using h3, ?_⟩
          intro j2 h2
          simpa using hmin (j2 + 1) (by omega)

theorem find_some {s pat : Bytes} {pos i : Nat} :
    find s pat pos = some i ↔
      pos ≤ i ∧ occursAt pat s i ∧ ∀ j, pos ≤ j → j < i → ¬ occursAt pat s j := by
  unfold find occursAt
  by_cases hpos : pos ≤ s.length
  · simp only [hpos, if_true, findAux_some, List.length_drop, List.drop_drop]
    constructor
    · rintro ⟨j, rfl, hl, h3, hmin⟩
      refine ⟨by omega, ⟨by omega, by simpa [Nat.add_comm] using h3⟩, ?_⟩
      rintro j2 h1 h2 ⟨_, h4⟩
      have := hmin (j2 - pos) (by omega)
      apply this
      have e : pos + (j2 - pos) = j2 := by omega
      simpa [e, Nat.add_comm] using h4
    · rintro ⟨h1, ⟨h2, h3⟩, hmin⟩
      refine ⟨i - pos, by omega, by omega, ?_, ?_⟩
      · have e : pos + (i - pos) = i := by omega
        simpa [e, Nat.add_comm] using h3
      · intro j2 hj2 h4
        exact hmin (pos + j2) (by omega) (by omega) ⟨by omega, by simpa [Nat.add_comm] using h4⟩
  · simp only [hpos, if_false]
    constructor
    · intro h; cases h
    · rintro ⟨h1, ⟨h2, _⟩, _⟩
      omega

theorem find_none {s pat : Bytes} {pos : Nat} :
    find s pat pos = none ↔ ∀ j, pos ≤ j → ¬ occursAt pat s j := by
  unfold find occursAt
  by_cases hpos : pos ≤ s.length
  · simp only [hpos, if_true, findAux_none, List.length_drop, List.drop_drop]
    constructor
    · rintro h j hj ⟨h1, h2⟩
      apply h (j - pos) (by omega)
      have e : pos + (j - pos) = j := by omega
      simpa [e, Nat.add_comm] using h2
    · intro h j hj h2
      exact h (pos + j) (by omega) ⟨by omega, by simpa [Nat.add_comm] using h2⟩
  · simp only [hpos, if_false, true_iff]
    rintro j hj ⟨h1, _⟩
    omega

/-! ## The regular expression and the grammar -/

theorem mem_chars (l : List Nat) (x : Bytes) :
    x ∈ ((l.map RegularExpression.char).foldr (· + ·) 0).matches' ↔ ∃ c ∈ l, x = [c] := by
  induction l with
  | nil => simp [Language.not_mem_zero]
  | cons a l ih =>
    simp only [List.map_cons, List.foldr_cons, RegularExpression.matches'_add,
      Language.mem_add, ih, RegularExpression.matches'_char, List.mem_cons]
    constructor
    · rintro (h | ⟨c, hc, rfl⟩)
      · exact ⟨a, Or.inl rfl, h⟩
      · exact ⟨c, Or.inr hc, rfl⟩
    · rintro ⟨c, rfl | hc, rfl⟩
      · exact Or.inl rfl
      · exact Or.inr ⟨c, hc, rfl⟩

theorem mem_range (lo hi : Nat) (x : Bytes) :
    x ∈ (range lo hi).matches' ↔ ∃ c, x = [c] ∧ lo ≤ c ∧ c ≤ hi := by
  unfold range
  rw [mem_chars]
  constructor
  · rintro ⟨c, hc, rfl⟩
    rw [List.mem_range'_1] at hc
    exact ⟨c, rfl, by omega, by omega⟩
  · rintro ⟨c, rfl, h1, h2⟩
    exact ⟨c, by rw [List.mem_range'_1]; omega, rfl⟩

theorem mem_lit (s x : Bytes) : x ∈ (lit s).matches' ↔ x = s := by
  unfold lit
  induction s generalizing x with
  | nil => simp [Language.mem_one]
  | cons a s ih =>
    simp only [List.map_cons, List.foldr_cons, RegularExpression.matches'_mul,
      Language.mem_mul, RegularExpression.matches'_char]
    constructor
    · rintro ⟨u, hu, v, hv, rfl⟩
      rw [ih] at hv
      rw [Set.mem_singleton_iff] at hu
      simp [hu, hv]
    · rintro rfl
      exact ⟨[a], rfl, s, (ih s).2 rfl, rfl⟩

/-- The star of a language of single characters. -/
theorem mem_kstar_class {L : Language Nat} {p : Nat → Prop}
    (hL : ∀ y, y ∈ L ↔ ∃ c, y = [c] ∧ p c) (x : Bytes) :
    x ∈ KStar.kstar L ↔ ∀ c ∈ x, p c := by
  rw [Language.mem_kstar]
  constructor
  · rintro ⟨S, rfl, hS⟩ c hc
    rw [List.mem_flatten] at hc
    obtain ⟨y, hy, hcy⟩ := hc
    obtain ⟨c2, rfl, hp⟩ := (hL y).1 (hS y hy)
    simp at hcy
    subst hcy
    exact hp
  · intro h
    refine ⟨x.map (fun c => [c]), ?_, ?_⟩
    · clear h
      induction x with
      | nil => rfl
      | cons a x ih => simp [← ih]
    · intro y hy
      rw [List.mem_map] at hy
      obtain ⟨c, hc, rfl⟩ := hy
      exact (hL _).2 ⟨c, rfl, h c hc⟩

theorem mem_alnum (y : Bytes) :
    y ∈ (range 65 90 + range 97 122 + range 48 57).matches' ↔ ∃ c, y = [c] ∧ isAlnum c := by
  simp only [RegularExpression.matches'_add, Language.mem_add, mem_range, isAlnum, isUpper,
    isLower, isDigit]
  constructor
  · rintro ((⟨c, rfl, h⟩ | ⟨c, rfl, h⟩) | ⟨c, rfl, h⟩)
    · exact ⟨c, rfl, Or.inl h⟩
    · exact ⟨c, rfl, Or.inr (Or.inl h)⟩
    · exact ⟨c, rfl, Or.inr (Or.inr h)⟩
  · rintro ⟨c, rfl, h | h | h⟩
    · exact Or.inl (Or.inl ⟨c, rfl, h⟩)
    · exact Or.inl (Or.inr ⟨c, rfl, h⟩)
    · exact Or.inr ⟨c, rfl, h⟩

theorem mem_hex (y : Bytes) :
    y ∈ (range 65 70 + range 48 57).matches' ↔ ∃ c, y = [c] ∧ isHexDigit c := by
  simp only [RegularExpression.matches'_add, Language.mem_add, mem_range, isHexDigit, isDigit]
  constructor
  · rintro (⟨c, rfl, h⟩ | ⟨c, rfl, h⟩)
    · exact ⟨c, rfl, Or.inr h⟩
    · exact ⟨c, rfl, Or.inl h⟩
  · rintro ⟨c, rfl, h | h⟩
    · exact Or.inr ⟨c, rfl, h⟩
    · exact Or.inl ⟨c, rfl, h⟩

theorem mem_strchar (y : Bytes) :
    y ∈ (range 65 90 + range 97 122 + range 48 57 + RegularExpression.char 47 +
        RegularExpression.char 32).matches' ↔
      ∃ c, y = [c] ∧ (isAlnum c ∨ c = 47 ∨ c = 32) := by
  rw [RegularExpression.matches'_add, RegularExpression.matches'_add, Language.mem_add,
    Language.mem_add, mem_alnum]
  simp only [RegularExpression.matches'_char, Set.mem_singleton_iff]
  constructor
  · rintro ((⟨c, rfl, h⟩ | rfl) | rfl)
    · exact ⟨c, rfl, Or.inl h⟩
    · exact ⟨47, rfl, Or.inr (Or.inl rfl)⟩
    · exact ⟨32, rfl, Or.inr (Or.inr rfl)⟩
  · rintro ⟨c, rfl, h | rfl | rfl⟩
    · exact Or.inl (Or.inl ⟨c, rfl, h⟩)
    · exact Or.inl (Or.inr rfl)
    · exact Or.inr rfl

theorem mem_oneOrMore {r : RegularExpression Nat} {p : Nat → Prop}
    (hr : ∀ y, y ∈ r.matches' ↔ ∃ c, y = [c] ∧ p c) (x : Bytes) :
    x ∈ (oneOrMore r).matches' ↔ x ≠ [] ∧ ∀ c ∈ x, p c := by
  unfold oneOrMore
  rw [RegularExpression.matches'_mul, RegularExpression.matches'_star, Language.mem_mul]
  constructor
  · rintro ⟨u, hu, v, hv, rfl⟩
    obtain ⟨c, rfl, hc⟩ := (hr u).1 hu
    rw [mem_kstar_class hr] at hv
    refine ⟨by simp, ?_⟩
    intro d hd
    simp only [List.singleton_append, List.mem_cons] at hd
    rcases hd with rfl | hd
    · exact hc
    · exact hv d hd
  · rintro ⟨hne, h⟩
    cases x with
    | nil => exact absurd rfl hne
    | cons c x =>
      refine ⟨[c], (hr _).2 ⟨c, rfl, h c (by simp)⟩, x, ?_, rfl⟩
      rw [mem_kstar_class hr]
      intro d hd
      exact h d (by simp [hd])

theorem mem_capitalizedName (x : Bytes) :
    x ∈ (range 65 90 *
        RegularExpression.star (range 65 90 + range 97 122 + range 48 57)).matches' ↔
      CapitalizedName x := by
  rw [RegularExpression.matches'_mul, RegularExpression.matches'_star, Language.mem_mul]
  unfold CapitalizedName
  constructor
  · rintro ⟨u, hu, v, hv, rfl⟩
    rw [mem_range] at hu
    obtain ⟨c, rfl, hc⟩ := hu
    rw [mem_kstar_class mem_alnum] at hv
    exact ⟨c, v, rfl, hc, hv⟩
  · rintro ⟨c, rest, rfl, hc, hrest⟩
    exact ⟨[c], (mem_range _ _ _).2 ⟨c, rfl, hc⟩, rest, (mem_kstar_class mem_alnum _).2 hrest, rfl⟩

theorem mem_capitalizedStringValue (x : Bytes) :
    x ∈ ((range 65 90 + range 48 57) *
        RegularExpression.star
          (range 65 90 + range 97 122 + range 48 57 + RegularExpression.char 47 +
            RegularExpression.char 32)).matches' ↔
      CapitalizedStringValue x := by
  rw [RegularExpression.matches'_mul, RegularExpression.matches'_star, Language.mem_mul]
  unfold CapitalizedStringValue
  constructor
  · rintro ⟨u, hu, v, hv, rfl⟩
    rw [RegularExpression.matches'_add, Language.mem_add, mem_range, mem_range] at hu
    rw [mem_kstar_class mem_strchar] at hv
    rcases hu with ⟨c, rfl, hc⟩ | ⟨c, rfl, hc⟩
    · exact ⟨c, v, rfl, Or.inl hc, hv⟩
    · exact ⟨c, v, rfl, Or.inr hc, hv⟩
  · rintro ⟨c, rest, rfl, hc, hrest⟩
    refine ⟨[c], ?_, rest, (mem_kstar_class mem_strchar _).2 hrest, rfl⟩
    rw [RegularExpression.matches'_add, Language.mem_add, mem_range, mem_range]
    rcases hc with hc | hc
    · exact Or.inl ⟨c, rfl, hc⟩
    · exact Or.inr ⟨c, rfl, hc⟩

theorem mem_plainValue (x : Bytes) :
    x ∈ (optional (RegularExpression.char 45) * oneOrMore (range 48 57)
      + lit (str "0x") * oneOrMore (range 65 70 + range 48 57)
      + lit (str "ON") + lit (str "OFF") + lit (str "---")).matches' ↔ PlainValue x := by
  simp only [RegularExpression.matches'_add, Language.mem_add, mem_lit,
    RegularExpression.matches'_mul, Language.mem_mul, mem_oneOrMore mem_hex,
    mem_oneOrMore (mem_range 48 57), optional, RegularExpression.matches'_epsilon,
    Language.mem_one, RegularExpression.matches'_char, Set.mem_singleton_iff]
  unfold PlainValue SignedInteger HexValue isDigit
  constructor
  · rintro ((((⟨s, hs, ds, hds, rfl⟩ | ⟨a, rfl, hs, hhs, rfl⟩) | h) | h) | h)
    · exact Or.inl ⟨s, ds, rfl, hs, hds⟩
    · exact Or.inr (Or.inl ⟨hs, rfl, hhs⟩)
    · exact Or.inr (Or.inr (Or.inl h))
    · exact Or.inr (Or.inr (Or.inr (Or.inl h)))
    · exact Or.inr (Or.inr (Or.inr (Or.inr h)))
  · rintro (⟨s, ds, rfl, hs, hds⟩ | ⟨hs, rfl, hhs⟩ | h | h | h)
    · exact Or.inl (Or.inl (Or.inl (Or.inl ⟨s, hs, ds, hds, rfl⟩)))
    · exact Or.inl (Or.inl (Or.inl (Or.inr ⟨_, rfl, hs, hhs, rfl⟩)))
    · exact Or.inl (Or.inl (Or.inr h))
    · exact Or.inl (Or.inr h)
    · exact Or.inr h

theorem mem_regex_name_value (x : Bytes) :
    x ∈ regex_name_value.matches' ↔
      ∃ N V, x = N ++ [9] ++ V ∧ CapitalizedName N ∧ PlainValue V := by
  unfold regex_name_value
  rw [RegularExpression.matches'_mul, Language.mem_mul]
  constructor
  · rintro ⟨u, hu, V, hV, rfl⟩
    rw [RegularExpression.matches'_mul, Language.mem_mul] at hu
    obtain ⟨N, hN, t, ht, rfl⟩ := hu
    rw [RegularExpression.matches'_char, Set.mem_singleton_iff] at ht
    subst ht
    exact ⟨N, V, rfl, (mem_capitalizedName N).1 hN, (mem_plainValue V).1 hV⟩
  · rintro ⟨N, V, rfl, hN, hV⟩
    refine ⟨N ++ [9], ?_, V, (mem_plainValue V).2 hV, rfl⟩
    rw [RegularExpression.matches'_mul, Language.mem_mul]
    exact ⟨N, (mem_capitalizedName N).2 hN, [9], rfl, rfl⟩

theorem mem_regex_string_value (x : Bytes) :
    x ∈ regex_string_value.matches' ↔
      ∃ N V, x = N ++ [9] ++ V ∧ (N = str "BMV" ∨ N = str "SER#" ∨ N = str "FWE") ∧
        CapitalizedStringValue V := by
  unfold regex_string_value
  rw [RegularExpression.matches'_mul, Language.mem_mul]
  constructor
  · rintro ⟨u, hu, V, hV, rfl⟩
    rw [RegularExpression.matches'_mul, Language.mem_mul] at hu
    obtain ⟨N, hN, t, ht, rfl⟩ := hu
    rw [RegularExpression.matches'_char, Set.mem_singleton_iff] at ht
    subst ht
    refine ⟨N, V, rfl, ?_, (mem_capitalizedStringValue V).1 hV⟩
    simpa only [RegularExpression.matches'_add, Language.mem_add, mem_lit, or_assoc] using hN
  · rintro ⟨N, V, rfl, hN, hV⟩
    refine ⟨N ++ [9], ?_, V, (mem_capitalizedStringValue V).2 hV, rfl⟩
    rw [RegularExpression.matches'_mul, Language.mem_mul]
    refine ⟨N, ?_, [9], rfl, rfl⟩
    simpa only [RegularExpression.matches'_add, Language.mem_add, mem_lit, or_assoc] using hN

/-- The regular expression of the source accepts exactly the lines of the
grammar. -/
theorem regex_search_iff_grammarLine (line : Bytes) :
    regex_search line ve_direct_line_regex = true ↔ GrammarLine line := by
  unfold regex_search
  rw [RegularExpression.rmatch_iff_matches']
  unfold ve_direct_line_regex GrammarLine
  rw [RegularExpression.matches'_mul, Language.mem_mul]
  constructor
  · rintro ⟨u, hu, v, hv, rfl⟩
    rw [RegularExpression.matches'_char, Set.mem_singleton_iff] at hv
    subst hv
    rw [RegularExpression.matches'_add, Language.mem_add, mem_regex_name_value,
      mem_regex_string_value] at hu
    rcases hu with ⟨N, V, rfl, h1, h2⟩ | ⟨N, V, rfl, h1, h2⟩
    · exact ⟨N, V, rfl, Or.inl ⟨h1, h2⟩⟩
    · exact ⟨N, V, rfl, Or.inr ⟨h1, h2⟩⟩
  · rintro ⟨N, V, rfl, h⟩
    refine ⟨N ++ [9] ++ V, ?_, [13], rfl, rfl⟩
    rw [RegularExpression.matches'_add, Language.mem_add, mem_regex_name_value,
      mem_regex_string_value]
    rcases h with ⟨h1, h2⟩ | ⟨h1, h2⟩
    · exact Or.inl ⟨N, V, rfl, h1, h2⟩
    · exact Or.inr ⟨N, V, rfl, h1, h2⟩

/-- C3: the grammar validator (the regular expression of the source, matched
against a whole line) accepts a line if and only if the line has the form
`N TAB V CR` with either a capitalized name `N` and a value `V` that is a
signed integer, a `0x` hexadecimal value, `ON`, `OFF` or `---`, or a name
`N` among `BMV`, `SER#`, `FWE` and a capitalized string value `V`. -/
theorem C3_grammar_validator_accepts_iff (line : Bytes) :
    regex_search line ve_direct_line_regex = true ↔ GrammarLine line :=
  regex_search_iff_grammarLine line

/-! ## Checksum -/

theorem checksum_foldl (block : Bytes) : ∀ a : Nat,
    block.foldl (fun sum b => (sum + b) % 256) (a % 256) = (a + block.sum) % 256 := by
  induction block with
  | nil => intro a; simp
  | cons b bs ih =>
    intro a
    simp only [List.foldl_cons, List.sum_cons]
    rw [ih (a % 256 + b)]
    omega

theorem checksum_eq (block : Bytes) : checksum block = block.sum % 256 := by
  have := checksum_foldl block 0
  simpa [checksum] using this

/-! ## `print_error_info` only writes to `std::cerr` -/

@[simp] theorem print_error_info_cout (d : Decoder) (m : Bytes) :
    (print_error_info d m).cout = d.cout := by
  unfold print_error_info; split <;> rfl

@[simp] theorem print_error_info_valid_blocks (d : Decoder) (m : Bytes) :
    (print_error_info d m).valid_blocks = d.valid_blocks := by
  unfold print_error_info; split <;> rfl

@[simp] theorem print_error_info_chksum_errors (d : Decoder) (m : Bytes) :
    (print_error_info d m).chksum_errors = d.chksum_errors := by
  unfold print_error_info; split <;> rfl

@[simp] theorem print_error_info_format_errors (d : Decoder) (m : Bytes) :
    (print_error_info d m).format_errors = d.format_errors := by
  unfold print_error_info; split <;> rfl

@[simp] theorem print_error_info_received_bytes (d : Decoder) (m : Bytes) :
    (print_error_info d m).received_bytes = d.received_bytes := by
  unfold print_error_info; split <;> rfl

@[simp] theorem print_error_info_readcharbuf (d : Decoder) (m : Bytes) :
    (print_error_info d m).readcharbuf = d.readcharbuf := by
  unfold print_error_info; split <;> rfl

@[simp] theorem print_error_info_aborted (d : Decoder) (m : Bytes) :
    (print_error_info d m).aborted = d.aborted := by
  unfold print_error_info; split <;> rfl

@[simp] theorem print_error_info_extracted (d : Decoder) (m : Bytes) :
    (print_error_info d m).extracted = d.extracted := by
  unfold print_error_info; split <;> rfl

/-! ## Discarded blocks -/

theorem blockIter_eq {filter : Bytes} {d : Decoder} {startcheck : Nat} {block rest : Bytes}
    (hrun : d.aborted = false)
    (hx : extractBlock d.readcharbuf = some (startcheck, block, rest)) :
    blockIter filter d =
      some (processBlock filter { d with readcharbuf := rest } startcheck block) := by
  simp [blockIter, hrun, hx]

/-- C1: a block whose bytes do not sum to zero modulo 256 is discarded:
nothing is written to the data channel, `valid_blocks` and `format_errors`
keep their values, and `chksum_errors` is incremented (as an `unsigned int`)
exactly when `valid_blocks > 0`. -/
theorem C1_checksum_mismatch_discards (filter : Bytes) (d : Decoder) (startcheck : Nat)
    (block rest : Bytes) (hrun : d.aborted = false)
    (hx : extractBlock d.readcharbuf = some (startcheck, block, rest))
    (hsum : block.sum % 256 ≠ 0) :
    ∃ d1, blockIter filter d = some d1 ∧ d1.cout = d.cout ∧
      d1.valid_blocks = d.valid_blocks ∧ d1.format_errors = d.format_errors ∧
      d1.chksum_errors =
        (if d.valid_blocks > 0 then (d.chksum_errors + 1) % UINT_MOD else d.chksum_errors) := by
  refine ⟨_, blockIter_eq hrun hx, ?_⟩
  have hc : checksum block ≠ 0 := by rw [checksum_eq]; exact hsum
  unfold processBlock
  simp only [hc, ne_eq, not_false_eq_true, if_true]
  by_cases hv : d.valid_blocks > 0 <;> simp [hv]

/-- C1, witness: after one valid block, the block `\r\nV\t12000\r\nChecksum\t`
followed by the wrong checksum byte `0` is discarded with one checksum error. -/
theorem C1_checksum_mismatch_discards_witness :
    ∃ d1, blockIter [] { init with
          readcharbuf := str "\r\nV\t12000\r\nChecksum\t" ++ [0], valid_blocks := 1 } = some d1 ∧
      d1.cout = [] ∧ d1.valid_blocks = 1 ∧ d1.format_errors = 0 ∧ d1.chksum_errors = 1 :=
  C1_checksum_mismatch_discards [] { init with
      readcharbuf := str "\r\nV\t12000\r\nChecksum\t" ++ [0], valid_blocks := 1 }
    11 (str "\r\nV\t12000\r\nChecksum\t" ++ [0]) [] (by decide) (by decide) (by decide)

/-! ## Occurrences as bytes -/

theorem occursAt_cons_get {a : Nat} {pat s : Bytes} {i : Nat}
    (h : occursAt (a :: pat) s i) : s[i]? = some a := by
  obtain ⟨_, t, ht⟩ := h
  have : s[i]? = (s.drop i)[0]? := by simp
  rw [this, ← ht]
  simp

theorem occursAt_cons_succ {a : Nat} {pat s : Bytes} {i : Nat}
    (h : occursAt (a :: pat) s i) : occursAt pat s (i + 1) := by
  obtain ⟨h1, t, ht⟩ := h
  have hd : s.drop (i + 1) = pat ++ t := by
    have : s.drop (i + 1) = (s.drop i).drop 1 := by simp [List.drop_drop, Nat.add_comm]
    rw [this, ← ht]
    rfl
  refine ⟨?_, t, hd.symm⟩
  by_contra hlt
  have : s.drop i = [] := List.drop_eq_nil_of_le (by omega)
  rw [this] at ht
  cases ht

theorem extractBlock_some {buf : Bytes} {startcheck : Nat} {block rest : Bytes}
    (hx : extractBlock buf = some (startcheck, block, rest)) :
    find buf (str "Checksum\t") 0 = some startcheck ∧ startcheck + 10 ≤ buf.length ∧
      block = buf.take (startcheck + 10) ∧ rest = buf.drop (startcheck + 10) := by
  unfold extractBlock at hx
  split at hx
  · cases hx
  · rename_i sc hf
    split at hx
    · rename_i hl
      simp only [Option.some.injEq, Prod.mk.injEq] at hx
      obtain ⟨rfl, rfl, rfl⟩ := hx
      exact ⟨hf, hl, rfl, rfl⟩
    · cases hx

theorem str_checksum : str "Checksum\t" = [67, 104, 101, 99, 107, 115, 117, 109, 9] := by
  decide

/-- A block that starts with `\r\n` still does after the checksum field is
cut off. -/
theorem take_startcheck_crlf {buf : Bytes} {startcheck : Nat} {block rest : Bytes}
    (hx : extractBlock buf = some (startcheck, block, rest))
    (hcrlf : [13, 10] <+: block) :
    [13, 10] <+: block.take startcheck := by
  obtain ⟨hf, hl, rfl, rfl⟩ := extractBlock_some hx
  obtain ⟨_, hocc, _⟩ := find_some.1 hf
  rw [str_checksum] at hocc
  have h0 := occursAt_cons_get hocc
  obtain ⟨t, ht⟩ := hcrlf
  have hb : buf = [13, 10] ++ t ++ buf.drop (startcheck + 10) := by
    rw [ht, List.take_append_drop]
  have hsc : 2 ≤ startcheck := by
    by_contra hlt
    rw [hb] at h0
    have : startcheck = 0 ∨ startcheck = 1 := by omega
    rcases this with h | h <;> simp [h] at h0
  rw [List.take_take, Nat.min_eq_left (by omega)]
  refine ⟨(buf.take startcheck).drop 2, ?_⟩
  have h2 : buf.take 2 = [13, 10] := by
    rw [hb]; rfl
  have h3 : buf.take 2 = (buf.take startcheck).take 2 := by
    rw [List.take_take, Nat.min_eq_left hsc]
  rw [← h2, h3]
  exact List.take_append_drop 2 _
/-- The block after the extraction bookkeeping of line 264. -/
theorem processBlock_checked {filter : Bytes} {d : Decoder} {startcheck : Nat} {block : Bytes}
    (hsum : checksum block = 0) (hcrlf : [13, 10] <+: block.take startcheck) :
    processBlock filter d startcheck block =
      match (getlines ((block.take startcheck).drop 2)).find?
          (fun line => !regex_search line ve_direct_line_regex) with
      | some line =>
        print_error_info
          (if d.valid_blocks > 0 then
            { d with received_bytes := (d.received_bytes + block.length) % ULONG_MOD,
                     extracted := d.extracted ++ [block],
                     format_errors := (d.format_errors + 1) % UINT_MOD }
          else
            { d with received_bytes := (d.received_bytes + block.length) % ULONG_MOD,
                     extracted := d.extracted ++ [block] })
          (str "ERROR format, line \"" ++ line.filter (fun c => c != 13) ++
            str "\", block discarded.")
      | none =>
        (getlines ((block.take startcheck).drop 2)).foldl (emitLine filter)
          { d with received_bytes := (d.received_bytes + block.length) % ULONG_MOD,
                   extracted := d.extracted ++ [block],
                   valid_blocks := (d.valid_blocks + 1) % UINT_MOD } := by
  obtain ⟨t, ht⟩ := hcrlf
  have h0 : (block.take startcheck).getD 0 0 = 13 := by rw [← ht]; rfl
  have h1 : (block.take startcheck).getD 1 0 = 10 := by rw [← ht]; rfl
  unfold processBlock
  simp only [hsum, ne_eq, not_true_eq_false, if_false, h0, h1, or_self]

/-- C2: a checksum-valid block that begins with `\r\n` and has a line that
fails the grammar is discarded as a whole: no record of it is written,
`valid_blocks` (and `chksum_errors`) keep their values, and `format_errors`
is incremented (as an `unsigned int`) exactly when `valid_blocks > 0`. -/
theorem C2_grammar_failure_discards_block (filter : Bytes) (d : Decoder) (startcheck : Nat)
    (block rest line : Bytes) (hrun : d.aborted = false)
    (hx : extractBlock d.readcharbuf = some (startcheck, block, rest))
    (hsum : block.sum % 256 = 0) (hcrlf : [13, 10] <+: block)
    (hline : line ∈ getlines ((block.take startcheck).drop 2))
    (hbad : ¬ GrammarLine line) :
    ∃ d1, blockIter filter d = some d1 ∧ d1.cout = d.cout ∧
      d1.valid_blocks = d.valid_blocks ∧ d1.chksum_errors = d.chksum_errors ∧
      d1.format_errors =
        (if d.valid_blocks > 0 then (d.format_errors + 1) % UINT_MOD else d.format_errors) := by
  refine ⟨_, blockIter_eq hrun hx, ?_⟩
  rw [processBlock_checked (by rw [checksum_eq]; exact hsum) (take_startcheck_crlf hx hcrlf)]
  cases hfind : (getlines ((block.take startcheck).drop 2)).find?
      (fun line => !regex_search line ve_direct_line_regex) with
  | none =>
    exfalso
    rw [List.find?_eq_none] at hfind
    have := hfind line hline
    simp only [Bool.not_eq_true', Bool.not_eq_false] at this
    exact hbad ((regex_search_iff_grammarLine line).1 this)
  | some bad =>
    by_cases hv : d.valid_blocks > 0 <;> simp [hv]

/-- C2, witness: the block `\r\nV\t1\r\nv\t12000\r\nChecksum\t` with its
checksum byte, after one valid block, is discarded with one format error. -/
theorem C2_grammar_failure_discards_block_witness :
    ∃ d1, blockIter [] { init with
          readcharbuf := str "\r\nV\t1\r\nv\t12000\r\nChecksum\t" ++ [125],
          valid_blocks := 1 } = some d1 ∧
      d1.cout = [] ∧ d1.valid_blocks = 1 ∧ d1.chksum_errors = 0 ∧ d1.format_errors = 1 :=
  C2_grammar_failure_discards_block [] { init with
      readcharbuf := str "\r\nV\t1\r\nv\t12000\r\nChecksum\t" ++ [125], valid_blocks := 1 }
    16 (str "\r\nV\t1\r\nv\t12000\r\nChecksum\t" ++ [125]) [] (str "v\t12000\r")
    (by decide) (by decide) (by decide) (by decide) (by decide)
    (fun h => absurd ((regex_search_iff_grammarLine _).2 h) (by decide))

/-! ## The shape of a line of the grammar -/

theorem isAlnum_of_isUpper {c : Nat} (h : isUpper c) : isAlnum c := Or.inl h

theorem isAlnum_of_isDigit {c : Nat} (h : isDigit c) : isAlnum c := Or.inr (Or.inr h)

theorem capitalizedName_shape {N : Bytes} (h : CapitalizedName N) :
    N ≠ [] ∧ ∀ x ∈ N, isAlnum x := by
  obtain ⟨c, rest, rfl, hc, hrest⟩ := h
  refine ⟨by simp, ?_⟩
  intro x hx
  rcases List.mem_cons.1 hx with rfl | hx
  · exact isAlnum_of_isUpper hc
  · exact hrest x hx

theorem plainValue_shape {V : Bytes} (h : PlainValue V) :
    V ≠ [] ∧ ∀ x ∈ V, isValueChar x := by
  rcases h with ⟨sign, ds, rfl, hs, hne, hds⟩ | ⟨hs, rfl, hne, hhs⟩ | rfl | rfl | rfl
  · refine ⟨by simp [hne], ?_⟩
    intro x hx
    rcases List.mem_append.1 hx with hx | hx
    · rcases hs with rfl | rfl
      · cases hx
      · simp only [List.mem_singleton] at hx
        exact Or.inr (Or.inl hx)
    · exact Or.inl (isAlnum_of_isDigit (hds x hx))
  · refine ⟨by simp [str], ?_⟩
    intro x hx
    rcases List.mem_append.1 hx with hx | hx
    · have : x = 48 ∨ x = 120 := by simpa [str] using hx
      rcases this with rfl | rfl
      · exact Or.inl (Or.inr (Or.inr ⟨by omega, by omega⟩))
      · exact Or.inl (Or.inr (Or.inl ⟨by omega, by omega⟩))
    · rcases hhs x hx with h | h
      · exact Or.inl (isAlnum_of_isDigit h)
      · exact Or.inl (Or.inl ⟨by omega, by omega⟩)
  · refine ⟨by simp [str], ?_⟩
    intro x hx
    have : x = 79 ∨ x = 78 := by simpa [str] using hx
    rcases this with rfl | rfl <;> exact Or.inl (Or.inl ⟨by omega, by omega⟩)
  · refine ⟨by simp [str], ?_⟩
    intro x hx
    have : x = 79 ∨ x = 70 := by simpa [str] using hx
    rcases this with rfl | rfl <;> exact Or.inl (Or.inl ⟨by omega, by omega⟩)
  · refine ⟨by simp [str], ?_⟩
    intro x hx
    have : x = 45 := by simpa [str] using hx
    exact Or.inr (Or.inl this)

theorem capitalizedStringValue_shape {V : Bytes} (h : CapitalizedStringValue V) :
    V ≠ [] ∧ ∀ x ∈ V, isValueChar x := by
  obtain ⟨c, rest, rfl, hc, hrest⟩ := h
  refine ⟨by simp, ?_⟩
  intro x hx
  rcases List.mem_cons.1 hx with rfl | hx
  · rcases hc with hc | hc
    · exact Or.inl (isAlnum_of_isUpper hc)
    · exact Or.inl (isAlnum_of_isDigit hc)
  · rcases hrest x hx with h | h | h
    · exact Or.inl h
    · exact Or.inr (Or.inr (Or.inl h))
    · exact Or.inr (Or.inr (Or.inr h))

theorem specialName_shape {N : Bytes} (h : N = str "BMV" ∨ N = str "SER#" ∨ N = str "FWE") :
    N ≠ [] ∧ ∀ x ∈ N, isNameChar x := by
  rcases h with rfl | rfl | rfl
  · refine ⟨by simp [str], ?_⟩
    intro x hx
    have : x = 66 ∨ x = 77 ∨ x = 86 := by simpa [str] using hx
    rcases this with rfl | rfl | rfl <;> exact Or.inl (Or.inl ⟨by omega, by omega⟩)
  · refine ⟨by simp [str], ?_⟩
    intro x hx
    have : x = 83 ∨ x = 69 ∨ x = 82 ∨ x = 35 := by simpa [str] using hx
    rcases this with rfl | rfl | rfl | rfl
    · exact Or.inl (Or.inl ⟨by omega, by omega⟩)
    · exact Or.inl (Or.inl ⟨by omega, by omega⟩)
    · exact Or.inl (Or.inl ⟨by omega, by omega⟩)
    · exact Or.inr rfl
  · refine ⟨by simp [str], ?_⟩
    intro x hx
    have : x = 70 ∨ x = 87 ∨ x = 69 := by simpa [str] using hx
    rcases this with rfl | rfl | rfl <;> exact Or.inl (Or.inl ⟨by omega, by omega⟩)

/-- A line of the grammar is a non-empty name of name bytes, a TAB, a
non-empty value of value bytes and a carriage return. -/
theorem grammarLine_shape {line : Bytes} (h : GrammarLine line) :
    ∃ N V, line = N ++ [9] ++ V ++ [13] ∧ N ≠ [] ∧ V ≠ [] ∧
      (∀ x ∈ N, isNameChar x) ∧ ∀ x ∈ V, isValueChar x := by
  obtain ⟨N, V, rfl, ⟨hN, hV⟩ | ⟨hN, hV⟩⟩ := h
  · exact ⟨N, V, rfl, (capitalizedName_shape hN).1, (plainValue_shape hV).1,
      fun x hx => Or.inl ((capitalizedName_shape hN).2 x hx), (plainValue_shape hV).2⟩
  · exact ⟨N, V, rfl, (specialName_shape hN).1, (capitalizedStringValue_shape hV).1,
      (specialName_shape hN).2, (capitalizedStringValue_shape hV).2⟩

theorem isAlnum_bounds {c : Nat} (h : isAlnum c) : 48 ≤ c ∧ c ≤ 122 ∧ c ≠ 58 := by
  rcases h with ⟨h1, h2⟩ | ⟨h1, h2⟩ | ⟨h1, h2⟩ <;> omega

theorem isNameChar_ne {c : Nat} (h : isNameChar c) :
    c ≠ 9 ∧ c ≠ 10 ∧ c ≠ 13 ∧ c ≠ 58 ∧ c ≠ 44 ∧ c ≠ 32 := by
  rcases h with h | h
  · have := isAlnum_bounds h; omega
  · omega

theorem isValueChar_ne {c : Nat} (h : isValueChar c) :
    c ≠ 9 ∧ c ≠ 10 ∧ c ≠ 13 ∧ c ≠ 58 := by
  rcases h with h | h | h | h
  · have := isAlnum_bounds h; omega
  · omega
  · omega
  · omega

/-! ## The emit loop -/

theorem findAux_singleton {a : Nat} {N : Bytes} (hN : a ∉ N) (V : Bytes) (k : Nat) :
    findAux [a] (N ++ a :: V) k = some (k + N.length) := by
  induction N generalizing k with
  | nil => simp [findAux, List.isPrefixOf]
  | cons n N ih =>
    have hne : a ≠ n := fun h => hN (by simp [h])
    have hN2 : a ∉ N := fun h => hN (by simp [h])
    have hp : [a].isPrefixOf (n :: (N ++ a :: V)) = false := by
      simp [List.isPrefixOf, hne]
    rw [List.cons_append, findAux, hp]
    simp only [Bool.false_eq_true, if_false, ih hN2, List.length_cons, Option.some.injEq]
    omega

theorem find_singleton {a : Nat} {N : Bytes} (hN : a ∉ N) (V : Bytes) :
    find (N ++ a :: V) [a] 0 = some N.length := by
  simp [find, findAux_singleton hN]

theorem nameOf_append {N : Bytes} (hN : 9 ∉ N) (t : Bytes) : nameOf (N ++ 9 :: t) = N := by
  unfold nameOf
  induction N with
  | nil => simp [List.takeWhile_cons]
  | cons n N ih =>
    have hne : n ≠ 9 := fun h => hN (by simp [h])
    have hN2 : 9 ∉ N := fun h => hN (by simp [h])
    rw [List.cons_append, List.takeWhile_cons]
    simp [hne, ih hN2]

theorem nameOf_shape {N : Bytes} (hN : 9 ∉ N) (V : Bytes) :
    nameOf (N ++ [9] ++ V ++ [13]) = N := by
  have := nameOf_append hN (V ++ [13])
  simpa using this

theorem recordOf_shape (N V : Bytes) :
    recordOf (N ++ [9] ++ V ++ [13]) = N ++ [9] ++ V ++ [10] := by
  unfold recordOf
  rw [List.dropLast_concat]

/-- The emit step on a line `N TAB V CR` with a non-empty TAB-free name and
a non-empty value: no assertion fails, and the record is written when the
filter lets the name pass. -/
theorem emitLine_shape (filter : Bytes) (d : Decoder) {N V : Bytes}
    (hrun : d.aborted = false) (hN : N ≠ []) (hV : V ≠ []) (hNt : 9 ∉ N) :
    emitLine filter d (N ++ [9] ++ V ++ [13]) =
      if passesFilter filter N then { d with cout := d.cout ++ [N ++ [9] ++ V ++ [10]] }
      else d := by
  have hlast : (N ++ [9] ++ V ++ [13]).getLast? = some 13 := List.getLast?_concat _
  have hdrop : (N ++ [9] ++ V ++ [13]).dropLast = N ++ 9 :: V := by
    rw [List.dropLast_concat]; simp
  have hNl : N.length ≠ 0 := by simpa [List.length_eq_zero] using hN
  have hVl : V.length ≠ 0 := by simpa [List.length_eq_zero] using hV
  unfold emitLine
  simp only [hrun, Bool.false_eq_true, if_false, hlast, ne_eq, not_true_eq_false, hdrop,
    find_singleton hNt]
  simp only [List.take_left', List.drop_left', List.length_cons, hNl, if_false]
  have hd : List.drop (N.length + 1) (N ++ 9 :: V) = V := by
    rw [List.drop_append_eq_append_drop]
    simp
  simp only [hd, hVl, if_false, passesFilter, decide_eq_true_eq]

theorem emitLine_grammarLine (filter : Bytes) (d : Decoder) {line : Bytes}
    (hrun : d.aborted = false) (h : GrammarLine line) :
    emitLine filter d line =
      if passesFilter filter (nameOf line) then { d with cout := d.cout ++ [recordOf line] }
      else d := by
  obtain ⟨N, V, rfl, hN, hV, hNc, _⟩ := grammarLine_shape h
  have hNt : 9 ∉ N := fun h9 => (isNameChar_ne (hNc 9 h9)).1 rfl
  rw [emitLine_shape filter d hrun hN hV hNt, nameOf_shape hNt, recordOf_shape]

/-- The emit loop over lines of the grammar: no assertion fails, and the
records written are those of the lines whose name passes the filter, in the
order of the lines. -/
theorem foldl_emitLine (filter : Bytes) (lines : List Bytes)
    (hall : ∀ line ∈ lines, GrammarLine line) (d : Decoder) (hrun : d.aborted = false) :
    lines.foldl (emitLine filter) d =
      { d with cout := d.cout ++
          (lines.filter (fun line => passesFilter filter (nameOf line))).map recordOf } := by
  induction lines generalizing d with
  | nil => simp
  | cons line lines ih =>
    have hl : GrammarLine line := hall line (by simp)
    have hrest : ∀ l ∈ lines, GrammarLine l := fun l hl => hall l (by simp [hl])
    rw [List.foldl_cons, emitLine_grammarLine filter d hrun hl]
    by_cases hp : passesFilter filter (nameOf line) = true
    · simp only [hp, if_true]
      rw [ih hrest { d with cout := d.cout ++ [recordOf line] } hrun]
      simp [List.filter_cons, hp]
    · simp only [hp, Bool.false_eq_true, if_false]
      rw [ih hrest d hrun]
      simp [List.filter_cons, hp]

/-! ## What a block writes -/

theorem foldl_emitLine_aborted (filter : Bytes) (lines : List Bytes) (d : Decoder)
    (h : d.aborted = true) : lines.foldl (emitLine filter) d = d := by
  induction lines with
  | nil => rfl
  | cons line lines ih =>
    have : emitLine filter d line = d := by simp [emitLine, h]
    rw [List.foldl_cons, this, ih]

/-- A block is either discarded with one diagnostic, or all its lines are
lines of the grammar and the emit loop runs over them. -/
theorem processBlock_cases (filter : Bytes) (d : Decoder) (startcheck : Nat) (block : Bytes) :
    (∃ d0 m, processBlock filter d startcheck block = print_error_info d0 m ∧
        d0.cout = d.cout ∧ d0.aborted = d.aborted) ∨
      ((∀ line ∈ getlines ((block.take startcheck).drop 2), GrammarLine line) ∧
        processBlock filter d startcheck block =
          (getlines ((block.take startcheck).drop 2)).foldl (emitLine filter)
            { d with received_bytes := (d.received_bytes + block.length) % ULONG_MOD,
                     extracted := d.extracted ++ [block],
                     valid_blocks := (d.valid_blocks + 1) % UINT_MOD }) := by
  unfold processBlock
  by_cases hsum : checksum block = 0
  · by_cases hcrlf : (block.take startcheck).getD 0 0 ≠ 13 ∨ (block.take startcheck).getD 1 0 ≠ 10
    · left
      simp only [hsum, ne_eq, not_true_eq_false, if_false, hcrlf, if_true]
      refine ⟨_, _, rfl, ?_, ?_⟩ <;> split <;> rfl
    · simp only [hsum, ne_eq, not_true_eq_false, if_false, hcrlf]
      cases hfind : (getlines ((block.take startcheck).drop 2)).find?
          (fun line => !regex_search line ve_direct_line_regex) with
      | none =>
        right
        refine ⟨?_, rfl⟩
        intro line hline
        rw [List.find?_eq_none] at hfind
        have := hfind line hline
        simp only [Bool.not_eq_true', Bool.not_eq_false] at this
        exact (regex_search_iff_grammarLine line).1 this
      | some bad =>
        left
        refine ⟨_, _, rfl, ?_, ?_⟩ <;> split <;> rfl
  · left
    simp only [hsum, ne_eq, not_false_eq_true, if_true]
    refine ⟨_, _, rfl, ?_, ?_⟩ <;> split <;> rfl

/-- The records a block adds to the data channel are records of lines of
the grammar. -/
theorem processBlock_cout (filter : Bytes) (d : Decoder) (startcheck : Nat) (block : Bytes) :
    ∃ lines : List Bytes, (∀ line ∈ lines, GrammarLine line) ∧
      (processBlock filter d startcheck block).cout = d.cout ++ lines.map recordOf := by
  rcases processBlock_cases filter d startcheck block with ⟨d0, m, h, hc, _⟩ | ⟨hall, h⟩
  · exact ⟨[], by simp, by rw [h]; simp [hc]⟩
  · rw [h]
    rcases Bool.eq_false_or_eq_true d.aborted with hab | hab
    · rw [foldl_emitLine_aborted filter _
        { d with received_bytes := (d.received_bytes + block.length) % ULONG_MOD,
                 extracted := d.extracted ++ [block],
                 valid_blocks := (d.valid_blocks + 1) % UINT_MOD } hab]
      exact ⟨[], by simp, by simp⟩
    · rw [foldl_emitLine filter _ hall
        { d with received_bytes := (d.received_bytes + block.length) % ULONG_MOD,
                 extracted := d.extracted ++ [block],
                 valid_blocks := (d.valid_blocks + 1) % UINT_MOD } hab]
      refine ⟨(getlines ((block.take startcheck).drop 2)).filter
        (fun line => passesFilter filter (nameOf line)), ?_, rfl⟩
      intro line hline
      exact hall line (List.mem_filter.1 hline).1

/-! ## Invariants of the data channel -/

theorem blockLoop_cout_inv (Q : Bytes → Prop) (hQ : ∀ line, GrammarLine line → Q (recordOf line))
    (filter : Bytes) : ∀ (fuel : Nat) (d : Decoder),
      (∀ r ∈ d.cout, Q r) → ∀ r ∈ (blockLoop filter fuel d).cout, Q r := by
  intro fuel
  induction fuel with
  | zero => intro d h; exact h
  | succ fuel ih =>
    intro d h
    unfold blockLoop
    cases hit : blockIter filter d with
    | none => exact h
    | some d1 =>
      apply ih
      unfold blockIter at hit
      split at hit
      · cases hit
      · split at hit
        · cases hit
        · rename_i sc block rest _
          simp only [Option.some.injEq] at hit
          subst hit
          obtain ⟨lines, hl, hc⟩ := processBlock_cout filter { d with readcharbuf := rest } sc block
          rw [hc]
          intro r hr
          rcases List.mem_append.1 hr with hr | hr
          · exact h r hr
          · obtain ⟨line, hline, rfl⟩ := List.mem_map.1 hr
            exact hQ line (hl line hline)

theorem feed_cout_inv (Q : Bytes → Prop) (hQ : ∀ line, GrammarLine line → Q (recordOf line))
    (filter : Bytes) (d : Decoder) (chunk : Bytes) (h : ∀ r ∈ d.cout, Q r) :
    ∀ r ∈ (feed filter d chunk).cout, Q r := by
  unfold feed
  split
  · exact h
  · split
    · exact h
    · exact blockLoop_cout_inv Q hQ filter _ _ h

theorem foldl_feed_cout_inv (Q : Bytes → Prop)
    (hQ : ∀ line, GrammarLine line → Q (recordOf line))
    (filter : Bytes) (chunks : List Bytes) : ∀ (d : Decoder),
      (∀ r ∈ d.cout, Q r) → ∀ r ∈ (chunks.foldl (feed filter) d).cout, Q r := by
  induction chunks with
  | nil => intro d h; exact h
  | cons chunk chunks ih =>
    intro d h
    exact ih _ (feed_cout_inv Q hQ filter d chunk h)

/-- Every record ever written to the data channel is the record of a line
of the grammar. -/
theorem run_cout_inv (Q : Bytes → Prop) (hQ : ∀ line, GrammarLine line → Q (recordOf line))
    (filter : Bytes) (chunks : List Bytes) : ∀ r ∈ (run filter chunks).cout, Q r :=
  foldl_feed_cout_inv Q hQ filter chunks init (by simp [init])

/-! ## The form of the records written -/

theorem capitalizedName_special {N : Bytes} (h : N = str "BMV" ∨ N = str "FWE") :
    CapitalizedName N := by
  rcases h with rfl | rfl
  · refine ⟨66, [77, 86], by decide, ⟨by omega, by omega⟩, ?_⟩
    intro x hx
    have : x = 77 ∨ x = 86 := by simpa using hx
    rcases this with rfl | rfl <;> exact Or.inl ⟨by omega, by omega⟩
  · refine ⟨70, [87, 69], by decide, ⟨by omega, by omega⟩, ?_⟩
    intro x hx
    have : x = 87 ∨ x = 69 := by simpa using hx
    rcases this with rfl | rfl <;> exact Or.inl ⟨by omega, by omega⟩

theorem capitalizedName_no_hash {N : Bytes} (h : CapitalizedName N) : 35 ∉ N ∧ 9 ∉ N := by
  obtain ⟨_, hall⟩ := capitalizedName_shape h
  constructor
  · intro h35
    have := isAlnum_bounds (hall 35 h35)
    omega
  · intro h9
    have := isAlnum_bounds (hall 9 h9)
    omega

/-- C4, as stated, fails: the checksum-valid block with the single line
`SER#\tHQ2132\r` makes the decoder write the record `SER#\tHQ2132`, and this
record is not of the form name TAB value with a capitalized name, since the
name `SER#` contains `#`. -/
theorem C4_counterexample_ser_name :
    str "SER#\tHQ2132\n" ∈ (run [] [str "\r\nSER#\tHQ2132\r\nChecksum\t" ++ [31]]).cout ∧
      ¬ ∃ name value, str "SER#\tHQ2132\n" = name ++ [9] ++ value ++ [10] ∧
          CapitalizedName name ∧ (PlainValue value ∨ CapitalizedStringValue value) := by
  refine ⟨by decide, ?_⟩
  rintro ⟨name, value, heq, hname, _⟩
  obtain ⟨h35, h9⟩ := capitalizedName_no_hash hname
  have hn : nameOf (str "SER#\tHQ2132\n") = name := by
    rw [heq]
    simpa using nameOf_append h9 (value ++ [10])
  have hd : nameOf (str "SER#\tHQ2132\n") = [83, 69, 82, 35] := by decide
  rw [hd] at hn
  subst hn
  simp at h35

/-- C4, amended: every record written to the data channel, for all chunked
input streams and all filters, has the form name TAB value (followed by the
line terminator) where the name is a capitalized name or is `SER#`, and the
value is one of the value forms of the grammar (signed integer, `0x`
hexadecimal, `ON`, `OFF`, `---`, or a capitalized string value). -/
theorem C4_records_have_grammar_form (filter : Bytes) (chunks : List Bytes) :
    ∀ r ∈ (run filter chunks).cout, ∃ name value, r = name ++ [9] ++ value ++ [10] ∧
      (CapitalizedName name ∨ name = str "SER#") ∧
      (PlainValue value ∨ CapitalizedStringValue value) := by
  apply run_cout_inv
  rintro line ⟨N, V, rfl, ⟨hN, hV⟩ | ⟨hN, hV⟩⟩
  · exact ⟨N, V, recordOf_shape N V, Or.inl hN, Or.inl hV⟩
  · refine ⟨N, V, recordOf_shape N V, ?_, Or.inr hV⟩
    rcases hN with h | h | h
    · exact Or.inl (capitalizedName_special (Or.inl h))
    · exact Or.inr h
    · exact Or.inl (capitalizedName_special (Or.inr h))

/-- C9: for every sequence of read chunks (every input stream, however it is
split into reads) and every filter, no record written to the data channel
contains the byte `:`, hence none contains the marker `:A`. -/
theorem C9_no_async_marker_in_output (filter : Bytes) (chunks : List Bytes) :
    ∀ r ∈ (run filter chunks).cout, 58 ∉ r ∧ ¬ (str ":A" <:+: r) := by
  apply run_cout_inv (fun r => 58 ∉ r ∧ ¬ (str ":A" <:+: r))
  intro line hline
  obtain ⟨N, V, rfl, _, _, hN, hV⟩ := grammarLine_shape hline
  have h58 : 58 ∉ recordOf (N ++ [9] ++ V ++ [13]) := by
    rw [recordOf_shape]
    intro hmem
    simp only [List.mem_append, List.mem_singleton] at hmem
    rcases hmem with ((h | h) | h) | h
    · exact (isNameChar_ne (hN 58 h)).2.2.2.1 rfl
    · omega
    · exact (isValueChar_ne (hV 58 h)).2.2.2 rfl
    · omega
  refine ⟨h58, ?_⟩
  intro hin
  apply h58
  apply List.Sublist.subset hin.sublist
  decide

/-- C4, witness: the record `SER#\tHQ2132` written for the block of the
counterexample has the amended form. -/
theorem C4_records_have_grammar_form_witness :
    ∃ name value, str "SER#\tHQ2132\n" = name ++ [9] ++ value ++ [10] ∧
      (CapitalizedName name ∨ name = str "SER#") ∧
      (PlainValue value ∨ CapitalizedStringValue value) :=
  C4_records_have_grammar_form [] [str "\r\nSER#\tHQ2132\r\nChecksum\t" ++ [31]]
    (str "SER#\tHQ2132\n") (by decide)

/-- C9, witness: the record `V\t12000` written for the block
`\r\nV\t12000\r\nChecksum\t` with checksum byte `68`. -/
theorem C9_no_async_marker_in_output_witness :
    58 ∉ str "V\t12000\n" ∧ ¬ (str ":A" <:+: str "V\t12000\n") :=
  C9_no_async_marker_in_output [] [str "\r\nV\t12000\r\nChecksum\t" ++ [68]]
    (str "V\t12000\n") (by decide)

/-! ## The async message strip -/

theorem occursAt_nil (s : Bytes) (i : Nat) : occursAt [] s i ↔ i ≤ s.length := by
  simp [occursAt]

theorem occursAt_cons (a : Nat) (pat s : Bytes) (i : Nat) :
    occursAt (a :: pat) s i ↔ s[i]? = some a ∧ occursAt pat s (i + 1) := by
  constructor
  · intro h
    exact ⟨occursAt_cons_get h, occursAt_cons_succ h⟩
  · rintro ⟨h1, h2, t, ht⟩
    obtain ⟨hlt, hget⟩ := List.getElem?_eq_some_iff.1 h1
    refine ⟨by omega, t, ?_⟩
    rw [List.drop_eq_getElem_cons hlt, hget, ← ht]
    rfl

theorem occursAt_one (a : Nat) (s : Bytes) (i : Nat) :
    occursAt [a] s i ↔ s[i]? = some a := by
  rw [occursAt_cons, occursAt_nil]
  constructor
  · exact fun h => h.1
  · intro h
    obtain ⟨hlt, _⟩ := List.getElem?_eq_some_iff.1 h
    exact ⟨h, by omega⟩

theorem occursAt_two (a b : Nat) (s : Bytes) (i : Nat) :
    occursAt [a, b] s i ↔ s[i]? = some a ∧ s[i + 1]? = some b := by
  rw [occursAt_cons, occursAt_one]

theorem str_marker : str ":A" = [58, 65] := by decide

theorem str_newline : str "\n" = [10] := by decide

theorem stripStep_some {b b2 : Bytes} :
    stripStep b = some b2 ↔
      ∃ i, find b (str ":A") 0 = some i ∧ ∃ j, find b (str "\n") i = some j ∧
        b2 = erase b i (j - i + 1) := by
  unfold stripStep
  cases h1 : find b (str ":A") 0 with
  | none => simp
  | some i =>
    cases h2 : find b (str "\n") i with
    | none => simp [h2]
    | some j =>
      simp only [Option.some.injEq, h2]
      constructor
      · intro h; exact ⟨i, rfl, j, h2, h.symm⟩
      · rintro ⟨i2, rfl, j2, hj, h⟩
        rw [h2] at hj
        cases hj
        exact h.symm

/-- One iteration of the strip loop removes the span from the first `:A`
through the first line feed after it. -/
theorem stripStep_span {b b2 : Bytes} (h : stripStep b = some b2) :
    ∃ i j, i + 1 < j ∧ j < b.length ∧
      occursAt (str ":A") b i ∧ (∀ k, k < i → ¬ occursAt (str ":A") b k) ∧
      b[j]? = some 10 ∧ (∀ k, i ≤ k → k < j → b[k]? ≠ some 10) ∧
      b2 = b.take i ++ b.drop (j + 1) := by
  obtain ⟨i, h1, j, h2, rfl⟩ := stripStep_some.1 h
  obtain ⟨_, hocc, hfirst⟩ := find_some.1 h1
  obtain ⟨hij, hj, hjfirst⟩ := find_some.1 h2
  rw [str_newline, occursAt_one] at hj
  have hocc2 := hocc
  rw [str_marker, occursAt_two] at hocc2
  obtain ⟨hjlt, _⟩ := List.getElem?_eq_some_iff.1 hj
  have hne1 : j ≠ i := by
    rintro rfl
    rw [hocc2.1] at hj
    cases hj
  have hne2 : j ≠ i + 1 := by
    rintro rfl
    rw [hocc2.2] at hj
    cases hj
  refine ⟨i, j, by omega, hjlt, hocc, fun k hk => hfirst k (Nat.zero_le _) hk, hj, ?_, ?_⟩
  · intro k h1 h2 h3
    exact hjfirst k h1 h2 (by rw [str_newline, occursAt_one]; exact h3)
  · unfold erase
    have : i + (j - i + 1) = j + 1 := by omega
    rw [this]

theorem stripStep_length {b b2 : Bytes} (h : stripStep b = some b2) :
    b2.length + 3 ≤ b.length := by
  obtain ⟨i, j, h1, h2, _, _, _, _, rfl⟩ := stripStep_span h
  simp only [List.length_append, List.length_take, List.length_drop]
  omega

theorem stripLoop_fuel : ∀ (n m : Nat) (b : Bytes), b.length ≤ n → b.length ≤ m →
    stripLoop n b = stripLoop m b := by
  intro n
  induction n with
  | zero =>
    intro m b hn _
    have hb : b = [] := List.length_eq_zero.1 (by omega)
    subst hb
    cases m with
    | zero => rfl
    | succ m => simp [stripLoop, stripStep, find, findAux, str_marker, List.isPrefixOf]
  | succ n ih =>
    intro m b hn hm
    cases m with
    | zero =>
      have hb : b = [] := List.length_eq_zero.1 (by omega)
      subst hb
      simp [stripLoop, stripStep, find, findAux, str_marker, List.isPrefixOf]
    | succ m =>
      simp only [stripLoop]
      cases hs : stripStep b with
      | none => rfl
      | some b2 =>
        have := stripStep_length hs
        exact ih m b2 (by omega) (by omega)

/-- The strip loop, unfolded once: the fuel of `strip` suffices. -/
theorem strip_unfold (b : Bytes) :
    strip b = match stripStep b with
      | none => b
      | some b2 => strip b2 := by
  unfold strip
  cases hs : stripStep b with
  | none =>
    cases hl : b.length with
    | zero => rfl
    | succ n => simp [stripLoop, hs]
  | some b2 =>
    have := stripStep_length hs
    cases hl : b.length with
    | zero => omega
    | succ n =>
      simp only [stripLoop, hs]
      exact stripLoop_fuel n b2.length b2 (by omega) (Nat.le_refl _)

theorem strip_of_stripStep_none {b : Bytes} (h : stripStep b = none) : strip b = b := by
  rw [strip_unfold, h]

theorem strip_of_stripStep_some {b b2 : Bytes} (h : stripStep b = some b2) :
    strip b = strip b2 := by
  rw [strip_unfold, h]

/-- When the strip loop ends its condition is false. -/
theorem stripStep_strip_aux : ∀ (n : Nat) (b : Bytes), b.length ≤ n →
    stripStep (strip b) = none := by
  intro n
  induction n with
  | zero =>
    intro b hb
    cases hs : stripStep b with
    | none => rw [strip_of_stripStep_none hs, hs]
    | some b2 =>
      have := stripStep_length hs
      omega
  | succ n ih =>
    intro b hb
    cases hs : stripStep b with
    | none => rw [strip_of_stripStep_none hs, hs]
    | some b2 =>
      rw [strip_of_stripStep_some hs]
      have := stripStep_length hs
      exact ih b2 (by omega)

theorem stripStep_strip (b : Bytes) : stripStep (strip b) = none :=
  stripStep_strip_aux b.length b (Nat.le_refl _)

theorem stripStep_none_iff (b : Bytes) : stripStep b = none ↔ ¬ hasCompleteAsync b := by
  constructor
  · rintro hs ⟨i2, j, hocc, hlt, hj⟩
    cases h1 : find b (str ":A") 0 with
    | none => exact find_none.1 h1 i2 (Nat.zero_le _) hocc
    | some i =>
      obtain ⟨_, _, hfirst⟩ := find_some.1 h1
      have hi : i ≤ i2 := by
        by_contra hlt2
        exact hfirst i2 (Nat.zero_le _) (by omega) hocc
      cases h2 : find b (str "\n") i with
      | none =>
        apply find_none.1 h2 j (by omega)
        rw [str_newline, occursAt_one]
        exact hj
      | some j2 =>
        have : stripStep b = some (erase b i (j2 - i + 1)) :=
          stripStep_some.2 ⟨i, h1, j2, h2, rfl⟩
        rw [hs] at this
        cases this
  · intro hno
    cases hs : stripStep b with
    | none => rfl
    | some b2 =>
      obtain ⟨i, j, h1, _, hocc, _, hj, _, _⟩ := stripStep_span hs
      exact absurd ⟨i, j, hocc, by omega, hj⟩ hno

/-- C7: after the strip step no complete async message remains (no `:A`
with a line feed at a later position); the strip step is the iteration of
removals, each of which deletes exactly the span from the first `:A`
through the first line feed after it; and a buffer without a complete async
message is left unchanged. -/
theorem C7_strip_removes_complete_async (b : Bytes) :
    ¬ hasCompleteAsync (strip b) ∧
      (∀ b2, stripStep b = some b2 →
        strip b = strip b2 ∧
        ∃ i j, i < j ∧ j < b.length ∧
          occursAt (str ":A") b i ∧ (∀ k, k < i → ¬ occursAt (str ":A") b k) ∧
          b[j]? = some 10 ∧ (∀ k, i ≤ k → k < j → b[k]? ≠ some 10) ∧
          b2 = b.take i ++ b.drop (j + 1)) ∧
      (¬ hasCompleteAsync b → strip b = b) := by
  refine ⟨(stripStep_none_iff _).1 (stripStep_strip b), ?_, ?_⟩
  · intro b2 hs
    refine ⟨strip_of_stripStep_some hs, ?_⟩
    obtain ⟨i, j, h1, h2, h3, h4, h5, h6, h7⟩ := stripStep_span hs
    exact ⟨i, j, by omega, h2, h3, h4, h5, h6, h7⟩
  · intro hno
    exact strip_of_stripStep_none ((stripStep_none_iff b).2 hno)

/-- C7, witness: in `ab:A12\ncd` one removal deletes `:A12\n`, and the
message-free buffer `ab:A12` (no line feed yet) is left unchanged. -/
theorem C7_strip_removes_complete_async_witness :
    (strip (str "ab:A12\ncd") = strip (str "abcd") ∧
        ∃ i j, i < j ∧ j < (str "ab:A12\ncd").length ∧
          occursAt (str ":A") (str "ab:A12\ncd") i ∧
          (∀ k, k < i → ¬ occursAt (str ":A") (str "ab:A12\ncd") k) ∧
          (str "ab:A12\ncd")[j]? = some 10 ∧
          (∀ k, i ≤ k → k < j → (str "ab:A12\ncd")[k]? ≠ some 10) ∧
          str "abcd" = (str "ab:A12\ncd").take i ++ (str "ab:A12\ncd").drop (j + 1)) ∧
      strip (str "ab:A12") = str "ab:A12" :=
  ⟨(C7_strip_removes_complete_async (str "ab:A12\ncd")).2.1 (str "abcd") (by decide),
    (C7_strip_removes_complete_async (str "ab:A12")).2.2
      (by rw [← stripStep_none_iff]; decide)⟩

/-! ## Stripping undoes the insertion of an async message -/

theorem infix_of_occursAt {pat s : Bytes} {i : Nat} (h : occursAt pat s i) : pat <:+: s := by
  obtain ⟨_, t, ht⟩ := h
  refine ⟨s.take i, t, ?_⟩
  rw [List.append_assoc, ht, List.take_append_drop]

theorem stripStep_of_no_marker {B : Bytes} (hB : ¬ (str ":A" <:+: B)) : stripStep B = none := by
  rw [stripStep_none_iff]
  rintro ⟨i, j, hocc, _, _⟩
  exact hB (infix_of_occursAt hocc)

theorem findAux_marker_append {X : Bytes} (hX : ¬ ([58, 65] <:+: X)) (R : Bytes) (k : Nat) :
    findAux [58, 65] (X ++ 58 :: 65 :: R) k = some (k + X.length) := by
  induction X generalizing k with
  | nil => simp [findAux, List.isPrefixOf]
  | cons x X ih =>
    have hX2 : ¬ ([58, 65] <:+: X) := fun h => hX (h.trans (List.infix_cons (List.infix_refl _)))
    have hp : List.isPrefixOf [58, 65] (x :: (X ++ 58 :: 65 :: R)) = false := by
      cases X with
      | nil => simp [List.isPrefixOf]
      | cons y X =>
        simp only [List.cons_append, List.isPrefixOf, Bool.and_true, Bool.and_eq_false_imp,
          beq_iff_eq, beq_eq_false_iff_ne]
        rintro rfl rfl
        exact hX ⟨[], X, rfl⟩
    rw [List.cons_append, findAux, hp]
    simp only [Bool.false_eq_true, if_false, ih hX2, List.length_cons, Option.some.injEq]
    omega

theorem stripStep_insertAt {B payload : Bytes} {p : Nat} (hB : ¬ (str ":A" <:+: B))
    (hp : p ≤ B.length) (hpay : 10 ∉ payload) :
    stripStep (insertAt B p (str ":A" ++ payload ++ str "\n")) = some B := by
  have hlen : (B.take p).length = p := by simp [hp]
  have hX : ¬ ([58, 65] <:+: B.take p) := by
    intro h
    apply hB
    rw [str_marker]
    exact h.trans ( List.take_prefix p B).isInfix
  have hins : insertAt B p (str ":A" ++ payload ++ str "\n") =
      B.take p ++ 58 :: 65 :: (payload ++ 10 :: B.drop p) := by
    simp [insertAt, str_marker, str_newline]
  have h1 : find (insertAt B p (str ":A" ++ payload ++ str "\n")) (str ":A") 0 = some p := by
    rw [hins, str_marker]
    simp [find, findAux_marker_append hX, hlen]
  have hN : 10 ∉ 58 :: 65 :: payload := by
    simp only [List.mem_cons, not_or]
    exact ⟨by omega, by omega, hpay⟩
  have h2 : find (insertAt B p (str ":A" ++ payload ++ str "\n")) (str "\n") p =
      some (p + (payload.length + 2)) := by
    rw [hins, str_newline]
    unfold find
    have hd : List.drop p (B.take p ++ 58 :: 65 :: (payload ++ 10 :: B.drop p)) =
        (58 :: 65 :: payload) ++ 10 :: B.drop p := by
      rw [List.drop_left' hlen]
      simp
    rw [hd, findAux_singleton hN]
    simp [hlen]
  rw [stripStep_some]
  refine ⟨p, h1, _, h2, ?_⟩
  rw [hins]
  unfold erase
  rw [List.take_left' hlen]
  have hl2 : (B.take p ++ 58 :: 65 :: (payload ++ [10])).length =
      p + (p + (payload.length + 2) - p + 1) := by
    simp [hlen]
  have hre : B.take p ++ 58 :: 65 :: (payload ++ 10 :: B.drop p) =
      (B.take p ++ 58 :: 65 :: (payload ++ [10])) ++ B.drop p := by simp
  rw [hre, List.drop_left' hl2, List.take_append_drop]

/-- Stripping a marker-free byte sequence into which one async message has
been inserted gives the byte sequence back. -/
theorem strip_insertAt {B payload : Bytes} {p : Nat} (hB : ¬ (str ":A" <:+: B))
    (hp : p ≤ B.length) (hpay : 10 ∉ payload) :
    strip (insertAt B p (str ":A" ++ payload ++ str "\n")) = B := by
  rw [strip_of_stripStep_some (stripStep_insertAt hB hp hpay),
    strip_of_stripStep_none (stripStep_of_no_marker hB)]

/-! ## Reading lines -/

theorem getline_line {l : Bytes} (hl : 10 ∉ l) (rest : Bytes) :
    getline (l ++ 10 :: rest) = some (l, rest) := by
  unfold getline
  have hne : l ++ 10 :: rest ≠ [] := by simp
  have h1 : ∀ x ∈ l, (x != 10) = true := by
    intro x hx
    simp only [bne_iff_ne, ne_eq]
    rintro rfl
    exact hl hx
  have htw : (l ++ 10 :: rest).takeWhile (fun c => c != 10) = l := by
    rw [List.takeWhile_append_of_pos h1, List.takeWhile_cons]
    simp
  have hdw : (l ++ 10 :: rest).dropWhile (fun c => c != 10) = 10 :: rest := by
    rw [List.dropWhile_append_of_pos h1, List.dropWhile_cons]
    simp
  simp only [hne, if_false, htw, hdw, List.drop_one, List.tail_cons]

theorem getline_length {s l rest : Bytes} (h : getline s = some (l, rest)) :
    rest.length < s.length := by
  unfold getline at h
  split at h
  · cases h
  · rename_i hne
    simp only [Option.some.injEq, Prod.mk.injEq] at h
    obtain ⟨_, rfl⟩ := h
    have h2 := (List.dropWhile_suffix (l := s) (fun c => c != 10)).length_le
    have h3 : 0 < s.length := List.length_pos.2 hne
    simp only [List.length_drop]
    omega

theorem getlinesAux_fuel : ∀ (n m : Nat) (s : Bytes), s.length ≤ n → s.length ≤ m →
    getlinesAux n s = getlinesAux m s := by
  intro n
  induction n with
  | zero =>
    intro m s hn _
    have hs : s = [] := List.length_eq_zero.1 (by omega)
    subst hs
    cases m <;> rfl
  | succ n ih =>
    intro m s hn hm
    cases m with
    | zero =>
      have hs : s = [] := List.length_eq_zero.1 (by omega)
      subst hs
      rfl
    | succ m =>
      simp only [getlinesAux]
      cases hg : getline s with
      | none => rfl
      | some p =>
        obtain ⟨l, rest⟩ := p
        have := getline_length hg
        simp only
        rw [ih m rest (by omega) (by omega)]

/-- The line loop, unfolded once on a line that ends with a line feed. -/
theorem getlines_line {l : Bytes} (hl : 10 ∉ l) (rest : Bytes) :
    getlines (l ++ 10 :: rest) = l :: getlines rest := by
  unfold getlines
  have hlen : (l ++ 10 :: rest).length = (l.length + rest.length) + 1 := by
    simp; omega
  rw [hlen]
  simp only [getlinesAux, getline_line hl]
  rw [getlinesAux_fuel (l.length + rest.length) rest.length rest (by omega) (Nat.le_refl _)]

theorem getlines_flatten (lines : List Bytes) (hl : ∀ l ∈ lines, 10 ∉ l) :
    getlines (lines.map (fun line => line ++ str "\n")).flatten = lines := by
  induction lines with
  | nil => rfl
  | cons l lines ih =>
    have h1 : 10 ∉ l := hl l (by simp)
    have h2 : ∀ x ∈ lines, 10 ∉ x := fun x hx => hl x (by simp [hx])
    simp only [List.map_cons, List.flatten_cons, str_newline, List.append_assoc,
      List.singleton_append]
    rw [getlines_line h1]
    simp only [str_newline] at ih
    rw [ih h2]

/-! ## The checksum marker of a well-formed block -/

theorem findAux_append_skip {pat : Bytes} (seg rest : Bytes) (k : Nat)
    (h : ∀ j, j < seg.length → ¬ pat <+: (seg ++ rest).drop j) :
    findAux pat (seg ++ rest) k = findAux pat rest (k + seg.length) := by
  induction seg generalizing k with
  | nil => rfl
  | cons s seg ih =>
    have h0 : ¬ pat <+: s :: (seg ++ rest) := by simpa using h 0 (by simp)
    have hp : pat.isPrefixOf (s :: (seg ++ rest)) = false := by
      rw [Bool.eq_false_iff]
      intro hpre
      exact h0 ( List.isPrefixOf_iff_prefix.1 hpre)
    rw [List.cons_append, findAux, hp]
    simp only [Bool.false_eq_true, if_false]
    rw [ih (k + 1)]
    · simp only [List.length_cons]
      congr 1
      omega
    · intro j hj
      have := h (j + 1) (by simp only [List.length_cons]; omega)
      simpa using this

theorem prefix_of_prefix_append_cons {p a : Bytes} {x : Nat} {t : Bytes}
    (h : p <+: a ++ x :: t) (hx : x ∉ p) : p <+: a := by
  induction a generalizing p with
  | nil =>
    cases p with
    | nil => exact List.prefix_refl _
    | cons y p =>
      rw [List.nil_append, List.cons_prefix_cons] at h
      exact absurd (by simp [h.1]) hx
  | cons z a ih =>
    cases p with
    | nil => exact List.nil_prefix
    | cons y p =>
      rw [List.cons_append, List.cons_prefix_cons] at h
      rw [List.cons_prefix_cons]
      exact ⟨h.1, ih h.2 (fun hm => hx (by simp [hm]))⟩

theorem suffix_of_infix_tab {C N W : Bytes} {t : Nat} (h : C ++ [t] <:+: N ++ t :: W)
    (hN : t ∉ N) (hW : t ∉ W) : C <:+ N := by
  obtain ⟨s, u, hsu⟩ := h
  have hsu2 : (s ++ C) ++ t :: u = N ++ t :: W := by simpa using hsu
  rcases List.append_eq_append_iff.1 hsu2 with ⟨a, ha, hb⟩ | ⟨c, hc, hd⟩
  · cases a with
    | nil =>
      refine ⟨s, ?_⟩
      simpa using ha.symm
    | cons x a =>
      simp only [List.cons_append, List.cons.injEq] at hb
      exact absurd (by rw [ha, hb.1]; simp) hN
  · cases c with
    | nil =>
      refine ⟨s, ?_⟩
      simpa using hc
    | cons x c =>
      simp only [List.cons_append, List.cons.injEq] at hd
      exact absurd (by rw [hd.2]; simp) hW

/-- No checksum marker starts inside a line of the grammar whose name does
not end in `Checksum`, nor at its line feed. -/
theorem no_marker_in_line {line : Bytes} (hg : GrammarLine line)
    (hname : ¬ (str "Checksum" <:+ nameOf line)) (rest : Bytes) :
    ∀ j, j < (line ++ str "\n").length →
      ¬ str "Checksum\t" <+: ((line ++ str "\n") ++ rest).drop j := by
  obtain ⟨N, V, rfl, _, _, hN, hV⟩ := grammarLine_shape hg
  have hNt : 9 ∉ N := fun h9 => (isNameChar_ne (hN 9 h9)).1 rfl
  have hVt : 9 ∉ V ++ [13] := by
    intro h9
    rcases List.mem_append.1 h9 with h | h
    · exact (isValueChar_ne (hV 9 h)).1 rfl
    · simp at h
  rw [nameOf_shape hNt] at hname
  intro j hj hpre
  rw [str_newline] at hj hpre
  have hjl : j ≤ (N ++ [9] ++ V ++ [13]).length := by
    simp only [List.length_append, List.length_singleton] at hj ⊢
    omega
  have hd : ((N ++ [9] ++ V ++ [13] ++ [10]) ++ rest).drop j =
      (N ++ [9] ++ V ++ [13]).drop j ++ 10 :: rest := by
    rw [List.append_assoc, List.drop_append_of_le_length hjl]
    rfl
  rw [hd] at hpre
  have h10 : 10 ∉ str "Checksum\t" := by decide
  have h2 := prefix_of_prefix_append_cons hpre h10
  have h3 : str "Checksum\t" <:+: N ++ 9 :: (V ++ [13]) := by
    have : N ++ 9 :: (V ++ [13]) = N ++ [9] ++ V ++ [13] := by simp
    rw [this]
    exact h2.isInfix.trans (List.drop_suffix j _).isInfix
  have h4 : str "Checksum\t" = str "Checksum" ++ [9] := by decide
  rw [h4] at h3
  exact hname (suffix_of_infix_tab h3 hNt hVt)

theorem findAux_lines (lines : List Bytes)
    (hl : ∀ l ∈ lines, GrammarLine l ∧ ¬ (str "Checksum" <:+ nameOf l)) (rest : Bytes) (k : Nat) :
    findAux (str "Checksum\t") ((lines.map (fun line => line ++ str "\n")).flatten ++ rest) k =
      findAux (str "Checksum\t") rest
        (k + (lines.map (fun line => line ++ str "\n")).flatten.length) := by
  induction lines generalizing k with
  | nil => rfl
  | cons l lines ih =>
    have h1 := hl l (by simp)
    have h2 : ∀ x ∈ lines, GrammarLine x ∧ ¬ (str "Checksum" <:+ nameOf x) :=
      fun x hx => hl x (by simp [hx])
    simp only [List.map_cons, List.flatten_cons, List.append_assoc (l ++ str "\n")]
    rw [findAux_append_skip (l ++ str "\n") _ k (no_marker_in_line h1.1 h1.2 _), ih h2]
    simp only [List.length_append]
    congr 1
    omega

/-- The first checksum marker of a well-formed block is the one that ends
it. -/
theorem find_frame (lines : List Bytes)
    (hl : ∀ l ∈ lines, GrammarLine l ∧ ¬ (str "Checksum" <:+ nameOf l)) (c : Nat) :
    find (frame lines c) (str "Checksum\t") 0 =
      some (2 + (lines.map (fun line => line ++ str "\n")).flatten.length) := by
  have hcr : str "\r\n" = [13, 10] := by decide
  unfold find frame
  simp only [Nat.zero_le, if_true, List.drop_zero, List.append_assoc]
  rw [hcr, findAux_append_skip [13, 10] _ 0, findAux_lines lines hl]
  · cases hm : str "Checksum\t" ++ [c] with
    | nil => simp at hm
    | cons x xs =>
      have hp : (str "Checksum\t").isPrefixOf (x :: xs) = true := by
        rw [← hm, List.isPrefixOf_iff_prefix]
        exact List.prefix_append _ _
      rw [findAux, hp]
      simp
  · intro j hj
    have : j = 0 ∨ j = 1 := by simp at hj; omega
    rw [str_checksum]
    rcases this with rfl | rfl
    · simp [List.cons_prefix_cons]
    · cases hf : (lines.map (fun line => line ++ str "\n")).flatten ++
          (str "Checksum\t" ++ [c]) with
      | nil => simp
      | cons y ys => simp [List.cons_prefix_cons]

/-! ## A well-formed block through the decoder -/

theorem grammarLine_bytes {line : Bytes} (h : GrammarLine line) : 58 ∉ line ∧ 10 ∉ line := by
  obtain ⟨N, V, rfl, _, _, hN, hV⟩ := grammarLine_shape h
  constructor
  · intro hmem
    simp only [List.mem_append, List.mem_singleton] at hmem
    rcases hmem with ((h | h) | h) | h
    · exact (isNameChar_ne (hN 58 h)).2.2.2.1 rfl
    · omega
    · exact (isValueChar_ne (hV 58 h)).2.2.2 rfl
    · omega
  · intro hmem
    simp only [List.mem_append, List.mem_singleton] at hmem
    rcases hmem with ((h | h) | h) | h
    · exact (isNameChar_ne (hN 10 h)).2.1 rfl
    · omega
    · exact (isValueChar_ne (hV 10 h)).2.1 rfl
    · omega

theorem mem_of_pair_infix_concat {a b c : Nat} {X : Bytes} (h : [a, b] <:+: X ++ [c]) :
    a ∈ X := by
  obtain ⟨s, u, hsu⟩ := h
  have hsu2 : s ++ a :: b :: u = X ++ [c] := by simpa using hsu
  rcases List.append_eq_append_iff.1 hsu2 with ⟨t, ht, hb⟩ | ⟨t, ht, hb⟩
  · cases t with
    | nil =>
      simp only [List.nil_append, List.cons.injEq] at hb
      exact absurd hb.2 (by simp)
    | cons x t =>
      simp only [List.cons_append, List.cons.injEq] at hb
      rw [ht, hb.1]
      simp
  · cases t with
    | nil =>
      simp only [List.nil_append] at hb
      cases hb
    | cons x t =>
      simp only [List.cons_append, List.cons.injEq] at hb
      have := congrArg List.length hb.2
      simp at this
      omega

/-- A well-formed block holds no async marker. -/
theorem frame_no_marker (lines : List Bytes) (hl : ∀ l ∈ lines, GrammarLine l) (c : Nat) :
    ¬ (str ":A" <:+: frame lines c) := by
  intro h
  rw [str_marker] at h
  have h58 := mem_of_pair_infix_concat h
  simp only [List.mem_append, List.mem_flatten, List.mem_map] at h58
  rcases h58 with (h1 | ⟨seg, ⟨l, hlm, rfl⟩, hmem⟩) | h3
  · revert h1; decide
  · rcases List.mem_append.1 hmem with h | h
    · exact (grammarLine_bytes (hl l hlm)).1 h
    · revert h; decide
  · revert h3; decide

theorem frame_length (lines : List Bytes) (c : Nat) :
    (frame lines c).length =
      2 + (lines.map (fun line => line ++ str "\n")).flatten.length + 9 + 1 := by
  unfold frame
  simp only [List.length_append, List.length_singleton]
  have h1 : (str "\r\n").length = 2 := by decide
  have h2 : (str "Checksum\t").length = 9 := by decide
  omega

theorem extractBlock_frame (lines : List Bytes)
    (hl : ∀ l ∈ lines, GrammarLine l ∧ ¬ (str "Checksum" <:+ nameOf l)) (c : Nat) :
    extractBlock (frame lines c) =
      some (2 + (lines.map (fun line => line ++ str "\n")).flatten.length, frame lines c, []) := by
  unfold extractBlock
  rw [find_frame lines hl c]
  have hlen := frame_length lines c
  simp only [ge_iff_le, hlen, Nat.le_refl, if_true, Option.some.injEq, Prod.mk.injEq, true_and]
  constructor
  · rw [← hlen, List.take_length]
  · rw [← hlen, List.drop_length]

theorem passesFilter_nil (name : Bytes) : passesFilter [] name = true := by
  simp [passesFilter]

/-- A well-formed block processed by the body of the block loop. -/
theorem processBlock_frame (filter : Bytes) (d : Decoder) (lines : List Bytes)
    (hl : ∀ l ∈ lines, GrammarLine l) (c : Nat) (hsum : (frame lines c).sum % 256 = 0)
    (hrun : d.aborted = false) :
    processBlock filter d (2 + (lines.map (fun line => line ++ str "\n")).flatten.length)
        (frame lines c) =
      { d with received_bytes := (d.received_bytes + (frame lines c).length) % ULONG_MOD,
               extracted := d.extracted ++ [frame lines c],
               valid_blocks := (d.valid_blocks + 1) % UINT_MOD,
               cout := d.cout ++
                 (lines.filter (fun line => passesFilter filter (nameOf line))).map recordOf } := by
  have hcr : str "\r\n" = [13, 10] := by decide
  have htake : (frame lines c).take
      (2 + (lines.map (fun line => line ++ str "\n")).flatten.length) =
      [13, 10] ++ (lines.map (fun line => line ++ str "\n")).flatten := by
    unfold frame
    rw [hcr, List.append_assoc ([13, 10] ++ _)]
    apply List.take_left'
    simp
    omega
  have hlines : getlines (((frame lines c).take
      (2 + (lines.map (fun line => line ++ str "\n")).flatten.length)).drop 2) = lines := by
    rw [htake]
    exact getlines_flatten lines (fun l hlm => (grammarLine_bytes (hl l hlm)).2)
  have hfind : lines.find? (fun line => !regex_search line ve_direct_line_regex) = none := by
    rw [List.find?_eq_none]
    intro l hlm
    simp [(regex_search_iff_grammarLine l).2 (hl l hlm)]
  rw [processBlock_checked (by rw [checksum_eq]; exact hsum)
    (by rw [htake]; exact ⟨_, rfl⟩), hlines, hfind]
  exact foldl_emitLine filter lines hl _ hrun

theorem extractBlock_nil : extractBlock [] = none := by decide

theorem blockLoop_of_empty_buffer (filter : Bytes) (fuel : Nat) (d : Decoder)
    (h : d.readcharbuf = []) : blockLoop filter fuel d = d := by
  cases fuel with
  | zero => rfl
  | succ n =>
    have : blockIter filter d = none := by
      unfold blockIter
      split
      · rfl
      · rw [h, extractBlock_nil]
    rw [blockLoop, this]

theorem blockLoop_step (filter : Bytes) {fuel : Nat} {d d1 : Decoder} (hf : fuel ≠ 0)
    (h : blockIter filter d = some d1) :
    blockLoop filter fuel d = blockLoop filter (fuel - 1) d1 := by
  cases fuel with
  | zero => exact absurd rfl hf
  | succ n => simp [blockLoop, h]

/-- A well-formed block delivered in one read to a decoder with an empty
buffer. -/
theorem feed_frame (filter : Bytes) (d : Decoder) (lines : List Bytes)
    (hl : ∀ l ∈ lines, GrammarLine l ∧ ¬ (str "Checksum" <:+ nameOf l)) (c : Nat)
    (hsum : (frame lines c).sum % 256 = 0) (hbuf : d.readcharbuf = [])
    (hrun : d.aborted = false) :
    feed filter d (frame lines c) =
      { d with received_bytes := (d.received_bytes + (frame lines c).length) % ULONG_MOD,
               extracted := d.extracted ++ [frame lines c],
               valid_blocks := (d.valid_blocks + 1) % UINT_MOD,
               cout := d.cout ++
                 (lines.filter (fun line => passesFilter filter (nameOf line))).map recordOf } := by
  have hg : ∀ l ∈ lines, GrammarLine l := fun l hlm => (hl l hlm).1
  have hlen := frame_length lines c
  have hne : (frame lines c).length ≠ 0 := by omega
  have hstrip : strip (d.readcharbuf ++ frame lines c) = frame lines c := by
    rw [hbuf, List.nil_append]
    exact strip_of_stripStep_none (stripStep_of_no_marker (frame_no_marker lines hg c))
  unfold feed
  rw [if_neg (by rw [hrun]; simp), if_neg hne]
  simp only [hstrip]
  have hit : blockIter filter { d with readcharbuf := frame lines c } =
      some (processBlock filter { d with readcharbuf := [] }
        (2 + (lines.map (fun line => line ++ str "\n")).flatten.length) (frame lines c)) := by
    have := @blockIter_eq filter { d with readcharbuf := frame lines c } _ _ _ hrun
      (extractBlock_frame lines hl c)
    exact this
  rw [blockLoop_step filter hne hit,
    processBlock_frame filter { d with readcharbuf := [] } lines hg c hsum hrun,
    blockLoop_of_empty_buffer]
  · simp [hbuf]
  · rfl

/-! ## Valid blocks are written line by line -/

/-- C5: (1) a block that passes both validators (byte sum zero modulo 256,
leading `\r\n`, every line a line of the grammar) makes the loop iteration,
with an empty filter, write exactly its lines, in order, each without its
last byte (the carriage return) and followed by the line terminator, and
increment `valid_blocks` (as an `unsigned int`); (2) for every list of
lines of the grammar none of whose names ends in `Checksum`, the bytes
`\r\n`, the lines each followed by a line feed, `Checksum\t` and a byte `c`
making the byte sum zero modulo 256, fed to a fresh decoder in one read,
write exactly those lines and leave `valid_blocks = 1`. -/
theorem C5_valid_block_written_in_order :
    (∀ (d : Decoder) (startcheck : Nat) (block rest : Bytes),
      d.aborted = false →
      extractBlock d.readcharbuf = some (startcheck, block, rest) →
      block.sum % 256 = 0 → [13, 10] <+: block →
      (∀ line ∈ getlines ((block.take startcheck).drop 2), GrammarLine line) →
      ∃ d1, blockIter [] d = some d1 ∧
        d1.cout = d.cout ++
          (getlines ((block.take startcheck).drop 2)).map (fun line => line.dropLast ++ [10]) ∧
        d1.valid_blocks = (d.valid_blocks + 1) % UINT_MOD) ∧
    (∀ (lines : List Bytes) (c : Nat),
      (∀ line ∈ lines, GrammarLine line ∧ ¬ (str "Checksum" <:+ nameOf line)) →
      (frame lines c).sum % 256 = 0 →
      (run [] [frame lines c]).cout = lines.map (fun line => line.dropLast ++ [10]) ∧
        (run [] [frame lines c]).valid_blocks = 1) := by
  constructor
  · intro d startcheck block rest hrun hx hsum hcrlf hall
    refine ⟨_, blockIter_eq hrun hx, ?_⟩
    rw [processBlock_checked (by rw [checksum_eq]; exact hsum) (take_startcheck_crlf hx hcrlf)]
    have hfind : (getlines ((block.take startcheck).drop 2)).find?
        (fun line => !regex_search line ve_direct_line_regex) = none := by
      rw [List.find?_eq_none]
      intro l hlm
      simp [(regex_search_iff_grammarLine l).2 (hall l hlm)]
    rw [hfind]
    simp only
    rw [foldl_emitLine [] _ hall
      { d with readcharbuf := rest,
               received_bytes := (d.received_bytes + block.length) % ULONG_MOD,
               extracted := d.extracted ++ [block],
               valid_blocks := (d.valid_blocks + 1) % UINT_MOD } hrun]
    simp only [passesFilter_nil, List.filter_true, and_true]
    rfl
  · intro lines c hl hsum
    have h : run [] [frame lines c] = feed [] init (frame lines c) := rfl
    rw [h, feed_frame [] init lines hl c hsum rfl rfl]
    simp only [passesFilter_nil, List.filter_true]
    exact ⟨rfl, rfl⟩

/-- C5, witness: the bytes `\r\nV\t12000\r\nChecksum\t` followed by the
checksum byte `68`, fed to a fresh decoder in one read, write the single
line `V\t12000` and leave `valid_blocks = 1`; the same block taken from the
buffer by one loop iteration does the same. -/
theorem C5_valid_block_written_in_order_witness :
    ((run [] [frame [str "V\t12000\r"] 68]).cout = [str "V\t12000\n"] ∧
        (run [] [frame [str "V\t12000\r"] 68]).valid_blocks = 1) ∧
      ∃ d1, blockIter [] { init with readcharbuf := str "\r\nV\t12000\r\nChecksum\t" ++ [68] } =
          some d1 ∧ d1.cout = [str "V\t12000\n"] ∧ d1.valid_blocks = 1 := by
  refine ⟨C5_valid_block_written_in_order.2 [str "V\t12000\r"] 68 ?_ (by decide), ?_⟩
  · intro line hline
    rw [List.mem_singleton] at hline
    subst hline
    exact ⟨(regex_search_iff_grammarLine _).1 (by decide), by decide⟩
  · have hlines : getlines (((str "\r\nV\t12000\r\nChecksum\t" ++ [68]).take 11).drop 2) =
        [str "V\t12000\r"] := by decide
    obtain ⟨d1, h1, h2, h3⟩ := C5_valid_block_written_in_order.1
      { init with readcharbuf := str "\r\nV\t12000\r\nChecksum\t" ++ [68] }
      11 (str "\r\nV\t12000\r\nChecksum\t" ++ [68]) [] (by decide) (by decide) (by decide)
      (by decide)
      (by
        intro line hline
        rw [hlines, List.mem_singleton] at hline
        subst hline
        exact (regex_search_iff_grammarLine _).1 (by decide))
    refine ⟨d1, h1, ?_, ?_⟩
    · rw [h2, hlines]
      decide
    · rw [h3]
      decide

/-! ## An async message inside a read -/

theorem insertAt_append (r B M : Bytes) (p : Nat) :
    insertAt (r ++ B) (r.length + p) M = r ++ insertAt B p M := by
  unfold insertAt
  rw [List.take_append, List.drop_append]
  simp

theorem insertAt_ne_nil (B payload : Bytes) (p : Nat) :
    (insertAt B p (str ":A" ++ payload ++ str "\n")).length ≠ 0 := by
  simp [insertAt, str_marker]

/-- One read that delivers a marker-free byte sequence with one async
message inserted leaves the decoder as the read without the message. -/
theorem feed_insertAt (filter : Bytes) (d : Decoder) {B payload : Bytes} {p : Nat}
    (hB : ¬ (str ":A" <:+: d.readcharbuf ++ B)) (hp : p ≤ B.length) (hpay : 10 ∉ payload)
    (hne : B ≠ []) :
    feed filter d (insertAt B p (str ":A" ++ payload ++ str "\n")) = feed filter d B := by
  have h1 : strip (d.readcharbuf ++ insertAt B p (str ":A" ++ payload ++ str "\n")) =
      d.readcharbuf ++ B := by
    rw [← insertAt_append]
    exact strip_insertAt hB (by simp only [List.length_append]; omega) hpay
  have h2 : strip (d.readcharbuf ++ B) = d.readcharbuf ++ B :=
    strip_of_stripStep_none (stripStep_of_no_marker hB)
  have hBl : B.length ≠ 0 := by simpa [List.length_eq_zero] using hne
  unfold feed
  rw [h1, h2, if_neg (insertAt_ne_nil B payload p), if_neg hBl]

/-- C8: (1) for every byte sequence `B` without `:A`, every position
`p ≤ |B|` and every payload without line feed, the strip step applied to
`B` with `:A` payload `\n` inserted at `p` yields exactly `B`; (2) one read
that delivers such a sequence with the message inserted leaves the decoder
(data output, counters, buffer) exactly as the read of the sequence alone;
(3) in particular so does a block of lines of the grammar, whatever the
position of the inserted message. -/
theorem C8_strip_undoes_insertion :
    (∀ (B payload : Bytes) (p : Nat), ¬ (str ":A" <:+: B) → p ≤ B.length → 10 ∉ payload →
      strip (insertAt B p (str ":A" ++ payload ++ str "\n")) = B) ∧
    (∀ (filter : Bytes) (d : Decoder) (B payload : Bytes) (p : Nat),
      ¬ (str ":A" <:+: d.readcharbuf ++ B) → p ≤ B.length → 10 ∉ payload → B ≠ [] →
      feed filter d (insertAt B p (str ":A" ++ payload ++ str "\n")) = feed filter d B) ∧
    (∀ (filter : Bytes) (lines : List Bytes) (c : Nat) (payload : Bytes) (p : Nat),
      (∀ line ∈ lines, GrammarLine line) → p ≤ (frame lines c).length → 10 ∉ payload →
      run filter [insertAt (frame lines c) p (str ":A" ++ payload ++ str "\n")] =
        run filter [frame lines c]) := by
  refine ⟨?_, ?_, ?_⟩
  · intro B payload p hB hp hpay
    exact strip_insertAt hB hp hpay
  · intro filter d B payload p hB hp hpay hne
    exact feed_insertAt filter d hB hp hpay hne
  · intro filter lines c payload p hl hp hpay
    have hne : frame lines c ≠ [] := by
      intro h
      have := frame_length lines c
      rw [h] at this
      simp at this
    exact feed_insertAt filter init (by simpa [init] using frame_no_marker lines hl c) hp hpay hne

/-- C8, witness: the valid block `\r\nV\t12000\r\nChecksum\t` with checksum
byte `68` and the message `:A4F\n` inserted after `\r\nV\t12`. -/
theorem C8_strip_undoes_insertion_witness :
    strip (insertAt (frame [str "V\t12000\r"] 68) 6 (str ":A" ++ str "4F" ++ str "\n")) =
        frame [str "V\t12000\r"] 68 ∧
      run [] [insertAt (frame [str "V\t12000\r"] 68) 6 (str ":A" ++ str "4F" ++ str "\n")] =
        run [] [frame [str "V\t12000\r"] 68] ∧
      feed [] init (insertAt (frame [str "V\t12000\r"] 68) 6 (str ":A" ++ str "4F" ++ str "\n")) =
        feed [] init (frame [str "V\t12000\r"] 68) :=
  ⟨C8_strip_undoes_insertion.1 (frame [str "V\t12000\r"] 68) (str "4F") 6
      (by decide) (by decide) (by decide),
    C8_strip_undoes_insertion.2.2 [] [str "V\t12000\r"] 68 (str "4F") 6
      (by
        intro line hline
        rw [List.mem_singleton] at hline
        subst hline
        exact (regex_search_iff_grammarLine _).1 (by decide))
      (by decide) (by decide),
    C8_strip_undoes_insertion.2.1 [] init (frame [str "V\t12000\r"] 68) (str "4F") 6
      (by decide) (by decide) (by decide) (by decide)⟩

/-! ## The filter string and the filter names -/

/-- The filter string of a list of names: `,` then every name followed by
`,`. -/
theorem foldl_filter (args : List Bytes) (f : Bytes) :
    args.foldl (fun f arg => f ++ arg ++ [44]) f =
      f ++ (args.map (fun arg => arg ++ [44])).flatten := by
  induction args generalizing f with
  | nil => simp
  | cons a args ih =>
    rw [List.foldl_cons, ih]
    simp

theorem uniqueAux_piece (rest : Bytes) (a : Bytes) :
    (uniqueAux 44 (a.map (fun c => if c = 32 then 44 else c) ++ 44 :: rest) =
        (((a.splitOnP isSeparator).filter (fun n => !n.isEmpty)).map
          (fun n => n ++ [44])).flatten ++ uniqueAux 44 rest) ∧
      ∀ last, last ≠ 44 →
        uniqueAux last (a.map (fun c => if c = 32 then 44 else c) ++ 44 :: rest) =
          (a.splitOnP isSeparator).head! ++ 44 ::
            ((((a.splitOnP isSeparator).tail.filter (fun n => !n.isEmpty)).map
              (fun n => n ++ [44])).flatten ++ uniqueAux 44 rest) := by
  induction a with
  | nil =>
    constructor
    · simp [uniqueAux, List.splitOnP_nil]
    · intro last hl
      simp [uniqueAux, List.splitOnP_nil, hl]
  | cons x xs ih =>
    obtain ⟨ih1, ih2⟩ := ih
    by_cases hsep : isSeparator x = true
    · have hx : (if x = 32 then 44 else x) = 44 := by
        simp only [isSeparator, Bool.or_eq_true, beq_iff_eq] at hsep
        rcases hsep with h | h <;> simp [h]
      rw [List.splitOnP_cons, if_pos hsep, List.map_cons, hx, List.cons_append]
      constructor
      · simp [uniqueAux, ih1]
      · intro last hl
        simp [uniqueAux, hl, ih1]
    · have hx : (if x = 32 then 44 else x) = x := by
        simp only [isSeparator, Bool.or_eq_true, beq_iff_eq, not_or] at hsep
        simp [hsep.2]
      have hx44 : x ≠ 44 := by
        simp only [isSeparator, Bool.or_eq_true, beq_iff_eq, not_or] at hsep
        exact hsep.1
      rw [List.splitOnP_cons, if_neg hsep, List.map_cons, hx, List.cons_append]
      cases hs : xs.splitOnP isSeparator with
      | nil => exact absurd hs (List.splitOnP_ne_nil _ _)
      | cons h t =>
        rw [hs] at ih2
        simp only [List.head!_cons, List.tail_cons] at ih2
        constructor
        · simp [uniqueAux, hx44, ih2 x hx44, List.modifyHead, List.filter_cons]
        · intro last hl
          simp [uniqueAux, hx44, ih2 x hx44, List.modifyHead]

theorem uniqueAux_args (args : List Bytes) :
    uniqueAux 44 ((args.map (fun arg => arg ++ [44])).flatten.map
        (fun c => if c = 32 then 44 else c)) =
      ((filterNames args).map (fun n => n ++ [44])).flatten := by
  unfold filterNames
  induction args with
  | nil => simp [uniqueAux]
  | cons a args ih =>
    simp only [List.map_cons, List.flatten_cons, List.map_append, List.append_assoc,
      List.singleton_append, List.filter_append, List.flatten_append]
    have h44 : (if (44 : Nat) = 32 then 44 else 44) = 44 := by simp
    simp only [h44]
    rw [(uniqueAux_piece _ a).1, ih]

/-- The filter string built by the program is empty when there are no
filter names, and otherwise `,` followed by every name with a `,` after
it. -/
theorem mkFilter_eq (args : List Bytes) :
    mkFilter args =
      if filterNames args = [] then []
      else 44 :: ((filterNames args).map (fun n => n ++ [44])).flatten := by
  unfold mkFilter
  simp only [foldl_filter, List.singleton_append, List.map_cons]
  have h44 : (if (44 : Nat) = 32 then 44 else 44) = 44 := by simp
  rw [h44, unique, uniqueAux_args]
  cases hn : filterNames args with
  | nil => simp
  | cons n ns => simp

theorem splitOnP_no_separator (l : Bytes) :
    ∀ p ∈ l.splitOnP isSeparator, ∀ x ∈ p, isSeparator x = false := by
  induction l with
  | nil => simp [List.splitOnP_nil]
  | cons a l ih =>
    rw [List.splitOnP_cons]
    by_cases hsep : isSeparator a = true
    · rw [if_pos hsep]
      intro p hp
      rcases List.mem_cons.1 hp with rfl | hp
      · simp
      · exact ih p hp
    · rw [if_neg hsep]
      cases hs : l.splitOnP isSeparator with
      | nil => exact absurd hs (List.splitOnP_ne_nil _ _)
      | cons h t =>
        rw [hs] at ih
        intro p hp
        simp only [List.modifyHead, List.mem_cons] at hp
        rcases hp with rfl | hp
        · intro x hx
          rcases List.mem_cons.1 hx with rfl | hx
          · simpa using hsep
          · exact ih h (by simp) x hx
        · exact ih p (by simp [hp])

theorem filterNames_no_comma (args : List Bytes) : ∀ n ∈ filterNames args, 44 ∉ n := by
  intro n hn h44
  unfold filterNames at hn
  rw [List.mem_filter, List.mem_flatten] at hn
  obtain ⟨⟨ps, hps, hn⟩, _⟩ := hn
  obtain ⟨arg, _, rfl⟩ := List.mem_map.1 hps
  have := splitOnP_no_separator arg n hn 44 h44
  simp [isSeparator] at this

theorem find_isSome_iff (s pat : Bytes) : (find s pat 0).isSome = true ↔ pat <:+: s := by
  constructor
  · intro h
    cases hf : find s pat 0 with
    | none => rw [hf] at h; cases h
    | some i => exact infix_of_occursAt (find_some.1 hf).2.1
  · rintro ⟨a, b, rfl⟩
    cases hf : find (a ++ pat ++ b) pat 0 with
    | some i => rfl
    | none =>
      exfalso
      apply find_none.1 hf a.length (Nat.zero_le _)
      refine ⟨by simp, b, ?_⟩
      rw [List.append_assoc, List.drop_left]

theorem infix_of_cons_infix_append {x : Nat} {p n m : Bytes} (h : x :: p <:+: n ++ m)
    (hx : x ∉ n) : x :: p <:+: m := by
  induction n with
  | nil => simpa using h
  | cons y n ih =>
    rw [List.cons_append, List.infix_cons_iff] at h
    rcases h with h | h
    · rw [List.cons_prefix_cons] at h
      exact absurd (by simp [h.1]) hx
    · exact ih h (fun hm => hx (by simp [hm]))

theorem eq_of_prefix_separator {a b u v : Bytes} {t : Nat} (h : a ++ t :: u <+: b ++ t :: v)
    (ha : t ∉ a) (hb : t ∉ b) : a = b := by
  induction a generalizing b with
  | nil =>
    cases b with
    | nil => rfl
    | cons y b =>
      rw [List.nil_append, List.cons_append, List.cons_prefix_cons] at h
      exact absurd (by simp [h.1]) hb
  | cons x a ih =>
    cases b with
    | nil =>
      rw [List.nil_append, List.cons_append, List.cons_prefix_cons] at h
      exact absurd (by simp [h.1]) ha
    | cons y b =>
      rw [List.cons_append, List.cons_append, List.cons_prefix_cons] at h
      rw [h.1, ih h.2 (fun hm => ha (by simp [hm])) (fun hm => hb (by simp [hm]))]

/-- The search of line 331 in a filter string finds `,name,` exactly when
the name is one of the names of the filter string. -/
theorem infix_filter_iff (names : List Bytes) (hn : ∀ n ∈ names, 44 ∉ n) {name : Bytes}
    (hname : 44 ∉ name) :
    [44] ++ name ++ [44] <:+: 44 :: (names.map (fun n => n ++ [44])).flatten ↔
      name ∈ names := by
  induction names with
  | nil =>
    simp only [List.map_nil, List.flatten_nil, List.not_mem_nil, iff_false]
    intro h
    have := h.length_le
    simp at this
  | cons n ns ih =>
    have hn1 : 44 ∉ n := hn n (by simp)
    have hn2 : ∀ m ∈ ns, 44 ∉ m := fun m hm => hn m (by simp [hm])
    simp only [List.map_cons, List.flatten_cons, List.mem_cons]
    constructor
    · intro h
      rw [List.infix_cons_iff] at h
      rcases h with h | h
      · left
        simp only [List.singleton_append, List.cons_append, List.cons_prefix_cons, true_and,
          List.append_assoc] at h
        exact eq_of_prefix_separator h hname hn1
      · right
        rw [List.append_assoc] at h
        have h2 := infix_of_cons_infix_append
          (by simpa using h : 44 :: (name ++ [44]) <:+: n ++ 44 :: _) hn1
        exact (ih hn2).1 (by simpa using h2)
    · rintro (rfl | h)
      · exact ⟨[], (ns.map (fun n => n ++ [44])).flatten, by simp⟩
      · have h2 := (ih hn2).2 h
        have e : 44 :: (n ++ [44] ++ (ns.map (fun n => n ++ [44])).flatten) =
            (44 :: n) ++ 44 :: (ns.map (fun n => n ++ [44])).flatten := by simp
        rw [e]
        exact h2.trans (List.suffix_append (44 :: n) _).isInfix

/-- The filter test of the program on the filter string built from the
arguments agrees with the filter names of the specification, for a name
without comma. -/
theorem passesFilter_mkFilter (args : List Bytes) {name : Bytes} (hname : 44 ∉ name) :
    passesFilter (mkFilter args) name = nameAllowed (filterNames args) name := by
  rw [mkFilter_eq]
  unfold passesFilter nameAllowed
  by_cases hn : filterNames args = []
  · simp [hn]
  · simp only [hn, if_false, false_or]
    have : (44 :: ((filterNames args).map (fun n => n ++ [44])).flatten = []) = False := by simp
    simp only [this, false_or]
    rw [decide_eq_decide, find_isSome_iff]
    exact infix_filter_iff _ (filterNames_no_comma args) hname

theorem nameOf_grammarLine_no_comma {line : Bytes} (h : GrammarLine line) :
    44 ∉ nameOf line := by
  obtain ⟨N, V, rfl, _, _, hN, _⟩ := grammarLine_shape h
  have hNt : 9 ∉ N := fun h9 => (isNameChar_ne (hN 9 h9)).1 rfl
  rw [nameOf_shape hNt]
  intro h44
  exact (isNameChar_ne (hN 44 h44)).2.2.2.2.1 rfl

/-- C6: for every list of filter arguments and every block that passes
both validators, the records written by the loop iteration are those of the
lines of the block, in their order, whose name (the bytes before the TAB) is
let through: the names obtained by splitting all filter arguments on commas
and spaces, empty pieces dropped, are none at all, or the name is equal to
one of them. -/
theorem C6_filter_selects_named_records (args : List Bytes) (d : Decoder) (startcheck : Nat)
    (block rest : Bytes) (hrun : d.aborted = false)
    (hx : extractBlock d.readcharbuf = some (startcheck, block, rest))
    (hsum : block.sum % 256 = 0) (hcrlf : [13, 10] <+: block)
    (hall : ∀ line ∈ getlines ((block.take startcheck).drop 2), GrammarLine line) :
    ∃ d1, blockIter (mkFilter args) d = some d1 ∧
      d1.cout = d.cout ++
        ((getlines ((block.take startcheck).drop 2)).filter
          (fun line => decide (filterNames args = [] ∨ nameOf line ∈ filterNames args))).map
          (fun line => line.dropLast ++ [10]) := by
  refine ⟨_, blockIter_eq hrun hx, ?_⟩
  rw [processBlock_checked (by rw [checksum_eq]; exact hsum) (take_startcheck_crlf hx hcrlf)]
  have hfind : (getlines ((block.take startcheck).drop 2)).find?
      (fun line => !regex_search line ve_direct_line_regex) = none := by
    rw [List.find?_eq_none]
    intro l hlm
    simp [(regex_search_iff_grammarLine l).2 (hall l hlm)]
  rw [hfind]
  simp only
  rw [foldl_emitLine (mkFilter args) _ hall
    { d with readcharbuf := rest,
             received_bytes := (d.received_bytes + block.length) % ULONG_MOD,
             extracted := d.extracted ++ [block],
             valid_blocks := (d.valid_blocks + 1) % UINT_MOD } hrun]
  have hfilter : (getlines ((block.take startcheck).drop 2)).filter
        (fun line => passesFilter (mkFilter args) (nameOf line)) =
      (getlines ((block.take startcheck).drop 2)).filter
        (fun line => decide (filterNames args = [] ∨ nameOf line ∈ filterNames args)) := by
    apply List.filter_congr
    intro line hline
    rw [passesFilter_mkFilter args (nameOf_grammarLine_no_comma (hall line hline))]
    rfl
  rw [hfilter]
  rfl

/-- C6, witness: with the filter argument `V`, the block with the lines
`V\t12000` and `I\t500` writes only `V\t12000`. -/
theorem C6_filter_selects_named_records_witness :
    ∃ d1, blockIter (mkFilter [str "V"])
        { init with readcharbuf := str "\r\nV\t12000\r\nI\t500\r\nChecksum\t" ++ [70] } = some d1 ∧
      d1.cout = [str "V\t12000\n"] := by
  have hlines : getlines (((str "\r\nV\t12000\r\nI\t500\r\nChecksum\t" ++ [70]).take 18).drop 2) =
      [str "V\t12000\r", str "I\t500\r"] := by decide
  obtain ⟨d1, h1, h2⟩ := C6_filter_selects_named_records [str "V"]
    { init with readcharbuf := str "\r\nV\t12000\r\nI\t500\r\nChecksum\t" ++ [70] }
    18 (str "\r\nV\t12000\r\nI\t500\r\nChecksum\t" ++ [70]) [] (by decide) (by decide)
    (by decide) (by decide)
    (by
      intro line hline
      rw [hlines] at hline
      simp only [List.mem_cons, List.mem_singleton, List.not_mem_nil, or_false] at hline
      rcases hline with rfl | rfl
      · exact (regex_search_iff_grammarLine _).1 (by decide)
      · exact (regex_search_iff_grammarLine _).1 (by decide))
  refine ⟨d1, h1, ?_⟩
  rw [h2, hlines]
  decide

/-! ## The block loop runs to exhaustion -/

theorem emitLine_readcharbuf (filter : Bytes) (d : Decoder) (line : Bytes) :
    (emitLine filter d line).readcharbuf = d.readcharbuf := by
  unfold emitLine abort
  simp only
  split
  · rfl
  · split
    · rfl
    · split
      · rfl
      · split
        · rfl
        · split
          · rfl
          · split <;> rfl

theorem foldl_emitLine_readcharbuf (filter : Bytes) (lines : List Bytes) (d : Decoder) :
    (lines.foldl (emitLine filter) d).readcharbuf = d.readcharbuf := by
  induction lines generalizing d with
  | nil => rfl
  | cons line lines ih => rw [List.foldl_cons, ih, emitLine_readcharbuf]

theorem processBlock_readcharbuf (filter : Bytes) (d : Decoder) (startcheck : Nat)
    (block : Bytes) : (processBlock filter d startcheck block).readcharbuf = d.readcharbuf := by
  unfold processBlock
  simp only
  split
  · rw [print_error_info_readcharbuf]
    split <;> rfl
  · split
    · rw [print_error_info_readcharbuf]
      split <;> rfl
    · split
      · rw [print_error_info_readcharbuf]
        split <;> rfl
      · rw [foldl_emitLine_readcharbuf]

theorem blockIter_length {filter : Bytes} {d d1 : Decoder} (h : blockIter filter d = some d1) :
    d1.readcharbuf.length + 10 ≤ d.readcharbuf.length := by
  unfold blockIter at h
  split at h
  · cases h
  · split at h
    · cases h
    · rename_i sc block rest hx
      simp only [Option.some.injEq] at h
      subst h
      obtain ⟨_, hl, _, rfl⟩ := extractBlock_some hx
      rw [processBlock_readcharbuf]
      simp only [List.length_drop]
      omega

/-- The fuel of the block loop suffices: when the loop of `feed` ends, its
condition is false. -/
theorem blockLoop_exhausts (filter : Bytes) : ∀ (fuel : Nat) (d : Decoder),
    d.readcharbuf.length ≤ fuel → blockIter filter (blockLoop filter fuel d) = none := by
  intro fuel
  induction fuel with
  | zero =>
    intro d hd
    cases hit : blockIter filter d with
    | none => simpa [blockLoop] using hit
    | some d1 =>
      have := blockIter_length hit
      omega
  | succ n ih =>
    intro d hd
    cases hit : blockIter filter d with
    | none => simp [blockLoop, hit]
    | some d1 =>
      have := blockIter_length hit
      simp only [blockLoop, hit]
      exact ih d1 (by omega)

/-! ## An async message split between two reads -/

/-- C10 fails on the code: the stream `\r\nV\t1\r\nChecksum\t` `:A1\n` `0x06`
delivered in two reads split right after the `:` makes the decoder extract
the block that ends with `:`, the first byte of the async message, and sum
it; the block is discarded and nothing is written. Delivered in one read,
the message is stripped, the block ends with the byte `0x06` and the record
`V\t1` is written. -/
theorem C10_split_async_message_enters_checksum :
    (run [] [str "\r\nV\t1\r\nChecksum\t:", str "A1\n" ++ [6]]).extracted =
        [str "\r\nV\t1\r\nChecksum\t:"] ∧
      58 ∈ str "\r\nV\t1\r\nChecksum\t:" ∧
      (run [] [str "\r\nV\t1\r\nChecksum\t:", str "A1\n" ++ [6]]).cout = [] ∧
      (run [] [str "\r\nV\t1\r\nChecksum\t:A1\n" ++ [6]]).extracted =
        [str "\r\nV\t1\r\nChecksum\t" ++ [6]] ∧
      (run [] [str "\r\nV\t1\r\nChecksum\t:A1\n" ++ [6]]).cout = [str "V\t1\n"] := by
  decide

/-! ## Block extraction -/

theorem extractBlock_iff {b : Bytes} {p : Nat} {block rest : Bytes} :
    extractBlock b = some (p, block, rest) ↔
      (occursAt (str "Checksum\t") b p ∧ (∀ j, j < p → ¬ occursAt (str "Checksum\t") b j) ∧
        p + 10 ≤ b.length ∧ block = b.take (p + 10) ∧ rest = b.drop (p + 10)) := by
  constructor
  · intro hx
    obtain ⟨hf, hl, hb, hr⟩ := extractBlock_some hx
    obtain ⟨_, hocc, hfirst⟩ := find_some.1 hf
    exact ⟨hocc, fun j hj => hfirst j (Nat.zero_le _) hj, hl, hb, hr⟩
  · rintro ⟨hocc, hfirst, hl, rfl, rfl⟩
    have hf : find b (str "Checksum\t") 0 = some p :=
      find_some.2 ⟨Nat.zero_le _, hocc, fun j _ hj => hfirst j hj⟩
    unfold extractBlock
    rw [hf]
    simp only [ge_iff_le]
    rw [if_pos (by omega)]

theorem occursAt_checksum_length {b : Bytes} {p : Nat} (h : occursAt (str "Checksum\t") b p) :
    p + 9 ≤ b.length := by
  obtain ⟨_, t, ht⟩ := h
  have := congrArg List.length ht
  simp only [List.length_append, List.length_drop] at this
  have h9 : (str "Checksum\t").length = 9 := by decide
  omega

theorem extractBlock_none_iff (b : Bytes) :
    extractBlock b = none ↔
      ((∀ j, ¬ occursAt (str "Checksum\t") b j) ∨
        ∃ p, occursAt (str "Checksum\t") b p ∧
          (∀ j, j < p → ¬ occursAt (str "Checksum\t") b j) ∧ b.length = p + 9) := by
  unfold extractBlock
  cases hf : find b (str "Checksum\t") 0 with
  | none =>
    simp only [true_iff]
    left
    intro j
    exact find_none.1 hf j (Nat.zero_le _)
  | some p =>
    obtain ⟨_, hocc, hfirst⟩ := find_some.1 hf
    have hlen := occursAt_checksum_length hocc
    simp only [ge_iff_le]
    constructor
    · intro h
      right
      refine ⟨p, hocc, fun j hj => hfirst j (Nat.zero_le _) hj, ?_⟩
      by_contra hne
      rw [if_pos (by omega)] at h
      cases h
    · rintro (h | ⟨q, hq, hqfirst, hql⟩)
      · exact absurd hocc (h p)
      · have hpq : p = q := by
          rcases Nat.lt_trichotomy p q with h | h | h
          · exact absurd hocc (hqfirst p h)
          · exact h
          · exact absurd hq (hfirst q (Nat.zero_le _) h)
        rw [if_neg (by omega)]

theorem blockLoop_of_blockIter_none (filter : Bytes) (fuel : Nat) {d : Decoder}
    (h : blockIter filter d = none) : blockLoop filter fuel d = d := by
  cases fuel with
  | zero => rfl
  | succ n => simp [blockLoop, h]

/-- C11: a block is extracted from the buffer `b` if and only if the
checksum marker has a first occurrence at an offset `p` with
`|b| ≥ p + 10`; the block is then the first `p + 10` bytes of `b` and the
new buffer is the rest, so that block and new buffer together are `b`.
Nothing is extracted exactly when the marker does not occur or its first
occurrence is the last 9 bytes of `b`; the loop then leaves the decoder
(buffer and counters) unchanged. -/
theorem C11_block_extraction (b : Bytes) :
    (∀ p block rest, extractBlock b = some (p, block, rest) ↔
      (occursAt (str "Checksum\t") b p ∧ (∀ j, j < p → ¬ occursAt (str "Checksum\t") b j) ∧
        p + 10 ≤ b.length ∧ block = b.take (p + 10) ∧ rest = b.drop (p + 10))) ∧
    (∀ p block rest, extractBlock b = some (p, block, rest) →
      block ++ rest = b ∧ block.length = p + 10) ∧
    (extractBlock b = none ↔
      ((∀ j, ¬ occursAt (str "Checksum\t") b j) ∨
        ∃ p, occursAt (str "Checksum\t") b p ∧
          (∀ j, j < p → ¬ occursAt (str "Checksum\t") b j) ∧ b.length = p + 9)) ∧
    (extractBlock b = none → ∀ (filter : Bytes) (d : Decoder) (fuel : Nat),
      d.readcharbuf = b → blockIter filter d = none ∧ blockLoop filter fuel d = d) := by
  refine ⟨fun p block rest => extractBlock_iff, ?_, extractBlock_none_iff b, ?_⟩
  · intro p block rest hx
    obtain ⟨_, hl, rfl, rfl⟩ := extractBlock_some hx
    refine ⟨List.take_append_drop _ _, ?_⟩
    simp only [List.length_take]
    omega
  · intro hx filter d fuel hb
    have hit : blockIter filter d = none := by
      unfold blockIter
      split
      · rfl
      · rw [hb, hx]
    exact ⟨hit, blockLoop_of_blockIter_none filter fuel hit⟩

/-- C11, witness: from `junk\r\nChecksum\tXrest` the block `junk\r\nChecksum\tX`
is extracted and `rest` is left; from `\r\nV\t1\r\nChecksum\t`, where the
checksum byte has not arrived, nothing is extracted. -/
theorem C11_block_extraction_witness :
    (str "junk\r\nChecksum\tX" ++ str "rest" = str "junk\r\nChecksum\tXrest" ∧
        (str "junk\r\nChecksum\tX").length = 6 + 10) ∧
      (blockIter [] { init with readcharbuf := str "\r\nV\t1\r\nChecksum\t" } = none ∧
        blockLoop [] 5 { init with readcharbuf := str "\r\nV\t1\r\nChecksum\t" } =
          { init with readcharbuf := str "\r\nV\t1\r\nChecksum\t" }) :=
  ⟨(C11_block_extraction (str "junk\r\nChecksum\tXrest")).2.1 6 (str "junk\r\nChecksum\tX")
      (str "rest") (by decide),
    (C11_block_extraction (str "\r\nV\t1\r\nChecksum\t")).2.2.2 (by decide) []
      { init with readcharbuf := str "\r\nV\t1\r\nChecksum\t" } 5 rfl⟩

/-! ## The outcome of a block -/

theorem print_error_info_cerr (d : Decoder) (m : Bytes) :
    (print_error_info d m).cerr = d.cerr ++
      [⟨m, d.received_bytes,
        if d.valid_blocks = 0 then none
        else some ((d.valid_blocks + d.chksum_errors + d.format_errors) % UINT_MOD,
          d.valid_blocks, d.chksum_errors, d.format_errors)⟩] := by
  unfold print_error_info
  split <;> simp_all

theorem crlf_iff_getD (t : Bytes) : [13, 10] <+: t ↔ t.getD 0 0 = 13 ∧ t.getD 1 0 = 10 := by
  constructor
  · rintro ⟨u, rfl⟩
    exact ⟨rfl, rfl⟩
  · rintro ⟨h0, h1⟩
    cases t with
    | nil => simp at h0
    | cons a t =>
      cases t with
      | nil => simp at h1
      | cons b t =>
        simp only [List.getD_cons_zero, List.getD_cons_succ] at h0 h1
        subst h0 h1
        exact ⟨t, rfl⟩

/-- A block that passes both validators is emitted. -/
theorem processBlock_valid (filter : Bytes) (d : Decoder) {startcheck : Nat} {block : Bytes}
    (h : passesValidators startcheck block) (hrun : d.aborted = false) :
    processBlock filter d startcheck block =
      { d with received_bytes := (d.received_bytes + block.length) % ULONG_MOD,
               extracted := d.extracted ++ [block],
               valid_blocks := (d.valid_blocks + 1) % UINT_MOD,
               cout := d.cout ++
                 ((getlines ((block.take startcheck).drop 2)).filter
                   (fun line => passesFilter filter (nameOf line))).map recordOf } := by
  obtain ⟨hsum, hcrlf, hall⟩ := h
  rw [processBlock_checked hsum hcrlf]
  have hfind : (getlines ((block.take startcheck).drop 2)).find?
      (fun line => !regex_search line ve_direct_line_regex) = none := by
    rw [List.find?_eq_none]
    intro l hlm
    simp [(regex_search_iff_grammarLine l).2 (hall l hlm)]
  rw [hfind]
  exact foldl_emitLine filter _ hall
    { d with received_bytes := (d.received_bytes + block.length) % ULONG_MOD,
             extracted := d.extracted ++ [block],
             valid_blocks := (d.valid_blocks + 1) % UINT_MOD } hrun

/-- A block that fails a validator is discarded with one diagnostic: the
checksum error counter is incremented when the sum is wrong, the format
error counter otherwise, and only when `valid_blocks > 0`. -/
theorem processBlock_discard (filter : Bytes) (d : Decoder) {startcheck : Nat} {block : Bytes}
    (h : ¬ passesValidators startcheck block) :
    ∃ m, processBlock filter d startcheck block =
      print_error_info
        { d with received_bytes := (d.received_bytes + block.length) % ULONG_MOD,
                 extracted := d.extracted ++ [block],
                 chksum_errors :=
                   if checksum block ≠ 0 ∧ d.valid_blocks > 0 then
                     (d.chksum_errors + 1) % UINT_MOD else d.chksum_errors,
                 format_errors :=
                   if checksum block = 0 ∧ d.valid_blocks > 0 then
                     (d.format_errors + 1) % UINT_MOD else d.format_errors } m := by
  by_cases hsum : checksum block = 0
  · by_cases hcrlf : [13, 10] <+: block.take startcheck
    · rw [processBlock_checked hsum hcrlf]
      cases hfind : (getlines ((block.take startcheck).drop 2)).find?
          (fun line => !regex_search line ve_direct_line_regex) with
      | none =>
        exfalso
        apply h
        refine ⟨hsum, hcrlf, ?_⟩
        intro line hline
        rw [List.find?_eq_none] at hfind
        have := hfind line hline
        simp only [Bool.not_eq_true', Bool.not_eq_false] at this
        exact (regex_search_iff_grammarLine line).1 this
      | some bad =>
        refine ⟨str "ERROR format, line \"" ++ bad.filter (fun c => c != 13) ++
          str "\", block discarded.", ?_⟩
        simp only [hsum, ne_eq, not_true_eq_false, false_and, if_false, true_and]
        by_cases hv : d.valid_blocks > 0 <;> simp only [hv, if_true, if_false]
    · have hg : (block.take startcheck).getD 0 0 ≠ 13 ∨ (block.take startcheck).getD 1 0 ≠ 10 := by
        by_contra hno
        apply hcrlf
        rw [crlf_iff_getD]
        constructor
        · by_contra h0; exact hno (Or.inl h0)
        · by_contra h1; exact hno (Or.inr h1)
      refine ⟨str "ERROR format, first 2 characters of block are not \\r\\n, block discarded.",
        ?_⟩
      unfold processBlock
      simp only [hsum, ne_eq, not_true_eq_false, false_and, if_false, true_and, hg, if_true]
      by_cases hv : d.valid_blocks > 0 <;> simp only [hv, if_true, if_false]
  · refine ⟨str "ERROR checksum, block discarded.", ?_⟩
    unfold processBlock
    simp only [hsum, ne_eq, not_false_eq_true, true_and, false_and, if_false, if_true]
    by_cases hv : d.valid_blocks > 0 <;> simp only [hv, if_true, if_false]

/-- C14: a checksum-valid block whose bytes before the checksum marker do
not begin with `\r\n` (also when fewer than two bytes precede the marker)
is a format error: no record of it is written (no line of it is
recovered), `valid_blocks` and `chksum_errors` keep their values, and
`format_errors` is incremented (as an `unsigned int`) exactly when
`valid_blocks > 0`. -/
theorem C14_missing_leading_crlf_is_format_error (filter : Bytes) (d : Decoder)
    (startcheck : Nat) (block rest : Bytes) (hrun : d.aborted = false)
    (hx : extractBlock d.readcharbuf = some (startcheck, block, rest))
    (hsum : block.sum % 256 = 0) (hcrlf : ¬ ([13, 10] <+: block.take startcheck)) :
    ∃ d1, blockIter filter d = some d1 ∧ d1.cout = d.cout ∧
      d1.valid_blocks = d.valid_blocks ∧ d1.chksum_errors = d.chksum_errors ∧
      d1.format_errors =
        (if d.valid_blocks > 0 then (d.format_errors + 1) % UINT_MOD else d.format_errors) := by
  refine ⟨_, blockIter_eq hrun hx, ?_⟩
  have hc : checksum block = 0 := by rw [checksum_eq]; exact hsum
  obtain ⟨m, hm⟩ := @processBlock_discard filter { d with readcharbuf := rest }
    startcheck block (fun h => hcrlf h.2.1)
  rw [hm]
  simp [hc]

/-- C14, witness: after one valid block, the checksum-valid blocks
`V\t1\r\nChecksum\t` (no leading `\r\n`) and `Checksum\t` (marker at
offset 0), each with its checksum byte, are discarded with one format
error. -/
theorem C14_missing_leading_crlf_is_format_error_witness :
    (∃ d1, blockIter []
          { init with readcharbuf := str "V\t1\r\nChecksum\t" ++ [29], valid_blocks := 1 } =
          some d1 ∧
        d1.cout = [] ∧ d1.valid_blocks = 1 ∧ d1.chksum_errors = 0 ∧ d1.format_errors = 1) ∧
      ∃ d1, blockIter []
          { init with readcharbuf := str "Checksum\t" ++ [196], valid_blocks := 1 } = some d1 ∧
        d1.cout = [] ∧ d1.valid_blocks = 1 ∧ d1.chksum_errors = 0 ∧ d1.format_errors = 1 :=
  ⟨C14_missing_leading_crlf_is_format_error []
      { init with readcharbuf := str "V\t1\r\nChecksum\t" ++ [29], valid_blocks := 1 }
      5 (str "V\t1\r\nChecksum\t" ++ [29]) [] (by decide) (by decide) (by decide) (by decide),
    C14_missing_leading_crlf_is_format_error []
      { init with readcharbuf := str "Checksum\t" ++ [196], valid_blocks := 1 }
      0 (str "Checksum\t" ++ [196]) [] (by decide) (by decide) (by decide) (by decide)⟩

/-! ## Assertions never fail -/

theorem processBlock_aborted (filter : Bytes) (d : Decoder) (startcheck : Nat) (block : Bytes)
    (hrun : d.aborted = false) : (processBlock filter d startcheck block).aborted = false := by
  by_cases h : passesValidators startcheck block
  · rw [processBlock_valid filter d h hrun]
    exact hrun
  · obtain ⟨m, hm⟩ := @processBlock_discard filter d startcheck block h
    rw [hm, print_error_info_aborted]
    exact hrun

theorem blockIter_aborted {filter : Bytes} {d d1 : Decoder} (h : blockIter filter d = some d1) :
    d1.aborted = false := by
  unfold blockIter at h
  split at h
  · cases h
  · rename_i hab
    split at h
    · cases h
    · simp only [Option.some.injEq] at h
      subst h
      exact processBlock_aborted _ _ _ _ (by simpa using hab)

theorem blockLoop_aborted (filter : Bytes) : ∀ (fuel : Nat) (d : Decoder),
    d.aborted = false → (blockLoop filter fuel d).aborted = false := by
  intro fuel
  induction fuel with
  | zero => intro d h; exact h
  | succ n ih =>
    intro d h
    unfold blockLoop
    cases hit : blockIter filter d with
    | none => exact h
    | some d1 => exact ih d1 (blockIter_aborted hit)

theorem feed_aborted (filter : Bytes) (d : Decoder) {chunk : Bytes} (hrun : d.aborted = false)
    (hne : chunk ≠ []) : (feed filter d chunk).aborted = false := by
  have hl : chunk.length ≠ 0 := by simpa [List.length_eq_zero] using hne
  unfold feed
  rw [if_neg (by rw [hrun]; simp), if_neg hl]
  exact blockLoop_aborted filter _ _ hrun

theorem foldl_feed_aborted (filter : Bytes) (chunks : List Bytes)
    (hne : ∀ chunk ∈ chunks, chunk ≠ []) : ∀ (d : Decoder), d.aborted = false →
      (chunks.foldl (feed filter) d).aborted = false := by
  induction chunks with
  | nil => intro d h; exact h
  | cons chunk chunks ih =>
    intro d h
    exact ih (fun c hc => hne c (by simp [hc])) _
      (feed_aborted filter d h (hne chunk (by simp)))

/-- C16: for every line accepted by the grammar validator, the last byte
is `\r`, the line contains a TAB, exactly one, the name (the bytes before
the first TAB) is non-empty and the value (the bytes after the first TAB,
without the trailing `\r`) is non-empty, so that none of the assertions of
the emit loop fails on it; and no run of the decoder on non-empty reads ends
in a failed assertion. -/
theorem C16_emitter_assertions_hold :
    (∀ line : Bytes, regex_search line ve_direct_line_regex = true →
      line.getLast? = some 13 ∧ 9 ∈ line ∧ line.count 9 = 1 ∧ nameOf line ≠ [] ∧
        line.dropLast.drop ((nameOf line).length + 1) ≠ [] ∧
        ∀ (filter : Bytes) (d : Decoder), d.aborted = false →
          (emitLine filter d line).aborted = false) ∧
    (∀ (filter : Bytes) (chunks : List Bytes), (∀ chunk ∈ chunks, chunk ≠ []) →
      (run filter chunks).aborted = false) := by
  constructor
  · intro line hline
    have hg := (regex_search_iff_grammarLine line).1 hline
    obtain ⟨N, V, rfl, hN, hV, hNc, hVc⟩ := grammarLine_shape hg
    have hNt : 9 ∉ N := fun h9 => (isNameChar_ne (hNc 9 h9)).1 rfl
    have hVt : 9 ∉ V := fun h9 => (isValueChar_ne (hVc 9 h9)).1 rfl
    refine ⟨List.getLast?_concat _, by simp, ?_, ?_, ?_, ?_⟩
    · simp only [List.count_append, List.count_eq_zero.2 hNt, List.count_eq_zero.2 hVt]
      decide
    · rw [nameOf_shape hNt]
      exact hN
    · rw [nameOf_shape hNt, List.dropLast_concat]
      have : List.drop (N.length + 1) (N ++ [9] ++ V) = V := by
        rw [List.append_assoc, List.drop_append_eq_append_drop]
        simp
      rw [this]
      exact hV
    · intro filter d hrun
      rw [emitLine_grammarLine filter d hrun hg]
      split
      · exact hrun
      · exact hrun
  · intro filter chunks hne
    exact foldl_feed_aborted filter chunks hne init rfl

/-- C16, witness: the accepted line `V\t12000\r`, and the run on the block
`\r\nV\t12000\r\nChecksum\t` with checksum byte `68`. -/
theorem C16_emitter_assertions_hold_witness :
    ((str "V\t12000\r").getLast? = some 13 ∧ 9 ∈ str "V\t12000\r" ∧
        (str "V\t12000\r").count 9 = 1 ∧ nameOf (str "V\t12000\r") ≠ [] ∧
        (str "V\t12000\r").dropLast.drop ((nameOf (str "V\t12000\r")).length + 1) ≠ [] ∧
        ∀ (filter : Bytes) (d : Decoder), d.aborted = false →
          (emitLine filter d (str "V\t12000\r")).aborted = false) ∧
      (run [] [str "\r\nV\t12000\r\nChecksum\t" ++ [68]]).aborted = false :=
  ⟨C16_emitter_assertions_hold.1 (str "V\t12000\r") (by decide),
    C16_emitter_assertions_hold.2 [] [str "\r\nV\t12000\r\nChecksum\t" ++ [68]]
      (by decide)⟩

/-! ## The checksum and flipped high bits -/

theorem xor_128_mod (b : Nat) : (b ^^^ 128) % 256 = (b + 128) % 256 := by
  have h1 : (b ^^^ 128) % 256 = (b % 256) ^^^ 128 := by
    have e : (256 : Nat) = 2 ^ 8 := by norm_num
    rw [e, ← Nat.and_pow_two_sub_one_eq_mod, ← Nat.and_pow_two_sub_one_eq_mod,
      Nat.and_xor_distrib_right]
    rfl
  have h2 : ∀ r, r < 256 → r ^^^ 128 = (r + 128) % 256 := by
    set_option maxRecDepth 100000 in decide
  rw [h1, h2 _ (Nat.mod_lt _ (by norm_num))]
  omega

theorem sum_set (l : Bytes) : ∀ (i v : Nat), i < l.length →
    (l.set i v).sum + l.getD i 0 = l.sum + v := by
  induction l with
  | nil => intro i v h; simp at h
  | cons a l ih =>
    intro i v h
    cases i with
    | zero => simp; omega
    | succ i =>
      have := ih i v (by simpa using h)
      simp only [List.set_cons_succ, List.sum_cons, List.getD_cons_succ]
      omega

theorem sum_flipBit7At (block : Bytes) (i : Nat) (hi : i < block.length) :
    (flipBit7At block i).sum % 256 = (block.sum + 128) % 256 := by
  have h1 := sum_set block i (block.getD i 0 ^^^ 128) hi
  have h2 := xor_128_mod (block.getD i 0)
  unfold flipBit7At
  omega

/-- C17: flipping bit 7 of the bytes at two distinct positions of a block
leaves its sum modulo 256 unchanged, so the modified block passes the
checksum check if and only if the original does. -/
theorem C17_flipped_high_bit_pair_undetected (block : Bytes) (i j : Nat)
    (hi : i < block.length) (hj : j < block.length) (hij : i ≠ j) :
    (flipBit7At (flipBit7At block i) j).getD i 0 = block.getD i 0 ^^^ 128 ∧
      (flipBit7At (flipBit7At block i) j).getD j 0 = block.getD j 0 ^^^ 128 ∧
      checksum (flipBit7At (flipBit7At block i) j) = checksum block ∧
      (checksum (flipBit7At (flipBit7At block i) j) = 0 ↔ checksum block = 0) := by
  have hlen : (flipBit7At block i).length = block.length := by simp [flipBit7At]
  have hsum : checksum (flipBit7At (flipBit7At block i) j) = checksum block := by
    have h1 := sum_flipBit7At block i hi
    have h2 := sum_flipBit7At (flipBit7At block i) j (by rw [hlen]; exact hj)
    rw [checksum_eq, checksum_eq]
    omega
  refine ⟨?_, ?_, hsum, by rw [hsum]⟩
  · simp [flipBit7At, List.getD_eq_getElem?_getD, List.getElem?_set, hij, hi, Ne.symm hij]
  · simp [flipBit7At, List.getD_eq_getElem?_getD, List.getElem?_set, hij, hj, Ne.symm hij]

/-- C17, witness: in the valid block `\r\nV\t12000\r\nChecksum\t` with
checksum byte `68`, flipping bit 7 of the bytes at positions 2 and 4 gives a
different block that still passes the checksum check. -/
theorem C17_flipped_high_bit_pair_undetected_witness :
    flipBit7At (flipBit7At (str "\r\nV\t12000\r\nChecksum\t" ++ [68]) 2) 4 ≠
        str "\r\nV\t12000\r\nChecksum\t" ++ [68] ∧
      checksum (flipBit7At (flipBit7At (str "\r\nV\t12000\r\nChecksum\t" ++ [68]) 2) 4) =
        checksum (str "\r\nV\t12000\r\nChecksum\t" ++ [68]) ∧
      (checksum (flipBit7At (flipBit7At (str "\r\nV\t12000\r\nChecksum\t" ++ [68]) 2) 4) = 0 ↔
        checksum (str "\r\nV\t12000\r\nChecksum\t" ++ [68]) = 0) :=
  ⟨by decide,
    (C17_flipped_high_bit_pair_undetected (str "\r\nV\t12000\r\nChecksum\t" ++ [68]) 2 4
      (by decide) (by decide) (by decide)).2.2⟩

/-! ## The block loop after a read -/

theorem extractBlock_of_blockIter_none {filter : Bytes} {d : Decoder}
    (h : blockIter filter d = none) (hrun : d.aborted = false) :
    extractBlock d.readcharbuf = none := by
  unfold blockIter at h
  rw [if_neg (by rw [hrun]; simp)] at h
  cases hx : extractBlock d.readcharbuf with
  | none => rfl
  | some x =>
    obtain ⟨sc, block, rest⟩ := x
    rw [hx] at h
    cases h

theorem extractBlock_feed (filter : Bytes) (d : Decoder) {chunk : Bytes}
    (hrun : d.aborted = false) (hne : chunk ≠ []) :
    extractBlock (feed filter d chunk).readcharbuf = none := by
  have hab := feed_aborted filter d hrun hne
  have hl : chunk.length ≠ 0 := by simpa [List.length_eq_zero] using hne
  have hex : blockIter filter (feed filter d chunk) = none := by
    unfold feed
    rw [if_neg (by rw [hrun]; simp), if_neg hl]
    exact blockLoop_exhausts filter _ _ (Nat.le_refl _)
  exact extractBlock_of_blockIter_none hex hab

/-- C18: (1) when the block loop of a read finishes, the buffer holds no
extractable block: the checksum marker does not occur in it, or its first
occurrence is the last 9 bytes of the buffer; (2) whatever the outcome of a
block, discarded or emitted, the loop goes on with the buffer that is left,
within the same read, until no block is extractable. -/
theorem C18_block_loop_runs_to_exhaustion :
    (∀ (filter : Bytes) (d : Decoder) (chunk : Bytes), d.aborted = false → chunk ≠ [] →
      extractBlock (feed filter d chunk).readcharbuf = none ∧
      ((∀ j, ¬ occursAt (str "Checksum\t") (feed filter d chunk).readcharbuf j) ∨
        ∃ p, occursAt (str "Checksum\t") (feed filter d chunk).readcharbuf p ∧
          (∀ j, j < p → ¬ occursAt (str "Checksum\t") (feed filter d chunk).readcharbuf j) ∧
          (feed filter d chunk).readcharbuf.length = p + 9)) ∧
    (∀ (filter : Bytes) (d : Decoder) (fuel startcheck : Nat) (block rest : Bytes),
      d.aborted = false → extractBlock d.readcharbuf = some (startcheck, block, rest) →
      d.readcharbuf.length ≤ fuel →
      blockLoop filter fuel d =
          blockLoop filter (fuel - 1)
            (processBlock filter { d with readcharbuf := rest } startcheck block) ∧
        (processBlock filter { d with readcharbuf := rest } startcheck block).readcharbuf =
          rest ∧
        rest.length ≤ fuel - 1 ∧
        extractBlock (blockLoop filter fuel d).readcharbuf = none) := by
  constructor
  · intro filter d chunk hrun hne
    have h := extractBlock_feed filter d hrun hne
    exact ⟨h, (extractBlock_none_iff _).1 h⟩
  · intro filter d fuel startcheck block rest hrun hx hfuel
    have hit := @blockIter_eq filter d startcheck block rest hrun hx
    obtain ⟨_, hl, _, hrest⟩ := extractBlock_some hx
    have hf : fuel ≠ 0 := by omega
    refine ⟨blockLoop_step filter hf hit, processBlock_readcharbuf _ _ _ _, ?_, ?_⟩
    · rw [hrest, List.length_drop]
      omega
    · exact extractBlock_of_blockIter_none (blockLoop_exhausts filter fuel d hfuel)
        (blockLoop_aborted filter fuel d hrun)

/-- C18, witness: one read delivers the block `\r\nV\t1\r\nChecksum\t` with
the wrong checksum byte `0`, the valid block `\r\nV\t12000\r\nChecksum\t`
with checksum byte `68` and the first bytes `\r\nV` of a third block: both
blocks are extracted within the read, the record of the second is written,
and `\r\nV` is left in the buffer. -/
theorem C18_block_loop_runs_to_exhaustion_witness :
    (extractBlock (feed [] init
        (str "\r\nV\t1\r\nChecksum\t" ++ [0] ++ str "\r\nV\t12000\r\nChecksum\t" ++ [68] ++
          str "\r\nV")).readcharbuf = none ∧
      (feed [] init
        (str "\r\nV\t1\r\nChecksum\t" ++ [0] ++ str "\r\nV\t12000\r\nChecksum\t" ++ [68] ++
          str "\r\nV")).extracted =
        [str "\r\nV\t1\r\nChecksum\t" ++ [0], str "\r\nV\t12000\r\nChecksum\t" ++ [68]] ∧
      (feed [] init
        (str "\r\nV\t1\r\nChecksum\t" ++ [0] ++ str "\r\nV\t12000\r\nChecksum\t" ++ [68] ++
          str "\r\nV")).cout = [str "V\t12000\n"] ∧
      (feed [] init
        (str "\r\nV\t1\r\nChecksum\t" ++ [0] ++ str "\r\nV\t12000\r\nChecksum\t" ++ [68] ++
          str "\r\nV")).readcharbuf = str "\r\nV") ∧
      extractBlock (blockLoop [] 40 { init with
        readcharbuf := str "\r\nV\t1\r\nChecksum\t" ++ [0] ++
          str "\r\nV\t12000\r\nChecksum\t" ++ [68] }).readcharbuf = none :=
  ⟨⟨(C18_block_loop_runs_to_exhaustion.1 [] init
        (str "\r\nV\t1\r\nChecksum\t" ++ [0] ++ str "\r\nV\t12000\r\nChecksum\t" ++ [68] ++
          str "\r\nV") rfl (by decide)).1, by decide, by decide, by decide⟩,
    (C18_block_loop_runs_to_exhaustion.2 [] { init with
        readcharbuf := str "\r\nV\t1\r\nChecksum\t" ++ [0] ++
          str "\r\nV\t12000\r\nChecksum\t" ++ [68] } 40 7
      (str "\r\nV\t1\r\nChecksum\t" ++ [0]) (str "\r\nV\t12000\r\nChecksum\t" ++ [68])
      rfl (by decide) (by decide)).2.2.2⟩

/-! ## The checksum field is never a record -/

theorem exists_occursAt {pat s : Bytes} (h : pat <:+: s) : ∃ i, occursAt pat s i := by
  obtain ⟨a, b, rfl⟩ := h
  refine ⟨a.length, by simp, b, ?_⟩
  rw [List.append_assoc, List.drop_left]

theorem occursAt_take {pat s : Bytes} {n q : Nat} :
    occursAt pat (s.take n) q ↔ occursAt pat s q ∧ q + pat.length ≤ n := by
  unfold occursAt
  rw [List.drop_take, List.prefix_take_iff, List.length_take]
  constructor
  · rintro ⟨h1, h2, h3⟩
    exact ⟨⟨by omega, h2⟩, by omega⟩
  · rintro ⟨⟨h1, h2⟩, h3⟩
    exact ⟨by omega, h2, by omega⟩

/-- In an extracted block the checksum marker occurs at the offset found in
the buffer and nowhere else. -/
theorem extractBlock_marker_unique {b : Bytes} {startcheck : Nat} {block rest : Bytes}
    (hx : extractBlock b = some (startcheck, block, rest)) :
    block.length = startcheck + 10 ∧ occursAt (str "Checksum\t") block startcheck ∧
      ∀ q, occursAt (str "Checksum\t") block q → q = startcheck := by
  obtain ⟨hocc, hfirst, hl, rfl, _⟩ := extractBlock_iff.1 hx
  have h9 : (str "Checksum\t").length = 9 := by decide
  refine ⟨by simp only [List.length_take]; omega, occursAt_take.2 ⟨hocc, by omega⟩, ?_⟩
  intro q hq
  obtain ⟨hq1, hq2⟩ := occursAt_take.1 hq
  rcases Nat.lt_trichotomy q startcheck with h | h | h
  · exact absurd hq1 (hfirst q h)
  · exact h
  · exfalso
    have hq3 : q = startcheck + 1 := by omega
    subst hq3
    rw [str_checksum] at hocc hq1
    have h1 := occursAt_cons_get (occursAt_cons_succ hocc)
    have h2 := occursAt_cons_get hq1
    rw [h1] at h2
    cases h2

theorem extractBlock_text_no_marker {b : Bytes} {startcheck : Nat} {block rest : Bytes}
    (hx : extractBlock b = some (startcheck, block, rest)) :
    ¬ (str "Checksum\t" <:+: block.take startcheck) := by
  intro h
  obtain ⟨q, hq⟩ := exists_occursAt h
  obtain ⟨hq1, hq2⟩ := occursAt_take.1 hq
  obtain ⟨_, _, huniq⟩ := extractBlock_marker_unique hx
  have := huniq q hq1
  have h9 : (str "Checksum\t").length = 9 := by decide
  omega

theorem getline_parts {s l rest : Bytes} (h : getline s = some (l, rest)) :
    l <+: s ∧ rest <:+ s := by
  unfold getline at h
  split at h
  · cases h
  · simp only [Option.some.injEq, Prod.mk.injEq] at h
    obtain ⟨rfl, rfl⟩ := h
    exact ⟨ List.takeWhile_prefix _,
      (List.drop_suffix 1 _).trans (List.dropWhile_suffix _)⟩

theorem infix_of_mem_getlinesAux : ∀ (fuel : Nat) (s : Bytes), ∀ l ∈ getlinesAux fuel s, l <:+: s := by
  intro fuel
  induction fuel with
  | zero => intro s l hl; simp [getlinesAux] at hl
  | succ n ih =>
    intro s l hl
    unfold getlinesAux at hl
    cases hg : getline s with
    | none => rw [hg] at hl; simp at hl
    | some p =>
      obtain ⟨l1, rest⟩ := p
      rw [hg] at hl
      obtain ⟨h1, h2⟩ := getline_parts hg
      rcases List.mem_cons.1 hl with rfl | hl
      · exact h1.isInfix
      · exact (ih rest l hl).trans h2.isInfix

theorem infix_of_mem_getlines {s l : Bytes} (h : l ∈ getlines s) : l <:+: s :=
  infix_of_mem_getlinesAux _ s l h

/-- The records added by one iteration of the block loop are records of
lines of the grammar that do not hold the checksum marker. -/
theorem blockIter_cout {filter : Bytes} {d d1 : Decoder} (h : blockIter filter d = some d1) :
    ∃ lines : List Bytes,
      (∀ line ∈ lines, GrammarLine line ∧ ¬ (str "Checksum\t" <:+: line)) ∧
      d1.cout = d.cout ++ lines.map recordOf := by
  unfold blockIter at h
  split at h
  · cases h
  · rename_i hab
    have hrun : d.aborted = false := by simpa using hab
    split at h
    · cases h
    · rename_i sc block rest hx
      simp only [Option.some.injEq] at h
      subst h
      by_cases hv : passesValidators sc block
      · rw [processBlock_valid filter { d with readcharbuf := rest } hv hrun]
        refine ⟨_, ?_, rfl⟩
        intro line hline
        have hmem := (List.mem_filter.1 hline).1
        refine ⟨hv.2.2 line hmem, ?_⟩
        intro hin
        apply extractBlock_text_no_marker hx
        exact hin.trans ((infix_of_mem_getlines hmem).trans (List.drop_suffix 2 _).isInfix)
      · obtain ⟨m, hm⟩ := @processBlock_discard filter { d with readcharbuf := rest } sc block hv
        exact ⟨[], by simp, by rw [hm]; simp⟩

theorem blockLoop_cout_marker (Q : Bytes → Prop)
    (hQ : ∀ line, GrammarLine line → ¬ (str "Checksum\t" <:+: line) → Q (recordOf line))
    (filter : Bytes) : ∀ (fuel : Nat) (d : Decoder),
      (∀ r ∈ d.cout, Q r) → ∀ r ∈ (blockLoop filter fuel d).cout, Q r := by
  intro fuel
  induction fuel with
  | zero => intro d h; exact h
  | succ fuel ih =>
    intro d h
    unfold blockLoop
    cases hit : blockIter filter d with
    | none => exact h
    | some d1 =>
      apply ih
      obtain ⟨lines, hl, hc⟩ := blockIter_cout hit
      rw [hc]
      intro r hr
      rcases List.mem_append.1 hr with hr | hr
      · exact h r hr
      · obtain ⟨line, hline, rfl⟩ := List.mem_map.1 hr
        exact hQ line (hl line hline).1 (hl line hline).2

theorem foldl_feed_cout_marker (Q : Bytes → Prop)
    (hQ : ∀ line, GrammarLine line → ¬ (str "Checksum\t" <:+: line) → Q (recordOf line))
    (filter : Bytes) (chunks : List Bytes) : ∀ (d : Decoder),
      (∀ r ∈ d.cout, Q r) → ∀ r ∈ (chunks.foldl (feed filter) d).cout, Q r := by
  induction chunks with
  | nil => intro d h; exact h
  | cons chunk chunks ih =>
    intro d h
    apply ih
    unfold feed
    split
    · exact h
    · split
      · exact h
      · exact blockLoop_cout_marker Q hQ filter _ _ h

/-- C20: (1) in every extracted block the checksum marker occurs exactly
once, at offset `|block| - 10`, so that cutting the block at the marker
removes exactly its last 10 bytes and leaves a text without the marker;
(2) for every sequence of reads and every filter, no record written to the
data channel has a name that ends in `Checksum`. -/
theorem C20_checksum_field_never_emitted :
    (∀ (b : Bytes) (startcheck : Nat) (block rest : Bytes),
      extractBlock b = some (startcheck, block, rest) →
      startcheck = block.length - 10 ∧ 10 ≤ block.length ∧
        occursAt (str "Checksum\t") block (block.length - 10) ∧
        (∀ q, occursAt (str "Checksum\t") block q → q = block.length - 10) ∧
        (block.take startcheck).length + 10 = block.length ∧
        ¬ (str "Checksum\t" <:+: block.take startcheck)) ∧
    (∀ (filter : Bytes) (chunks : List Bytes), ∀ r ∈ (run filter chunks).cout,
      ¬ (str "Checksum" <:+ nameOf r)) := by
  constructor
  · intro b startcheck block rest hx
    obtain ⟨hlen, hocc, huniq⟩ := extractBlock_marker_unique hx
    have hsc : startcheck = block.length - 10 := by omega
    refine ⟨hsc, by omega, hsc ▸ hocc, fun q hq => hsc ▸ huniq q hq, ?_,
      extractBlock_text_no_marker hx⟩
    simp only [List.length_take]
    omega
  · intro filter chunks
    apply foldl_feed_cout_marker (fun r => ¬ (str "Checksum" <:+ nameOf r)) _ filter chunks init
      (by simp [init])
    intro line hg hno hsuf
    obtain ⟨N, V, rfl, _, _, hN, _⟩ := grammarLine_shape hg
    have hNt : 9 ∉ N := fun h9 => (isNameChar_ne (hN 9 h9)).1 rfl
    rw [recordOf_shape] at hsuf
    have hname : nameOf (N ++ [9] ++ V ++ [10]) = N := by
      have := nameOf_append hNt (V ++ [10])
      simpa using this
    rw [hname] at hsuf
    obtain ⟨s, hs⟩ := hsuf
    apply hno
    refine ⟨s, V ++ [13], ?_⟩
    have hm : str "Checksum\t" = str "Checksum" ++ [9] := by decide
    rw [hm, ← hs]
    simp

/-- C20, witness: the block extracted from `\r\nV\t12000\r\nChecksum\t`, the
checksum byte `68` and further bytes, and the record it writes. -/
theorem C20_checksum_field_never_emitted_witness :
    (11 = (str "\r\nV\t12000\r\nChecksum\t" ++ [68]).length - 10 ∧
        10 ≤ (str "\r\nV\t12000\r\nChecksum\t" ++ [68]).length ∧
        occursAt (str "Checksum\t") (str "\r\nV\t12000\r\nChecksum\t" ++ [68])
          ((str "\r\nV\t12000\r\nChecksum\t" ++ [68]).length - 10) ∧
        (∀ q, occursAt (str "Checksum\t") (str "\r\nV\t12000\r\nChecksum\t" ++ [68]) q →
          q = (str "\r\nV\t12000\r\nChecksum\t" ++ [68]).length - 10) ∧
        ((str "\r\nV\t12000\r\nChecksum\t" ++ [68]).take 11).length + 10 =
          (str "\r\nV\t12000\r\nChecksum\t" ++ [68]).length ∧
        ¬ (str "Checksum\t" <:+: (str "\r\nV\t12000\r\nChecksum\t" ++ [68]).take 11)) ∧
      ¬ (str "Checksum" <:+ nameOf (str "V\t12000\n")) :=
  ⟨C20_checksum_field_never_emitted.1 (str "\r\nV\t12000\r\nChecksum\t" ++ [68] ++ str "\r\nI")
      11 (str "\r\nV\t12000\r\nChecksum\t" ++ [68]) (str "\r\nI") (by decide),
    C20_checksum_field_never_emitted.2 [] [str "\r\nV\t12000\r\nChecksum\t" ++ [68]]
      (str "V\t12000\n") (by decide)⟩

/-! ## Byte-count conservation -/

theorem totalLength_append (xs : List Bytes) (b : Bytes) :
    totalLength (xs ++ [b]) = totalLength xs + b.length := by
  simp [totalLength]

theorem totalLength_cons (b : Bytes) (xs : List Bytes) :
    totalLength (b :: xs) = b.length + totalLength xs := by
  simp [totalLength]

/-- The bookkeeping of one iteration of the block loop: the block is
appended to the history, its length is added to `received_bytes` and taken
from the buffer. -/
theorem blockIter_bytes {filter : Bytes} {d d1 : Decoder} (h : blockIter filter d = some d1) :
    ∃ block : Bytes, d1.extracted = d.extracted ++ [block] ∧
      d1.received_bytes = (d.received_bytes + block.length) % ULONG_MOD ∧
      d.readcharbuf.length = block.length + d1.readcharbuf.length := by
  unfold blockIter at h
  split at h
  · cases h
  · rename_i hab
    have hrun : d.aborted = false := by simpa using hab
    split at h
    · cases h
    · rename_i sc block rest hx
      simp only [Option.some.injEq] at h
      subst h
      obtain ⟨_, hl, hb, hr⟩ := extractBlock_some hx
      have hlen : d.readcharbuf.length = block.length + rest.length := by
        rw [hb, hr, List.length_take, List.length_drop]
        omega
      refine ⟨block, ?_, ?_, ?_⟩
      · by_cases hv : passesValidators sc block
        · rw [processBlock_valid filter { d with readcharbuf := rest } hv hrun]
        · obtain ⟨m, hm⟩ :=
            @processBlock_discard filter { d with readcharbuf := rest } sc block hv
          rw [hm, print_error_info_extracted]
      · by_cases hv : passesValidators sc block
        · rw [processBlock_valid filter { d with readcharbuf := rest } hv hrun]
        · obtain ⟨m, hm⟩ :=
            @processBlock_discard filter { d with readcharbuf := rest } sc block hv
          rw [hm, print_error_info_received_bytes]
      · rw [processBlock_readcharbuf]
        exact hlen

theorem blockLoop_bytes (filter : Bytes) : ∀ (fuel : Nat) (d : Decoder),
    d.received_bytes = totalLength d.extracted % ULONG_MOD →
      (blockLoop filter fuel d).received_bytes =
          totalLength (blockLoop filter fuel d).extracted % ULONG_MOD ∧
        totalLength (blockLoop filter fuel d).extracted +
            (blockLoop filter fuel d).readcharbuf.length =
          totalLength d.extracted + d.readcharbuf.length := by
  intro fuel
  induction fuel with
  | zero => intro d h; exact ⟨h, rfl⟩
  | succ n ih =>
    intro d h
    unfold blockLoop
    cases hit : blockIter filter d with
    | none => exact ⟨h, rfl⟩
    | some d1 =>
      obtain ⟨block, he, hr, hl⟩ := blockIter_bytes hit
      have h1 : d1.received_bytes = totalLength d1.extracted % ULONG_MOD := by
        rw [hr, he, totalLength_append, h]
        simp [Nat.add_mod]
      obtain ⟨h2, h3⟩ := ih d1 h1
      refine ⟨h2, ?_⟩
      simp only
      rw [h3, he, totalLength_append]
      omega

theorem strip_length_le_aux : ∀ (n : Nat) (b : Bytes), b.length ≤ n →
    (strip b).length ≤ b.length := by
  intro n
  induction n with
  | zero =>
    intro b hb
    cases hs : stripStep b with
    | none => rw [strip_of_stripStep_none hs]
    | some b2 =>
      have := stripStep_length hs
      omega
  | succ n ih =>
    intro b hb
    cases hs : stripStep b with
    | none => rw [strip_of_stripStep_none hs]
    | some b2 =>
      have h1 := stripStep_length hs
      have h2 := ih b2 (by omega)
      rw [strip_of_stripStep_some hs]
      omega

theorem strip_length_le (b : Bytes) : (strip b).length ≤ b.length :=
  strip_length_le_aux b.length b (Nat.le_refl _)

theorem feed_received_bytes (filter : Bytes) (d : Decoder) (chunk : Bytes)
    (h : d.received_bytes = totalLength d.extracted % ULONG_MOD) :
    (feed filter d chunk).received_bytes =
      totalLength (feed filter d chunk).extracted % ULONG_MOD := by
  unfold feed
  split
  · exact h
  · split
    · exact h
    · exact (blockLoop_bytes filter _
        { d with readcharbuf := strip (d.readcharbuf ++ chunk) } h).1

theorem foldl_feed_received_bytes (filter : Bytes) (chunks : List Bytes) :
    ∀ (d : Decoder), d.received_bytes = totalLength d.extracted % ULONG_MOD →
      (chunks.foldl (feed filter) d).received_bytes =
        totalLength (chunks.foldl (feed filter) d).extracted % ULONG_MOD := by
  induction chunks with
  | nil => intro d h; exact h
  | cons chunk chunks ih =>
    intro d h
    exact ih _ (feed_received_bytes filter d chunk h)

theorem feed_bytes (filter : Bytes) (d : Decoder) {chunk : Bytes} (hrun : d.aborted = false)
    (hne : chunk ≠ []) (h : d.received_bytes = totalLength d.extracted % ULONG_MOD) :
    totalLength (feed filter d chunk).extracted + strippedBy d chunk +
        (feed filter d chunk).readcharbuf.length =
      totalLength d.extracted + d.readcharbuf.length + chunk.length := by
  have hl : chunk.length ≠ 0 := by simpa [List.length_eq_zero] using hne
  have hs := strip_length_le (d.readcharbuf ++ chunk)
  have hb := (blockLoop_bytes filter (strip (d.readcharbuf ++ chunk)).length
    { d with readcharbuf := strip (d.readcharbuf ++ chunk) } h).2
  simp only at hb
  unfold feed strippedBy
  rw [if_neg (by rw [hrun]; simp), if_neg hl]
  simp only [List.length_append] at hs ⊢
  omega

theorem foldl_feed_bytes (filter : Bytes) (chunks : List Bytes)
    (hne : ∀ chunk ∈ chunks, chunk ≠ []) : ∀ (d : Decoder), d.aborted = false →
      d.received_bytes = totalLength d.extracted % ULONG_MOD →
      totalLength (chunks.foldl (feed filter) d).extracted + strippedTotal filter d chunks +
          (chunks.foldl (feed filter) d).readcharbuf.length =
        totalLength d.extracted + d.readcharbuf.length + totalLength chunks := by
  induction chunks with
  | nil =>
    intro d _ _
    simp [strippedTotal, totalLength]
  | cons chunk chunks ih =>
    intro d hrun h
    have hc : chunk ≠ [] := hne chunk (by simp)
    have h1 := feed_bytes filter d hrun hc h
    have h2 := ih (fun c hcm => hne c (by simp [hcm])) (feed filter d chunk)
      (feed_aborted filter d hrun hc) (feed_received_bytes filter d chunk h)
    rw [List.foldl_cons, totalLength_cons]
    simp only [strippedTotal]
    omega

/-- C12: after any sequence of reads, `received_bytes` is the sum of the
lengths of all blocks extracted so far, emitted or discarded, as an
`unsigned long` (equal to the sum itself when the counter has not
overflowed); and, for reads that each return at least one byte, the total
number of bytes read is that sum plus the number of bytes removed by the
async strip plus the number of bytes still in the buffer. -/
theorem C12_byte_count_conservation (filter : Bytes) (chunks : List Bytes) :
    (run filter chunks).received_bytes =
        totalLength (run filter chunks).extracted % ULONG_MOD ∧
      (totalLength (run filter chunks).extracted < ULONG_MOD →
        (run filter chunks).received_bytes = totalLength (run filter chunks).extracted) ∧
      ((∀ chunk ∈ chunks, chunk ≠ []) →
        totalLength chunks =
          totalLength (run filter chunks).extracted + strippedTotal filter init chunks +
            (run filter chunks).readcharbuf.length) ∧
      ((∀ chunk ∈ chunks, chunk ≠ []) →
        totalLength (run filter chunks).extracted < ULONG_MOD →
        totalLength chunks =
          (run filter chunks).received_bytes + strippedTotal filter init chunks +
            (run filter chunks).readcharbuf.length) := by
  have h1 : (run filter chunks).received_bytes =
      totalLength (run filter chunks).extracted % ULONG_MOD :=
    foldl_feed_received_bytes filter chunks init rfl
  have h2 : totalLength (run filter chunks).extracted < ULONG_MOD →
      (run filter chunks).received_bytes = totalLength (run filter chunks).extracted := by
    intro hlt
    rw [h1, Nat.mod_eq_of_lt hlt]
  have h3 : (∀ chunk ∈ chunks, chunk ≠ []) →
      totalLength chunks =
        totalLength (run filter chunks).extracted + strippedTotal filter init chunks +
          (run filter chunks).readcharbuf.length := by
    intro hne
    have := foldl_feed_bytes filter chunks hne init rfl rfl
    have h0 : totalLength init.extracted + init.readcharbuf.length = 0 := rfl
    unfold run
    omega
  refine ⟨h1, h2, h3, ?_⟩
  intro hne hlt
  rw [h2 hlt]
  exact h3 hne

/-- C12, witness: two reads deliver `\r\nV\t1\r\n:A4F\nChecksum\t`, then the
checksum byte `6` and `\r\nV`: 25 bytes read, one block of 17 bytes
extracted, 5 bytes stripped and 3 bytes left in the buffer. -/
theorem C12_byte_count_conservation_witness :
    (run [] [str "\r\nV\t1\r\n:A4F\nChecksum\t", [6] ++ str "\r\nV"]).received_bytes = 17 ∧
      totalLength [str "\r\nV\t1\r\n:A4F\nChecksum\t", [6] ++ str "\r\nV"] =
        (run [] [str "\r\nV\t1\r\n:A4F\nChecksum\t", [6] ++ str "\r\nV"]).received_bytes +
          strippedTotal [] init [str "\r\nV\t1\r\n:A4F\nChecksum\t", [6] ++ str "\r\nV"] +
          (run [] [str "\r\nV\t1\r\n:A4F\nChecksum\t", [6] ++ str "\r\nV"]).readcharbuf.length := by
  have h := C12_byte_count_conservation []
    [str "\r\nV\t1\r\n:A4F\nChecksum\t", [6] ++ str "\r\nV"]
  have hne : ∀ chunk ∈ [str "\r\nV\t1\r\n:A4F\nChecksum\t", [6] ++ str "\r\nV"],
      chunk ≠ [] := by decide
  have hlt : totalLength
      (run [] [str "\r\nV\t1\r\n:A4F\nChecksum\t", [6] ++ str "\r\nV"]).extracted <
      ULONG_MOD := by decide
  refine ⟨?_, h.2.2.2 hne hlt⟩
  rw [h.2.1 hlt]
  decide

/-! ## The counters block by block -/

theorem isValidBlock_iff {startcheck : Nat} {block : Bytes}
    (hlen : block.length = startcheck + 10) :
    isValidBlock block = true ↔ passesValidators startcheck block := by
  have ht : blockText block = block.take startcheck := by
    unfold blockText
    rw [hlen, Nat.add_sub_cancel]
  unfold isValidBlock passesValidators
  rw [ht, crlf_iff_getD]
  simp only [Bool.and_eq_true, beq_iff_eq, List.all_eq_true]
  constructor
  · rintro ⟨⟨h1, h2⟩, h3⟩
    exact ⟨h1, h2, fun l hl => (regex_search_iff_grammarLine l).1 (h3 l hl)⟩
  · rintro ⟨h1, h2, h3⟩
    exact ⟨⟨h1, h2⟩, fun l hl => (regex_search_iff_grammarLine l).2 (h3 l hl)⟩

/-- The counters after one iteration of the block loop: a valid block
increments `valid_blocks` and logs nothing; an invalid block logs one
diagnostic and, when `valid_blocks > 0`, increments exactly one of the two
error counters. -/
theorem blockIter_counters {filter : Bytes} {d d1 : Decoder} (h : blockIter filter d = some d1) :
    ∃ block : Bytes, d1.extracted = d.extracted ++ [block] ∧
      ((isValidBlock block = true ∧ d1.valid_blocks = (d.valid_blocks + 1) % UINT_MOD ∧
          d1.chksum_errors = d.chksum_errors ∧ d1.format_errors = d.format_errors ∧
          d1.cerr = d.cerr) ∨
        (isValidBlock block = false ∧ d1.valid_blocks = d.valid_blocks ∧ d1.cout = d.cout ∧
          ((d1.chksum_errors =
                (if d.valid_blocks > 0 then (d.chksum_errors + 1) % UINT_MOD
                  else d.chksum_errors) ∧
              d1.format_errors = d.format_errors) ∨
            (d1.chksum_errors = d.chksum_errors ∧
              d1.format_errors =
                (if d.valid_blocks > 0 then (d.format_errors + 1) % UINT_MOD
                  else d.format_errors))) ∧
          ∃ m rb, d1.cerr = d.cerr ++
            [⟨m, rb,
              if d1.valid_blocks = 0 then none
              else some ((d1.valid_blocks + d1.chksum_errors + d1.format_errors) % UINT_MOD,
                d1.valid_blocks, d1.chksum_errors, d1.format_errors)⟩])) := by
  unfold blockIter at h
  split at h
  · cases h
  · rename_i hab
    have hrun : d.aborted = false := by simpa using hab
    split at h
    · cases h
    · rename_i sc block rest hx
      simp only [Option.some.injEq] at h
      subst h
      obtain ⟨hlen, _, _⟩ := extractBlock_marker_unique hx
      by_cases hv : passesValidators sc block
      · refine ⟨block, ?_, Or.inl ⟨(isValidBlock_iff hlen).2 hv, ?_, ?_, ?_, ?_⟩⟩ <;>
          rw [processBlock_valid filter { d with readcharbuf := rest } hv hrun]
      · obtain ⟨m, hm⟩ :=
          @processBlock_discard filter { d with readcharbuf := rest } sc block hv
        have hnv : isValidBlock block = false := by
          rw [Bool.eq_false_iff]
          exact fun h => hv ((isValidBlock_iff hlen).1 h)
        refine ⟨block, by rw [hm, print_error_info_extracted], Or.inr ⟨hnv, ?_, ?_, ?_, ?_⟩⟩
        · rw [hm, print_error_info_valid_blocks]
        · rw [hm, print_error_info_cout]
        · rw [hm, print_error_info_chksum_errors, print_error_info_format_errors]
          by_cases hsum : checksum block = 0
          · right
            simp [hsum]
          · left
            simp [hsum]
        · refine ⟨m, (d.received_bytes + block.length) % ULONG_MOD, ?_⟩
          rw [hm, print_error_info_cerr, print_error_info_valid_blocks,
            print_error_info_chksum_errors, print_error_info_format_errors]

theorem countedBlocks_append (xs : List Bytes) (b : Bytes) :
    countedBlocks (xs ++ [b]) =
      if countedBlocks xs = 0 then (if isValidBlock b = true then 1 else 0)
      else countedBlocks xs + 1 := by
  unfold countedBlocks
  induction xs with
  | nil =>
    by_cases hb : isValidBlock b = true
    · simp [List.dropWhile_cons, hb]
    · simp [List.dropWhile_cons, hb]
  | cons x xs ih =>
    by_cases hx : isValidBlock x = true
    · simp [List.dropWhile_cons, hx]
    · simp only [List.cons_append, List.dropWhile_cons, hx, Bool.not_eq_true] at ih ⊢
      simpa [hx] using ih

theorem countedBlocks_le (xs : List Bytes) : countedBlocks xs ≤ xs.length := by
  unfold countedBlocks
  exact (List.dropWhile_suffix _).length_le

theorem blockIter_countersInv {filter : Bytes} {d d1 : Decoder}
    (h : blockIter filter d = some d1) (hinv : countersInv d) : countersInv d1 := by
  obtain ⟨block, hex, hcase⟩ := blockIter_counters h
  intro hlt
  rw [hex, List.length_append, List.length_singleton] at hlt
  obtain ⟨hsum, hzero, hcerr⟩ := hinv (by omega)
  have hK := countedBlocks_le d.extracted
  have hUM : UINT_MOD = 4294967296 := rfl
  rw [hex, countedBlocks_append]
  rcases hcase with ⟨hv, h1, h2, h3, h4⟩ | ⟨hv, h1, _, h23, m, rb, h4⟩
  · have hv1 : d1.valid_blocks = d.valid_blocks + 1 := by
      rw [h1]; exact Nat.mod_eq_of_lt (by omega)
    refine ⟨?_, ?_, ?_⟩
    · rw [hv1, h2, h3]
      by_cases hK0 : countedBlocks d.extracted = 0
      · have := hzero.2 hK0
        simp only [hK0, if_true, hv]
        omega
      · simp only [hK0, if_false]
        omega
    · rw [hv1]
      by_cases hK0 : countedBlocks d.extracted = 0
      · simp [hK0, hv]
      · simp [hK0]
    · rw [h4]
      exact hcerr
  · by_cases hK0 : countedBlocks d.extracted = 0
    · have hv0 := hzero.2 hK0
      have hc0 : d1.chksum_errors = d.chksum_errors ∧ d1.format_errors = d.format_errors := by
        rcases h23 with ⟨ha, hb⟩ | ⟨ha, hb⟩
        · rw [hv0] at ha
          exact ⟨by simpa using ha, hb⟩
        · rw [hv0] at hb
          exact ⟨ha, by simpa using hb⟩
      refine ⟨?_, ?_, ?_⟩
      · rw [h1, hc0.1, hc0.2]
        simp only [hK0, if_true, hv, Bool.false_eq_true, if_false]
        omega
      · rw [h1]
        simp [hK0, hv, hv0]
      · rw [h4]
        intro e he t v c f hcounters
        rcases List.mem_append.1 he with he | he
        · exact hcerr e he t v c f hcounters
        · rw [List.mem_singleton] at he
          subst he
          rw [h1, hv0] at hcounters
          simp at hcounters
    · have hvpos : d.valid_blocks > 0 := by
        rcases Nat.eq_zero_or_pos d.valid_blocks with h0 | h0
        · exact absurd (hzero.1 h0) hK0
        · exact h0
      have hsum1 : d1.valid_blocks + d1.chksum_errors + d1.format_errors =
          countedBlocks d.extracted + 1 := by
        rcases h23 with ⟨ha, hb⟩ | ⟨ha, hb⟩
        · rw [if_pos hvpos, Nat.mod_eq_of_lt (by omega)] at ha
          omega
        · rw [if_pos hvpos, Nat.mod_eq_of_lt (by omega)] at hb
          omega
      refine ⟨?_, ?_, ?_⟩
      · simp only [hK0, if_false]
        exact hsum1
      · rw [h1]
        simp only [hK0, if_false]
        omega
      · rw [h4]
        intro e he t v c f hcounters
        rcases List.mem_append.1 he with he | he
        · exact hcerr e he t v c f hcounters
        · rw [List.mem_singleton] at he
          subst he
          have hv1 : d1.valid_blocks ≠ 0 := by omega
          simp only [hv1, if_false, Option.some.injEq, Prod.mk.injEq] at hcounters
          obtain ⟨rfl, rfl, rfl, rfl⟩ := hcounters
          rw [Nat.mod_eq_of_lt (by omega)]
          exact ⟨rfl, by omega, hv1⟩

theorem blockLoop_countersInv (filter : Bytes) : ∀ (fuel : Nat) (d : Decoder),
    countersInv d → countersInv (blockLoop filter fuel d) := by
  intro fuel
  induction fuel with
  | zero => intro d h; exact h
  | succ n ih =>
    intro d h
    unfold blockLoop
    cases hit : blockIter filter d with
    | none => exact h
    | some d1 => exact ih d1 (blockIter_countersInv hit h)

theorem feed_countersInv (filter : Bytes) (d : Decoder) (chunk : Bytes) (h : countersInv d) :
    countersInv (feed filter d chunk) := by
  unfold feed
  split
  · exact h
  · split
    · exact h
    · exact blockLoop_countersInv filter _ { d with readcharbuf := strip (d.readcharbuf ++ chunk) } h

theorem foldl_feed_countersInv (filter : Bytes) (chunks : List Bytes) : ∀ (d : Decoder),
    countersInv d → countersInv (chunks.foldl (feed filter) d) := by
  induction chunks with
  | nil => intro d h; exact h
  | cons chunk chunks ih =>
    intro d h
    exact ih _ (feed_countersInv filter d chunk h)

theorem run_countersInv (filter : Bytes) (chunks : List Bytes) :
    countersInv (run filter chunks) := by
  apply foldl_feed_countersInv
  intro _
  refine ⟨rfl, by simp [init, countedBlocks], ?_⟩
  intro e he
  simp [init] at he

/-! ## Many valid blocks -/

/-- The decoder after `n` reads that each deliver the same well-formed
block. -/
theorem foldl_feed_replicate_frame (filter : Bytes) (lines : List Bytes)
    (hl : ∀ l ∈ lines, GrammarLine l ∧ ¬ (str "Checksum" <:+ nameOf l)) (c : Nat)
    (hsum : (frame lines c).sum % 256 = 0) : ∀ (n : Nat) (d : Decoder),
      d.readcharbuf = [] → d.aborted = false →
      ((List.replicate n (frame lines c)).foldl (feed filter) d).valid_blocks =
          (d.valid_blocks + n) % UINT_MOD ∨ n = 0 := by
  intro n
  induction n with
  | zero => intro d _ _; exact Or.inr rfl
  | succ n ih =>
    intro d hbuf hrun
    left
    rw [List.replicate_succ, List.foldl_cons, feed_frame filter d lines hl c hsum hbuf hrun]
    rcases ih { d with
        received_bytes := (d.received_bytes + (frame lines c).length) % ULONG_MOD,
        extracted := d.extracted ++ [frame lines c],
        valid_blocks := (d.valid_blocks + 1) % UINT_MOD,
        cout := d.cout ++
          (lines.filter (fun line => passesFilter filter (nameOf line))).map recordOf }
      hbuf hrun with h | h
    · rw [h]
      simp only [UINT_MOD]
      omega
    · subst h
      simp only [List.replicate_zero, List.foldl_nil]

theorem foldl_feed_replicate_frame_rest (filter : Bytes) (lines : List Bytes)
    (hl : ∀ l ∈ lines, GrammarLine l ∧ ¬ (str "Checksum" <:+ nameOf l)) (c : Nat)
    (hsum : (frame lines c).sum % 256 = 0) : ∀ (n : Nat) (d : Decoder),
      d.readcharbuf = [] → d.aborted = false →
      ((List.replicate n (frame lines c)).foldl (feed filter) d).chksum_errors =
          d.chksum_errors ∧
        ((List.replicate n (frame lines c)).foldl (feed filter) d).format_errors =
          d.format_errors ∧
        ((List.replicate n (frame lines c)).foldl (feed filter) d).extracted =
          d.extracted ++ List.replicate n (frame lines c) := by
  intro n
  induction n with
  | zero => intro d _ _; simp
  | succ n ih =>
    intro d hbuf hrun
    rw [List.replicate_succ, List.foldl_cons, feed_frame filter d lines hl c hsum hbuf hrun]
    obtain ⟨h1, h2, h3⟩ := ih { d with
        received_bytes := (d.received_bytes + (frame lines c).length) % ULONG_MOD,
        extracted := d.extracted ++ [frame lines c],
        valid_blocks := (d.valid_blocks + 1) % UINT_MOD,
        cout := d.cout ++
          (lines.filter (fun line => passesFilter filter (nameOf line))).map recordOf }
      hbuf hrun
    refine ⟨h1, h2, ?_⟩
    rw [h3]
    simp

theorem frame_V1_lines :
    ∀ l ∈ [str "V\t1\r"], GrammarLine l ∧ ¬ (str "Checksum" <:+ nameOf l) := by
  intro l hlm
  rw [List.mem_singleton] at hlm
  subst hlm
  exact ⟨(regex_search_iff_grammarLine _).1 (by decide), by decide⟩

theorem countedBlocks_replicate {block : Bytes} (h : isValidBlock block = true) (n : Nat) :
    countedBlocks (List.replicate n block) = n := by
  cases n with
  | zero => rfl
  | succ n =>
    unfold countedBlocks
    rw [List.replicate_succ, List.dropWhile_cons]
    simp [h]

/-! ## The counters and the first valid block -/

/-- C13, as stated, fails when `valid_blocks` wraps around: after the valid
block `\r\nV\t1\r\nChecksum\t` `0x06`, the same block with the wrong checksum
byte `0` and `2^32 - 1` further valid blocks, each delivered in one read,
`valid_blocks` is `0` again while `chksum_errors` is `1`. -/
theorem C13_counterexample_valid_blocks_wraps :
    (run [] (frame [str "V\t1\r"] 6 :: frame [str "V\t1\r"] 0 ::
        List.replicate 4294967295 (frame [str "V\t1\r"] 6))).valid_blocks = 0 ∧
      (run [] (frame [str "V\t1\r"] 6 :: frame [str "V\t1\r"] 0 ::
        List.replicate 4294967295 (frame [str "V\t1\r"] 6))).chksum_errors = 1 := by
  have hrun : run [] (frame [str "V\t1\r"] 6 :: frame [str "V\t1\r"] 0 ::
        List.replicate 4294967295 (frame [str "V\t1\r"] 6)) =
      (List.replicate 4294967295 (frame [str "V\t1\r"] 6)).foldl (feed [])
        (run [] [frame [str "V\t1\r"] 6, frame [str "V\t1\r"] 0]) := by
    unfold run
    rw [List.foldl_cons, List.foldl_cons, List.foldl_cons, List.foldl_cons, List.foldl_nil]
  have hbuf : (run [] [frame [str "V\t1\r"] 6, frame [str "V\t1\r"] 0]).readcharbuf = [] := by
    decide
  have hab : (run [] [frame [str "V\t1\r"] 6, frame [str "V\t1\r"] 0]).aborted = false := by
    decide
  have hv : (run [] [frame [str "V\t1\r"] 6, frame [str "V\t1\r"] 0]).valid_blocks = 1 := by
    decide
  have hc : (run [] [frame [str "V\t1\r"] 6, frame [str "V\t1\r"] 0]).chksum_errors = 1 := by
    decide
  rw [hrun]
  constructor
  · rcases foldl_feed_replicate_frame [] [str "V\t1\r"] frame_V1_lines 6 (by decide)
        4294967295 _ hbuf hab with h | h
    · rw [h, hv]
      rfl
    · exact absurd h (by decide)
  · rw [(foldl_feed_replicate_frame_rest [] [str "V\t1\r"] frame_V1_lines 6 (by decide)
        4294967295 _ hbuf hab).1, hc]

/-- C13, amended: in every decoder state reached by reads in which fewer
than `2^32` blocks have been extracted, `valid_blocks = 0` implies
`chksum_errors = 0` and `format_errors = 0`; and a block discarded while
`valid_blocks = 0` leaves `valid_blocks`, `chksum_errors`, `format_errors`
and the data channel unchanged: it is only logged, with the message for the
time before the first valid block. -/
theorem C13_errors_counted_after_first_valid_block :
    (∀ (filter : Bytes) (chunks : List Bytes),
      (run filter chunks).extracted.length < UINT_MOD →
      (run filter chunks).valid_blocks = 0 →
      (run filter chunks).chksum_errors = 0 ∧ (run filter chunks).format_errors = 0) ∧
    (∀ (filter : Bytes) (d : Decoder) (startcheck : Nat) (block rest : Bytes),
      d.aborted = false → extractBlock d.readcharbuf = some (startcheck, block, rest) →
      ¬ passesValidators startcheck block → d.valid_blocks = 0 →
      ∃ d1, blockIter filter d = some d1 ∧ d1.valid_blocks = 0 ∧
        d1.chksum_errors = d.chksum_errors ∧ d1.format_errors = d.format_errors ∧
        d1.cout = d.cout ∧ ∃ m rb, d1.cerr = d.cerr ++ [⟨m, rb, none⟩]) := by
  constructor
  · intro filter chunks hlt hv
    obtain ⟨hsum, hzero, _⟩ := run_countersInv filter chunks hlt
    have := hzero.1 hv
    omega
  · intro filter d startcheck block rest hrun hx hnv hv
    refine ⟨_, blockIter_eq hrun hx, ?_⟩
    obtain ⟨m, hm⟩ :=
      @processBlock_discard filter { d with readcharbuf := rest } startcheck block hnv
    rw [hm]
    refine ⟨by simp [hv], by simp [hv], by simp [hv], by simp, m,
      (d.received_bytes + block.length) % ULONG_MOD, ?_⟩
    rw [print_error_info_cerr]
    simp [hv]

/-- C13, amended, witness: the first block of a run has the wrong checksum
byte and is only logged; the counters stay at zero. -/
theorem C13_errors_counted_after_first_valid_block_witness :
    ((run [] [frame [str "V\t1\r"] 0]).chksum_errors = 0 ∧
        (run [] [frame [str "V\t1\r"] 0]).format_errors = 0) ∧
      ∃ d1, blockIter [] { init with readcharbuf := frame [str "V\t1\r"] 0 } = some d1 ∧
        d1.valid_blocks = 0 ∧ d1.chksum_errors = 0 ∧ d1.format_errors = 0 ∧ d1.cout = [] ∧
        ∃ m rb, d1.cerr = [] ++ [⟨m, rb, none⟩] :=
  ⟨C13_errors_counted_after_first_valid_block.1 [] [frame [str "V\t1\r"] 0]
      (by decide) (by decide),
    C13_errors_counted_after_first_valid_block.2 []
      { init with readcharbuf := frame [str "V\t1\r"] 0 } 7 (frame [str "V\t1\r"] 0) []
      rfl (by decide) (fun h => absurd h.1 (by decide)) rfl⟩

/-! ## The counters as a partition of the blocks -/

/-- C19, as stated, fails when `valid_blocks` wraps around: after `2^32`
reads that each deliver the valid block `\r\nV\t1\r\nChecksum\t` `0x06`, the
three counters add up to `0`, while `2^32` blocks have been extracted from
the first valid block onward. -/
theorem C19_counterexample_total_wraps :
    (run [] (List.replicate 4294967296 (frame [str "V\t1\r"] 6))).valid_blocks +
        (run [] (List.replicate 4294967296 (frame [str "V\t1\r"] 6))).chksum_errors +
        (run [] (List.replicate 4294967296 (frame [str "V\t1\r"] 6))).format_errors = 0 ∧
      countedBlocks
        (run [] (List.replicate 4294967296 (frame [str "V\t1\r"] 6))).extracted =
        4294967296 := by
  have hsum : (frame [str "V\t1\r"] 6).sum % 256 = 0 := by decide
  obtain ⟨h1, h2, h3⟩ := foldl_feed_replicate_frame_rest [] [str "V\t1\r"] frame_V1_lines 6
    hsum 4294967296 init rfl rfl
  have e1 : (run [] (List.replicate 4294967296 (frame [str "V\t1\r"] 6))).chksum_errors = 0 :=
    h1
  have e2 : (run [] (List.replicate 4294967296 (frame [str "V\t1\r"] 6))).format_errors = 0 :=
    h2
  have e3 : (run [] (List.replicate 4294967296 (frame [str "V\t1\r"] 6))).extracted =
      List.replicate 4294967296 (frame [str "V\t1\r"] 6) := h3
  have hv : (run [] (List.replicate 4294967296 (frame [str "V\t1\r"] 6))).valid_blocks = 0 := by
    rcases foldl_feed_replicate_frame [] [str "V\t1\r"] frame_V1_lines 6 hsum
        4294967296 init rfl rfl with h | h
    · unfold run
      rw [h]
      rfl
    · exact absurd h (by decide)
  constructor
  · omega
  · rw [e3]
    exact countedBlocks_replicate (by decide) 4294967296

/-- C19, amended: (1) every extracted block leaves each of `valid_blocks`,
`chksum_errors`, `format_errors` unchanged or incremented by one as an
`unsigned int`, and once `valid_blocks > 0` it increments exactly one of the
three; (2) in every decoder state reached by reads in which fewer than
`2^32` blocks have been extracted, the three counters add up to the number
of blocks extracted from the first valid block onward, and every total
reported by the diagnostics is the sum of the three counters reported with
it and is not zero. -/
theorem C19_counters_partition_blocks :
    (∀ (filter : Bytes) (d d1 : Decoder), blockIter filter d = some d1 →
      (d1.valid_blocks = d.valid_blocks ∨
          d1.valid_blocks = (d.valid_blocks + 1) % UINT_MOD) ∧
        (d1.chksum_errors = d.chksum_errors ∨
          d1.chksum_errors = (d.chksum_errors + 1) % UINT_MOD) ∧
        (d1.format_errors = d.format_errors ∨
          d1.format_errors = (d.format_errors + 1) % UINT_MOD) ∧
        (d.valid_blocks > 0 →
          (d1.valid_blocks = (d.valid_blocks + 1) % UINT_MOD ∧
              d1.chksum_errors = d.chksum_errors ∧ d1.format_errors = d.format_errors) ∨
            (d1.valid_blocks = d.valid_blocks ∧
              d1.chksum_errors = (d.chksum_errors + 1) % UINT_MOD ∧
              d1.format_errors = d.format_errors) ∨
            (d1.valid_blocks = d.valid_blocks ∧ d1.chksum_errors = d.chksum_errors ∧
              d1.format_errors = (d.format_errors + 1) % UINT_MOD))) ∧
    (∀ (filter : Bytes) (chunks : List Bytes),
      (run filter chunks).extracted.length < UINT_MOD →
      (run filter chunks).valid_blocks + (run filter chunks).chksum_errors +
          (run filter chunks).format_errors =
        countedBlocks (run filter chunks).extracted ∧
      ∀ e ∈ (run filter chunks).cerr, ∀ t v c f, e.counters = some (t, v, c, f) →
        t = v + c + f ∧ t ≠ 0) := by
  constructor
  · intro filter d d1 h
    obtain ⟨block, _, hcase⟩ := blockIter_counters h
    rcases hcase with ⟨_, h1, h2, h3, _⟩ | ⟨_, h1, _, h23, _⟩
    · exact ⟨Or.inr h1, Or.inl h2, Or.inl h3, fun _ => Or.inl ⟨h1, h2, h3⟩⟩
    · rcases h23 with ⟨ha, hb⟩ | ⟨ha, hb⟩
      · refine ⟨Or.inl h1, ?_, Or.inl hb, ?_⟩
        · by_cases hv : d.valid_blocks > 0
          · rw [if_pos hv] at ha
            exact Or.inr ha
          · rw [if_neg hv] at ha
            exact Or.inl ha
        · intro hv
          rw [if_pos hv] at ha
          exact Or.inr (Or.inl ⟨h1, ha, hb⟩)
      · refine ⟨Or.inl h1, Or.inl ha, ?_, ?_⟩
        · by_cases hv : d.valid_blocks > 0
          · rw [if_pos hv] at hb
            exact Or.inr hb
          · rw [if_neg hv] at hb
            exact Or.inl hb
        · intro hv
          rw [if_pos hv] at hb
          exact Or.inr (Or.inr ⟨h1, ha, hb⟩)
  · intro filter chunks hlt
    obtain ⟨hsum, _, hcerr⟩ := run_countersInv filter chunks hlt
    refine ⟨hsum, ?_⟩
    intro e he t v c f hc
    obtain ⟨h1, h2, _⟩ := hcerr e he t v c f hc
    exact ⟨h1, h2⟩

/-- C19, amended, witness: a discarded block, a valid block and another
discarded block in one read: the second discard is reported with the total
`2`, the number of blocks from the valid block onward. -/
theorem C19_counters_partition_blocks_witness :
    ((run [] [frame [str "V\t1\r"] 0 ++ frame [str "V\t1\r"] 6 ++
          frame [str "V\t1\r"] 0]).valid_blocks +
        (run [] [frame [str "V\t1\r"] 0 ++ frame [str "V\t1\r"] 6 ++
          frame [str "V\t1\r"] 0]).chksum_errors +
        (run [] [frame [str "V\t1\r"] 0 ++ frame [str "V\t1\r"] 6 ++
          frame [str "V\t1\r"] 0]).format_errors =
        countedBlocks (run [] [frame [str "V\t1\r"] 0 ++ frame [str "V\t1\r"] 6 ++
          frame [str "V\t1\r"] 0]).extracted ∧
      ∀ e ∈ (run [] [frame [str "V\t1\r"] 0 ++ frame [str "V\t1\r"] 6 ++
          frame [str "V\t1\r"] 0]).cerr, ∀ t v c f, e.counters = some (t, v, c, f) →
        t = v + c + f ∧ t ≠ 0) ∧
      countedBlocks (run [] [frame [str "V\t1\r"] 0 ++ frame [str "V\t1\r"] 6 ++
          frame [str "V\t1\r"] 0]).extracted = 2 ∧
      ((run [] [frame [str "V\t1\r"] 0 ++ frame [str "V\t1\r"] 6 ++
          frame [str "V\t1\r"] 0]).cerr.map (fun e => e.counters)) =
        [none, some (2, 1, 1, 0)] :=
  ⟨C19_counters_partition_blocks.2 []
      [frame [str "V\t1\r"] 0 ++ frame [str "V\t1\r"] 6 ++ frame [str "V\t1\r"] 0]
      (by decide), by decide, by decide⟩

/-! ## A last line without line feed -/

/-- C15 fails on the code: the block `\r\nV\t1\rChecksum\t` with checksum
byte `0x10`, in which the checksum marker follows the carriage return of the
last line directly, passes both validators; `valid_blocks` becomes `1` and
the record `V\t1` is written, although the text `V\t1\r` between the
leading `\r\n` and the checksum marker is no concatenation of segments that
each end in `\r\n`, and the block without its checksum field does not end
with `\r\n`. -/
theorem C15_last_line_without_line_feed_is_accepted :
    isValidBlock (str "\r\nV\t1\rChecksum\t" ++ [16]) = true ∧
      (run [] [str "\r\nV\t1\rChecksum\t" ++ [16]]).valid_blocks = 1 ∧
      (run [] [str "\r\nV\t1\rChecksum\t" ++ [16]]).cout = [str "V\t1\n"] ∧
      blockText (str "\r\nV\t1\rChecksum\t" ++ [16]) = str "\r\n" ++ str "V\t1\r" ∧
      ¬ (str "\r\n" <:+ blockText (str "\r\nV\t1\rChecksum\t" ++ [16])) ∧
      ¬ ∃ segments : List Bytes,
          str "V\t1\r" = (segments.map (fun s => s ++ str "\r\n")).flatten := by
  refine ⟨by decide, by decide, by decide, by decide, by decide, ?_⟩
  rintro ⟨segments, h⟩
  cases segments with
  | nil => revert h; decide
  | cons s segments =>
    have h10 : 10 ∈ str "V\t1\r" := by
      rw [h]
      simp [str_newline, str]
    revert h10
    decide


/-! ## Dependence on the read boundaries -/

/-- C21: the records written depend on where the reads split the stream.
The stream `\r\nV\t1\r\nChecksum\t` `:A1\n` `0x06` delivered in one read has
its async message stripped, the block ends with the byte `0x06`, the record
`V\t1` is written and `valid_blocks` is `1`. The same stream delivered in two
non-empty reads split right after the `:` has the block extracted with `:` as
its checksum byte before the message is complete; the byte sum is not zero,
the block is discarded with the checksum error message, nothing is written
and `valid_blocks` stays `0`. -/
theorem C21_output_depends_on_read_split :
    ∃ (stream : Bytes) (split1 split2 : List Bytes),
      stream = str "\r\nV\t1\r\nChecksum\t" ++ str ":A1\n" ++ [6] ∧
      split1 = [stream] ∧
      split2 = [str "\r\nV\t1\r\nChecksum\t:", str "A1\n" ++ [6]] ∧
      split1.flatten = stream ∧ split2.flatten = stream ∧
      (∀ chunk ∈ split1, 0 < chunk.length ∧ chunk.length ≤ 512) ∧
      (∀ chunk ∈ split2, 0 < chunk.length ∧ chunk.length ≤ 512) ∧
      (run [] split1).extracted = [str "\r\nV\t1\r\nChecksum\t" ++ [6]] ∧
      (run [] split1).cout = [str "V\t1\n"] ∧
      (run [] split1).valid_blocks = 1 ∧
      (run [] split1).cerr = [] ∧
      (run [] split2).extracted = [str "\r\nV\t1\r\nChecksum\t:"] ∧
      checksum (str "\r\nV\t1\r\nChecksum\t:") ≠ 0 ∧
      (run [] split2).cout = [] ∧
      (run [] split2).valid_blocks = 0 ∧
      (run [] split2).cerr.map ErrorInfo.first_line =
        [str "ERROR checksum, block discarded."] ∧
      (run [] split2).readcharbuf = str "A1\n" ++ [6] ∧
      (run [] split1).aborted = false ∧ (run [] split2).aborted = false ∧
      (run [] split1).cout ≠ (run [] split2).cout := by
  refine ⟨_, _, _, rfl, rfl, rfl, ?_⟩
  decide

/-! ## A block without lines -/

theorem str_crlf_checksum :
    str "\r\nChecksum\t" = [13, 10, 67, 104, 101, 99, 107, 115, 117, 109, 9] := by
  decide

theorem extractBlock_empty_block (c : Nat) (rest : Bytes) :
    extractBlock (str "\r\nChecksum\t" ++ [c] ++ rest) =
      some (2, str "\r\nChecksum\t" ++ [c], rest) := by
  simp [extractBlock, find, findAux, str_crlf_checksum, str_checksum, List.isPrefixOf]

theorem passesValidators_empty_block {c : Nat}
    (hsum : (str "\r\nChecksum\t" ++ [c]).sum % 256 = 0) :
    passesValidators 2 (str "\r\nChecksum\t" ++ [c]) := by
  refine ⟨by rw [checksum_eq]; exact hsum, ?_, ?_⟩
  · simp [str_crlf_checksum]
  · intro line hline
    simp [str_crlf_checksum, getlines, getlinesAux] at hline

/-- C22: a block with no lines is accepted. When the buffer starts with
`\r\nChecksum\t` followed by a byte `c` that makes the byte sum of these
twelve bytes `0` modulo 256 (so `c` is `0xAD` as a byte), one iteration of
the block loop extracts exactly these twelve bytes with the marker at offset
`2`, both validators pass, the text between the leading `\r\n` and the
marker has no line, `valid_blocks` is incremented (as an `unsigned int`),
`received_bytes` grows by `12` (as an `unsigned long`), and the data channel
and the diagnostic channel are left as they were. A fresh decoder fed this
block in one read ends with `valid_blocks = 1`, `received_bytes = 12` and
nothing written. -/
theorem C22_block_without_lines_is_accepted (filter : Bytes) (d : Decoder) (c : Nat)
    (rest : Bytes) (hrun : d.aborted = false)
    (hbuf : d.readcharbuf = str "\r\nChecksum\t" ++ [c] ++ rest)
    (hsum : (str "\r\nChecksum\t" ++ [c]).sum % 256 = 0) :
    c % 256 = 173 ∧
      (str "\r\nChecksum\t" ++ [c]).length = 12 ∧
      extractBlock d.readcharbuf = some (2, str "\r\nChecksum\t" ++ [c], rest) ∧
      passesValidators 2 (str "\r\nChecksum\t" ++ [c]) ∧
      isValidBlock (str "\r\nChecksum\t" ++ [c]) = true ∧
      getlines (((str "\r\nChecksum\t" ++ [c]).take 2).drop 2) = [] ∧
      blockIter filter d =
        some { d with readcharbuf := rest,
                      valid_blocks := (d.valid_blocks + 1) % UINT_MOD,
                      received_bytes := (d.received_bytes + 12) % ULONG_MOD,
                      extracted := d.extracted ++ [str "\r\nChecksum\t" ++ [c]] } ∧
      (d.valid_blocks + 1 < UINT_MOD → d.received_bytes + 12 < ULONG_MOD →
        ∃ d1, blockIter filter d = some d1 ∧ d1.valid_blocks = d.valid_blocks + 1 ∧
          d1.received_bytes = d.received_bytes + 12 ∧ d1.cout = d.cout ∧
          d1.cerr = d.cerr ∧ d1.chksum_errors = d.chksum_errors ∧
          d1.format_errors = d.format_errors) ∧
      (run filter [str "\r\nChecksum\t" ++ [c]]).valid_blocks = 1 ∧
      (run filter [str "\r\nChecksum\t" ++ [c]]).received_bytes = 12 ∧
      (run filter [str "\r\nChecksum\t" ++ [c]]).cout = [] ∧
      (run filter [str "\r\nChecksum\t" ++ [c]]).cerr = [] := by
  have hv := passesValidators_empty_block hsum
  have hlen : (str "\r\nChecksum\t" ++ [c]).length = 12 := by simp [str_crlf_checksum]
  have hlines : getlines (((str "\r\nChecksum\t" ++ [c]).take 2).drop 2) = [] := by
    simp [str_crlf_checksum, getlines, getlinesAux]
  have hx : extractBlock d.readcharbuf = some (2, str "\r\nChecksum\t" ++ [c], rest) := by
    rw [hbuf]; exact extractBlock_empty_block c rest
  have hit : blockIter filter d =
      some { d with readcharbuf := rest,
                    valid_blocks := (d.valid_blocks + 1) % UINT_MOD,
                    received_bytes := (d.received_bytes + 12) % ULONG_MOD,
                    extracted := d.extracted ++ [str "\r\nChecksum\t" ++ [c]] } := by
    rw [blockIter_eq hrun hx, processBlock_valid filter { d with readcharbuf := rest } hv hrun,
      hlines, hlen]
    simp
  have hframe : frame [] c = str "\r\nChecksum\t" ++ [c] := by
    simp [frame, str_crlf_checksum, str_checksum, str]
  have hfeed : feed filter init (frame [] c) =
      { init with received_bytes := (init.received_bytes + (frame [] c).length) % ULONG_MOD,
                  extracted := init.extracted ++ [frame [] c],
                  valid_blocks := (init.valid_blocks + 1) % UINT_MOD,
                  cout := init.cout ++
                    (([] : List Bytes).filter
                      (fun line => passesFilter filter (nameOf line))).map recordOf } :=
    feed_frame filter init [] (by simp) c (by rw [hframe]; exact hsum) rfl rfl
  rw [hframe, hlen] at hfeed
  have hrunf : run filter [str "\r\nChecksum\t" ++ [c]] =
      feed filter init (str "\r\nChecksum\t" ++ [c]) := rfl
  refine ⟨?_, hlen, hx, hv, (isValidBlock_iff (by rw [hlen])).2 hv, hlines, hit, ?_, ?_⟩
  · simp [str_crlf_checksum] at hsum
    omega
  · intro h1 h2
    refine ⟨_, hit, ?_, ?_, rfl, rfl, rfl, rfl⟩
    · exact Nat.mod_eq_of_lt h1
    · exact Nat.mod_eq_of_lt h2
  · rw [hrunf, hfeed]
    simp [init, UINT_MOD, ULONG_MOD]

theorem C22_block_without_lines_is_accepted_witness :
    (init.aborted = false ∧
      ({ init with readcharbuf := str "\r\nChecksum\t" ++ [173] ++ str "\r\nV" } :
        Decoder).readcharbuf = str "\r\nChecksum\t" ++ [173] ++ str "\r\nV" ∧
      (str "\r\nChecksum\t" ++ [173]).sum % 256 = 0) ∧
    blockIter [] { init with readcharbuf := str "\r\nChecksum\t" ++ [173] ++ str "\r\nV" } =
      some { init with readcharbuf := str "\r\nV", valid_blocks := 1, received_bytes := 12,
                       extracted := [str "\r\nChecksum\t" ++ [173]] } :=
  ⟨⟨rfl, rfl, by decide⟩,
    (C22_block_without_lines_is_accepted []
      { init with readcharbuf := str "\r\nChecksum\t" ++ [173] ++ str "\r\nV" } 173
      (str "\r\nV") rfl rfl (by decide)).2.2.2.2.2.2.1⟩
end VEDirect
